import Mathlib

/-!
# emvisi2: normalised cross-correlation over integral images (`fwncc.cpp`)

A shallow embedding of `FNcc` (plain and masked engine), `FWNcc` (weighted
engine) and `FNccMC` (multi-channel adapter) together with theorems about the
integral tables, the window rectangles and the correlation values.

Conventions of the embedding

* An 8-bit single-channel `cv::Mat` is an `Img`: its header fields and a pixel
  function `px row col`.
* Buffers addressed through a row pointer plus a column offset are functions
  `row → column → value` (`Tbl`).  A read whose row or column lies outside the
  allocated table yields `none`.
* A `float`/`double` value is a `Flt K`: an element of a linearly ordered field
  `K`, `+inf`, `-inf` or NaN, with the IEEE 754 rules for the operations on
  infinities and NaN (`1.0f/0` is `+inf`, `inf*0` is NaN, a comparison with NaN
  is false).  Arithmetic on finite values is exact; `sqrtf` and the reciprocal
  square root of finite values are parameters (`FloatOps`); the theorems on
  values take `K = ℝ` with the real square root (`FloatOps.IsExact`).
* `int` index arithmetic is arithmetic in `ℤ` (image sizes and window sizes are
  far below `2^31`); `winSize/2` is truncating division.
* `assert` does not change what a function computes; the asserted conditions
  are stated as separate predicates.
* A pixel loop is the list of its iterations in execution order (`Step`,
  `WStep`); the map it leaves behind is obtained by applying the stores in that
  order (`dstMap`, `svMap`).
* The OpenCV calls `cv::split`, `cv::merge` and `convertTo` have their
  documented meaning: the planes of an image, the interleaving of planes, and
  the multiplication of every element by the scale factor.
-/

namespace Emvisi2

/-! ## Loops and tables -/

/-- The loop `for (i = 0; i < n; i++) s = body i s`. -/
def forLoop {σ : Type} : Nat → (Nat → σ → σ) → σ → σ
  | 0, _, s => s
  | n + 1, body, s => body n (forLoop n body s)

/-- A buffer addressed by row and column. -/
abbrev Tbl (α : Type) := Nat → Nat → α

/-- The store `T[r][c] = v`. -/
def Tbl.set {α : Type} (T : Tbl α) (r c : Nat) (v : α) : Tbl α :=
  fun i j => if i = r ∧ j = c then v else T i j

/-- An 8-bit single-channel image (`cv::Mat` of type `CV_8UC1`): header fields
and pixel values.  `depth` is the OpenCV depth code (`CV_8U` is 0). -/
structure Img where
  rows : Nat
  cols : Nat
  channels : Nat
  depth : Nat
  px : Nat → Nat → Nat

/-- The `CV_8UC1` image of the given size and pixel values. -/
def Img.mk8 (rows cols : Nat) (px : Nat → Nat → Nat) : Img :=
  { rows := rows, cols := cols, channels := 1, depth := 0, px := px }

/-- The half-open integer range `lo, lo+1, ..., hi-1` of a loop
`for (x = lo; x < hi; x++)`. -/
def intRange (lo hi : Int) : List Int :=
  (List.range (hi - lo).toNat).map (fun (i : Nat) => lo + (i : Int))

/-! ## Weighted engine: `FWNcc::prepare` and `FWNcc::fetchRect` -/

section Weighted

variable {K : Type} [LinearOrderedField K]

/-- Modelled from the spec: the constant `NSUMS` of the header `fwncc.h`, which
is not part of the sources; the spec lists eleven running sums per cell. -/
def NSUMS : Nat := 11

/-- Modelled from the spec: index of `Σa` (header `fwncc.h` is missing; the
indices follow the order in which the spec lists the eleven sums). -/
def SUM_A : Nat := 0
/-- Modelled from the spec: index of `Σb`. -/
def SUM_B : Nat := 1
/-- Modelled from the spec: index of `Σw`. -/
def SUM_W : Nat := 2
/-- Modelled from the spec: index of `Σ(w·a)`. -/
def SUM_WA : Nat := 3
/-- Modelled from the spec: index of `Σ(w·b)`. -/
def SUM_WB : Nat := 4
/-- Modelled from the spec: index of `Σ(w·a·b)`. -/
def SUM_WAB : Nat := 5
/-- Modelled from the spec: index of `Σ(w·a²)`. -/
def SUM_WA2 : Nat := 6
/-- Modelled from the spec: index of `Σ(w·b²)`. -/
def SUM_WB2 : Nat := 7
/-- Modelled from the spec: index of `Σa²`. -/
def SUM_A2 : Nat := 8
/-- Modelled from the spec: index of `Σb²`. -/
def SUM_B2 : Nat := 9
/-- Modelled from the spec: index of `Σab`. -/
def SUM_AB : Nat := 10

/-- The statement `sum[x8+k] = sum[x8-NSUMS+k] + v` of `prepare`, where `sum`
points at column `NSUMS` of table row `y+1`. -/
def prepareAcc (T : Tbl K) (y x8 k : Nat) (v : K) : Tbl K :=
  T.set (y + 1) (NSUMS + x8 + k) (T (y + 1) (x8 + k) + v)

/-- Body of the pixel loop of `prepare` (source lines 527-545). -/
def prepareCell (la lb : Nat → Nat) (lw : Option (Nat → K)) (y x : Nat) (T : Tbl K) : Tbl K :=
  let va : K := (la x : K)
  let vb : K := (lb x : K)
  let vw : K := match lw with
    | some l => l x
    | none => 1
  let x8 := x * NSUMS
  let T := prepareAcc T y x8 SUM_A va
  let T := prepareAcc T y x8 SUM_B vb
  let T := prepareAcc T y x8 SUM_W vw
  let T := prepareAcc T y x8 SUM_WA (va * vw)
  let T := prepareAcc T y x8 SUM_WB (vb * vw)
  let T := prepareAcc T y x8 SUM_WAB (va * vb * vw)
  let T := prepareAcc T y x8 SUM_WA2 (va * va * vw)
  let T := prepareAcc T y x8 SUM_WB2 (vb * vb * vw)
  let T := prepareAcc T y x8 SUM_A2 (va * va)
  let T := prepareAcc T y x8 SUM_B2 (vb * vb)
  prepareAcc T y x8 SUM_AB (va * vb)

/-- Body of the row loop of `prepare` (source lines 514-551): clear the first
cell of table row `y+1`, accumulate along the row, then add the row above. -/
def prepareRow (a b : Img) (w : Option (Nat → Nat → K)) (y : Nat) (T : Tbl K) : Tbl K :=
  let la := a.px y
  let lb := b.px y
  let lw : Option (Nat → K) := w.map (fun m => m y)
  -- for (int x=-NSUMS; x<0; x++) sum[x]=0;
  let T := forLoop NSUMS (fun i T => T.set (y + 1) i 0) T
  let T := forLoop a.cols (prepareCell la lb lw y) T
  -- for (int x=0; x<n; x++) sum[x] += upsum[x];
  forLoop (a.cols * NSUMS)
    (fun x T => T.set (y + 1) (NSUMS + x) (T (y + 1) (NSUMS + x) + T y (NSUMS + x))) T

/-- The conditions asserted at the start of `FWNcc::prepare` (lines 504-509). -/
def prepareAsserts (a b : Img) : Prop :=
  a.cols = b.cols ∧ a.rows = b.rows ∧ a.channels = 1 ∧ b.channels = 1 ∧
    a.depth = 8 ∧ b.depth = 8

/-- The table built by `FWNcc::prepare(a, b, w)`: `a.rows + 1` rows of
`NSUMS * (a.cols + 1)` values, zero-initialised.  `w = none` is the empty
weight map. -/
def prepare (a b : Img) (w : Option (Nat → Nat → K)) : Tbl K :=
  forLoop a.rows (prepareRow a b w) (fun _ _ => 0)

/-- State of the weighted engine after `prepare`: the table and its size in
cells (`rows + 1` by `cols + 1`). -/
structure FWNcc (K : Type) where
  integral : Tbl K
  trows : Nat
  tcols : Nat

/-- The engine state left by `FWNcc::prepare`. -/
def FWNcc.prepare (a b : Img) (w : Option (Nat → Nat → K)) : FWNcc K :=
  { integral := Emvisi2.prepare a b w, trows := a.rows + 1, tcols := a.cols + 1 }

/-- Whether table cell `(y, x)` lies inside the allocated table. -/
def FWNcc.inTable (e : FWNcc K) (x y : Int) : Prop :=
  0 ≤ y ∧ y < e.trows ∧ 0 ≤ x ∧ x < e.tcols

instance (e : FWNcc K) (x y : Int) : Decidable (e.inTable x y) := by
  unfold FWNcc.inTable
  infer_instance

/-- `FWNcc::fetchRect`: `s[i] = tl[i] - tr[i] - bl[i] + br[i]` for the four
corner cells; `none` when a corner lies outside the table. -/
def FWNcc.fetchRect (e : FWNcc K) (x1 y1 x2 y2 : Int) : Option (Nat → K) :=
  if e.inTable x1 y1 ∧ e.inTable x2 y1 ∧ e.inTable x1 y2 ∧ e.inTable x2 y2 then
    some (fun i =>
      e.integral y1.toNat (x1.toNat * NSUMS + i) - e.integral y1.toNat (x2.toNat * NSUMS + i)
        - e.integral y2.toNat (x1.toNat * NSUMS + i) + e.integral y2.toNat (x2.toNat * NSUMS + i))
  else none

/-- The weight of pixel `(y, x)`: 1 when no weight map is given. -/
def weightAt (w : Option (Nat → Nat → K)) (y x : Nat) : K :=
  match w with
  | some m => m y x
  | none => 1

/-- The eleven per-pixel quantities whose window sums the weighted engine
uses, in the order `a, b, w, w·a, w·b, w·a·b, w·a², w·b², a², b², a·b`. -/
def quantity (a b : Img) (w : Option (Nat → Nat → K)) (k : Nat) (y x : Nat) : K :=
  let va : K := (a.px y x : K)
  let vb : K := (b.px y x : K)
  let vw : K := weightAt w y x
  match k with
  | 0 => va
  | 1 => vb
  | 2 => vw
  | 3 => vw * va
  | 4 => vw * vb
  | 5 => vw * va * vb
  | 6 => vw * va ^ 2
  | 7 => vw * vb ^ 2
  | 8 => va ^ 2
  | 9 => vb ^ 2
  | _ => va * vb

/-- The direct sum of `f` over the pixels with `x1 ≤ x < x2` and `y1 ≤ y < y2`. -/
def rectSum {α : Type} [AddCommMonoid α] (f : Nat → Nat → α) (x1 y1 x2 y2 : Nat) : α :=
  ∑ y in Finset.Ico y1 y2, ∑ x in Finset.Ico x1 x2, f y x

end Weighted

section WeightedAux

variable {K : Type} [LinearOrderedField K]

/-- The value added to the `k`-th running sum at column `x` of a row, written
as in the pixel loop of `prepare` (the right-hand sides of lines 533-543). -/
def addend (la lb : Nat → Nat) (lw : Option (Nat → K)) (x : Nat) (k : Nat) : K :=
  let va : K := (la x : K)
  let vb : K := (lb x : K)
  let vw : K := match lw with
    | some l => l x
    | none => 1
  match k with
  | 0 => va
  | 1 => vb
  | 2 => vw
  | 3 => va * vw
  | 4 => vb * vw
  | 5 => va * vb * vw
  | 6 => va * va * vw
  | 7 => vb * vb * vw
  | 8 => va * va
  | 9 => vb * vb
  | _ => va * vb

/-- The sum of `f` over the pixels with row `< r` and column `< x`. -/
def prefixSum {α : Type} [AddCommMonoid α] (f : Nat → Nat → α) (r x : Nat) : α :=
  ∑ i in Finset.range r, ∑ j in Finset.range x, f i j

end WeightedAux

/-! ## Plain and masked engine: `FNcc` -/

/-- Modelled from the spec: the summation record `CSum` of the header
`fwncc.h`, which is not part of the sources: the running sums
`Σa, Σa², Σb, Σb², Σab`.  The fields are floating-point in the source; every
value stored is a sum of products of 8-bit samples, so integers are exact. -/
@[ext]
structure CSum where
  a : Int
  a2 : Int
  b : Int
  b2 : Int
  ab : Int
deriving DecidableEq

/-- The all-zero record written by `memset`. -/
def CSum.zero : CSum := ⟨0, 0, 0, 0, 0⟩

/-- Modelled from the spec: `CSum::setaddsub4(a, b, c, d)` of the missing
header, the inclusion-exclusion `a - b + c - d` of four table corners
(top-left − top-right + bottom-right − bottom-left at its call sites). -/
def CSum.setaddsub4 (a b c d : CSum) : CSum :=
  ⟨a.a - b.a + c.a - d.a, a.a2 - b.a2 + c.a2 - d.a2, a.b - b.b + c.b - d.b,
    a.b2 - b.b2 + c.b2 - d.b2, a.ab - b.ab + c.ab - d.ab⟩

/-- State of an `FNcc` engine.  `integral` is the buffer `integral[row*width + col]`
seen as rows and columns; `mask = none` is the empty mask. -/
structure FNcc where
  width : Nat
  height : Nat
  integral : Tbl CSum
  a : Img
  b : Img
  mask : Option Img
  mask_integral : Tbl Int

/-- The empty `cv::Mat`. -/
def Img.empty : Img := { rows := 0, cols := 0, channels := 1, depth := 0, px := fun _ _ => 0 }

/-- The engine after its constructor (`width = 0`, no buffers). -/
def FNcc.init : FNcc :=
  { width := 0, height := 0, integral := fun _ _ => CSum.zero, a := Img.empty, b := Img.empty,
    mask := none, mask_integral := fun _ _ => 0 }

/-- Row `y` of the mask-coverage table loop of `setModel` (lines 53-60):
`m[x] = mup[x] - mup[x-1] + m[x-1] + (mask(y,x) ? 1 : 0)`, with `m` at column 1
of row `y+1` and `mup` at column 1 of row `y`. -/
def maskIntegralRow (mask : Img) (y : Nat) (M : Tbl Int) : Tbl Int :=
  forLoop mask.cols
    (fun x M => M.set (y + 1) (x + 1)
      (M y (x + 1) - M y x + M (y + 1) x + (if mask.px y x ≠ 0 then 1 else 0 : Int))) M

/-- The mask-coverage table built by `setModel` for a non-empty mask. -/
def maskIntegral (mask : Img) : Tbl Int :=
  forLoop mask.rows (maskIntegralRow mask) (fun _ _ => 0)

/-- Whether the mask excludes pixel `x` of the current row: `m && m[x]==0`. -/
def maskedOut (m : Option (Nat → Nat)) (x : Nat) : Bool :=
  match m with
  | some l => l x == 0
  | none => false

/-- First pixel loop of a row of `setModel` (lines 92-96), acting on the model
image's pixels (which the engine shares with the caller) and on the table:
`if (m && m[x]==0) line[x]=0; p[x].b = p[x-1].b + line[x];
p[x].b2 = p[x-1].b2 + line[x]*line[x]`, with `p` at column 1 of row `y+1`. -/
def setModelAccum (m : Option (Nat → Nat)) (y x : Nat) (s : Tbl Nat × Tbl CSum) :
    Tbl Nat × Tbl CSum :=
  let line := if maskedOut m x then s.1.set y x 0 else s.1
  let T := s.2
  let T := T.set (y + 1) (x + 1) { T (y + 1) (x + 1) with b := (T (y + 1) x).b + (line y x : Int) }
  let T := T.set (y + 1) (x + 1)
    { T (y + 1) (x + 1) with b2 := (T (y + 1) x).b2 + (line y x : Int) * (line y x : Int) }
  (line, T)

/-- Second pixel loop of a row of `setModel` (lines 97-100):
`p[x].b += p[x-width].b; p[x].b2 += p[x-width].b2`. -/
def setModelAddUp (y x : Nat) (T : Tbl CSum) : Tbl CSum :=
  let T := T.set (y + 1) (x + 1) { T (y + 1) (x + 1) with b := (T (y + 1) (x + 1)).b + (T y (x + 1)).b }
  T.set (y + 1) (x + 1) { T (y + 1) (x + 1) with b2 := (T (y + 1) (x + 1)).b2 + (T y (x + 1)).b2 }

/-- Body of the row loop of `setModel` (lines 83-101). -/
def setModelRow (cols : Nat) (mask : Option Img) (y : Nat) (s : Tbl Nat × Tbl CSum) :
    Tbl Nat × Tbl CSum :=
  -- memset(p-1, 0, sizeof(CSum))
  let T := s.2.set (y + 1) 0 CSum.zero
  let m : Option (Nat → Nat) := mask.map (fun k => k.px y)
  let s1 := forLoop cols (setModelAccum m y) (s.1, T)
  (s1.1, forLoop cols (setModelAddUp y) s1.2)

/-- The conditions asserted by `FNcc::setModel` (lines 65-66). -/
def setModelAsserts (b : Img) : Prop := b.channels = 1 ∧ b.depth = 0

/-- `FNcc::setModel(b, mask)`.  `fresh` is the content of the newly allocated,
uninitialised table `new CSum[width*height]`. -/
def FNcc.setModel (e : FNcc) (fresh : Tbl CSum) (b : Img) (mask : Option Img) : FNcc :=
  let mi := match mask with
    | some k => maskIntegral k
    | none => e.mask_integral
  let width := b.cols + 1
  let height := b.rows + 1
  -- memset(integral, 0, sizeof(CSum)*width)
  let T := forLoop width (fun x T => T.set 0 x CSum.zero) fresh
  let s := forLoop b.rows (setModelRow b.cols mask) (b.px, T)
  { width := width, height := height, integral := s.2, a := e.a, b := { b with px := s.1 },
    mask := mask, mask_integral := mi }

/-- Body of the pixel loop of `setImage` (lines 123-130).  The packed pair
`a_a2` holds `a` in its low and `a2` in its high half (`_mm_set_pd(ax*ax, ax)`). -/
def setImageCell (aline bline : Nat → Nat) (m : Option (Nat → Nat)) (y x : Nat) (T : Tbl CSum) :
    Tbl CSum :=
  let ax : Nat := if maskedOut m x then 0 else aline x
  let T := T.set (y + 1) (x + 1)
    { T (y + 1) (x + 1) with
      a := ((T (y + 1) x).a - (T y x).a) + ((T y (x + 1)).a + (ax : Int))
      a2 := ((T (y + 1) x).a2 - (T y x).a2) + ((T y (x + 1)).a2 + ((ax : Int) * (ax : Int))) }
  T.set (y + 1) (x + 1)
    { T (y + 1) (x + 1) with
      ab := (T (y + 1) x).ab - (T y x).ab + (T y (x + 1)).ab + (ax : Int) * (bline x : Int) }

/-- The conditions asserted by `FNcc::setImage` (lines 108-110). -/
def setImageAsserts (e : FNcc) (a : Img) : Prop :=
  (a.cols + 1 = e.width ∧ a.rows + 1 = e.height) ∧ a.channels = 1 ∧ a.depth = 0

/-- `FNcc::setImage(a)`. -/
def FNcc.setImage (e : FNcc) (a : Img) : FNcc :=
  let T := forLoop a.rows
    (fun y T => forLoop a.cols
      (setImageCell (a.px y) (e.b.px y) (e.mask.map (fun k => k.px y)) y) T) e.integral
  { e with a := a, integral := T }

/-! ## `float` values -/

/-- The operations on finite `float` values that are not field operations:
`sqrtf` and the reciprocal square root (`_mm_rsqrt_ss`, or `1/sqrtf(x)` in
`InvSqrt`), as functions of a non-negative, respectively positive, real number. -/
structure FloatOps (K : Type) where
  sqrtf : K → K
  rsqrt : K → K

/-- Exact real arithmetic: `sqrtf` is the real square root and the reciprocal
square root is `1/sqrt`. -/
def FloatOps.IsExact (F : FloatOps ℝ) : Prop :=
  (∀ t, F.sqrtf t = Real.sqrt t) ∧ (∀ t, F.rsqrt t = 1 / Real.sqrt t)

/-- A `float` (or `double`) value: a real number, `+inf`, `-inf` or NaN.
Finite values are exact (rounding and overflow are not modelled) and zero is
`+0`. -/
inductive Flt (K : Type) where
  | fin (v : K)
  | pinf
  | ninf
  | nan

section FloatValues

variable {K : Type} [LinearOrderedField K]

/-- Conversion of an `int` to `float`. -/
def Flt.ofInt (n : Int) : Flt K := Flt.fin (n : K)

/-- The product of an infinity and a finite value `v`, also the quotient of a
finite value `v` by `+0`: NaN for `v = 0`, otherwise the infinity whose sign is
the product of the signs (`neg` says that the infinity is `-inf`). -/
def Flt.infMul (neg : Bool) (v : K) : Flt K :=
  if v = 0 then Flt.nan
  else if v < 0 then (if neg then Flt.pinf else Flt.ninf)
  else (if neg then Flt.ninf else Flt.pinf)

/-- IEEE 754 negation. -/
def Flt.neg : Flt K → Flt K
  | Flt.fin v => Flt.fin (-v)
  | Flt.pinf => Flt.ninf
  | Flt.ninf => Flt.pinf
  | Flt.nan => Flt.nan

/-- IEEE 754 addition. -/
def Flt.add : Flt K → Flt K → Flt K
  | Flt.fin a, Flt.fin b => Flt.fin (a + b)
  | Flt.fin _, Flt.pinf => Flt.pinf
  | Flt.fin _, Flt.ninf => Flt.ninf
  | Flt.fin _, Flt.nan => Flt.nan
  | Flt.pinf, Flt.fin _ => Flt.pinf
  | Flt.pinf, Flt.pinf => Flt.pinf
  | Flt.pinf, Flt.ninf => Flt.nan
  | Flt.pinf, Flt.nan => Flt.nan
  | Flt.ninf, Flt.fin _ => Flt.ninf
  | Flt.ninf, Flt.pinf => Flt.nan
  | Flt.ninf, Flt.ninf => Flt.ninf
  | Flt.ninf, Flt.nan => Flt.nan
  | Flt.nan, _ => Flt.nan

/-- IEEE 754 subtraction. -/
def Flt.sub (a b : Flt K) : Flt K := Flt.add a (Flt.neg b)

/-- IEEE 754 multiplication. -/
def Flt.mul : Flt K → Flt K → Flt K
  | Flt.fin a, Flt.fin b => Flt.fin (a * b)
  | Flt.fin a, Flt.pinf => Flt.infMul false a
  | Flt.fin a, Flt.ninf => Flt.infMul true a
  | Flt.fin _, Flt.nan => Flt.nan
  | Flt.pinf, Flt.fin b => Flt.infMul false b
  | Flt.pinf, Flt.pinf => Flt.pinf
  | Flt.pinf, Flt.ninf => Flt.ninf
  | Flt.pinf, Flt.nan => Flt.nan
  | Flt.ninf, Flt.fin b => Flt.infMul true b
  | Flt.ninf, Flt.pinf => Flt.ninf
  | Flt.ninf, Flt.ninf => Flt.pinf
  | Flt.ninf, Flt.nan => Flt.nan
  | Flt.nan, _ => Flt.nan

/-- IEEE 754 division, a zero divisor being `+0`. -/
def Flt.div : Flt K → Flt K → Flt K
  | Flt.fin a, Flt.fin b => if b = 0 then Flt.infMul false a else Flt.fin (a / b)
  | Flt.fin _, Flt.pinf => Flt.fin 0
  | Flt.fin _, Flt.ninf => Flt.fin 0
  | Flt.fin _, Flt.nan => Flt.nan
  | Flt.pinf, Flt.fin b => if b < 0 then Flt.ninf else Flt.pinf
  | Flt.pinf, _ => Flt.nan
  | Flt.ninf, Flt.fin b => if b < 0 then Flt.pinf else Flt.ninf
  | Flt.ninf, _ => Flt.nan
  | Flt.nan, _ => Flt.nan

/-- The comparison `a < b` of IEEE 754: false when an operand is NaN. -/
def Flt.lt : Flt K → Flt K → Bool
  | Flt.fin a, Flt.fin b => decide (a < b)
  | Flt.fin _, Flt.pinf => true
  | Flt.fin _, Flt.ninf => false
  | Flt.fin _, Flt.nan => false
  | Flt.pinf, _ => false
  | Flt.ninf, Flt.fin _ => true
  | Flt.ninf, Flt.pinf => true
  | Flt.ninf, Flt.ninf => false
  | Flt.ninf, Flt.nan => false
  | Flt.nan, _ => false

instance : Neg (Flt K) := ⟨Flt.neg⟩

instance : Add (Flt K) := ⟨Flt.add⟩

instance : Sub (Flt K) := ⟨Flt.sub⟩

instance : Mul (Flt K) := ⟨Flt.mul⟩

instance : Div (Flt K) := ⟨Flt.div⟩

instance : LT (Flt K) := ⟨fun a b => Flt.lt a b = true⟩

instance (a b : Flt K) : Decidable (a < b) :=
  inferInstanceAs (Decidable (Flt.lt a b = true))

/-- `sqrtf(x)`: NaN for a negative argument. -/
def Flt.sqrtf (F : FloatOps K) : Flt K → Flt K
  | Flt.fin v => if v < 0 then Flt.nan else Flt.fin (F.sqrtf v)
  | Flt.pinf => Flt.pinf
  | Flt.ninf => Flt.nan
  | Flt.nan => Flt.nan

/-- The reciprocal square root (`_mm_rsqrt_ss(x)`, `1/sqrtf(x)`): `+inf` at 0,
0 at `+inf`, NaN for a negative argument. -/
def Flt.rsqrt (F : FloatOps K) : Flt K → Flt K
  | Flt.fin v => if v < 0 then Flt.nan else if v = 0 then Flt.pinf else Flt.fin (F.rsqrt v)
  | Flt.pinf => Flt.fin 0
  | Flt.ninf => Flt.nan
  | Flt.nan => Flt.nan

/-- `fabs(x)`. -/
def Flt.fabs : Flt K → Flt K
  | Flt.fin v => Flt.fin |v|
  | Flt.pinf => Flt.pinf
  | Flt.ninf => Flt.pinf
  | Flt.nan => Flt.nan

end FloatValues

/-- The macro `FMAX(a,b) (a>b ? a:b)` (line 139). -/
def FMAX {α : Type} [LT α] [DecidableRel (fun a b : α => a < b)] (a b : α) : α :=
  if a > b then a else b

/-- The macro `MAX(a,b) ((a) < (b) ? (b) : (a))` of the OpenCV headers, on `float` values. -/
def MAX {α : Type} [LT α] [DecidableRel (fun a b : α => a < b)] (a b : α) : α :=
  if a < b then b else a

/-- `texeval(a, b, n) = (a+b)*n` (line 134). -/
def texeval {α : Type} [Add α] [Mul α] (a b n : α) : α := (a + b) * n

/-! ## The pixel loops of `FNcc::computeNcc` -/

/-- Header of a caller-supplied output map. -/
structure OutMap where
  rows : Nat
  cols : Nat
deriving DecidableEq

/-- `dst.cols`, which is 0 for an empty `cv::Mat` (`none`). -/
def outCols (dst : Option OutMap) : Int :=
  match dst with
  | some d => (d.cols : Int)
  | none => 0

/-- What one iteration of a pixel loop of `computeNcc` does: the output
location (row `y`, column `x` of `dline`/`sv`), the integral-table cells
`(row, column)` it reads, the value `n` it asserts positive (masked engine),
and the values it stores to `dline[x]` and `sv[x]` (`none` where that output is
not written).  `out = none` when a value it needs comes from a read outside a
table or outside the mask.  `K` is the type of the stored values (`Flt` of the
real numbers for the code). -/
structure Step (K : Type) where
  y : Int
  x : Int
  reads : List (Int × Int)
  nAssert : Option Int
  out : Option (Option K × Option K)

section Engine

variable {K : Type} [LinearOrderedField K]

/-- The arithmetic shared by all pixel loops (e.g. lines 185-202) once the
window sums `s`, `N` and `sqrtN` are known: the values stored to `dline[x]`
and `sv[x]`. -/
def nccValues (F : FloatOps K) (hasDst hasSv : Bool) (s : CSum) (N sqrtN : Flt K) :
    Option (Flt K) × Option (Flt K) :=
  let num : Flt K := Flt.ofInt s.ab - N * Flt.ofInt s.a * Flt.ofInt s.b
  let vara : Flt K := Flt.ofInt s.a2 - N * Flt.ofInt s.a * Flt.ofInt s.a
  let varb : Flt K := Flt.ofInt s.b2 - N * Flt.ofInt s.b * Flt.ofInt s.b
  if hasSv then
    let vara := Flt.sqrtf F (FMAX (Flt.fin 0) vara)
    let varb := Flt.sqrtf F (FMAX (Flt.fin 0) varb)
    let d : Option (Flt K) :=
      if hasDst then
        let f := vara * varb
        some (if f > Flt.fin 1 then num / (vara * varb) else Flt.fin 0)
      else none
    (d, some (texeval vara varb sqrtN))
  else if hasDst then
    let f := vara * varb
    (some (if f < Flt.fin 1 then Flt.fin 0 else num * Flt.rsqrt F f), none)
  else (none, none)

/-- Read of `integral[row*width + col]`; `none` outside the table. -/
def FNcc.cell (e : FNcc) (p : Int × Int) : Option CSum :=
  if 0 ≤ p.1 ∧ p.1 < e.height ∧ 0 ≤ p.2 ∧ p.2 < e.width then
    some (e.integral p.1.toNat p.2.toNat)
  else none

/-- The window sums `sd.setaddsub4(c1, c2, c3, c4)` read from four table cells. -/
def FNcc.sum4 (e : FNcc) (c1 c2 c3 c4 : Int × Int) : Option CSum :=
  match e.cell c1, e.cell c2, e.cell c3, e.cell c4 with
  | some s1, some s2, some s3, some s4 => some (CSum.setaddsub4 s1 s2 s3 s4)
  | _, _, _, _ => none

/-- `MAX(0, y-w2-1)`. -/
def yupOf (w2 y : Int) : Int := max 0 (y - w2 - 1)

/-- `MIN(height-1, y+w2)`. -/
def ydownOf (e : FNcc) (w2 y : Int) : Int := min ((e.height : Int) - 1) (y + w2)

/-- One iteration of the left-edge loop of `computeNcc_nomask` (lines 173-204):
corners `up[0], upr[x], downr[x], down[0]`. -/
def nomaskLeft (F : FloatOps K) (e : FNcc) (hasDst hasSv : Bool) (w2 y x : Int) :
    Step (Flt K) :=
  let yup := yupOf w2 y
  let ydown := ydownOf e w2 y
  let N : Flt K := Flt.fin 1 / Flt.ofInt (max ((x + w2) * (ydown - yup)) 1)
  let sqrtN := Flt.sqrtf F N
  let c1 := (yup, (0 : Int))
  let c2 := (yup, w2 + x)
  let c3 := (ydown, w2 + x)
  let c4 := (ydown, (0 : Int))
  { y := y, x := x, reads := [c1, c2, c3, c4], nAssert := none,
    out := (e.sum4 c1 c2 c3 c4).map (fun s => nccValues F hasDst hasSv s N sqrtN) }

/-- One iteration of the interior loop of `computeNcc_nomask` (lines 206-234):
corners `upl[x], upr[x], downr[x], downl[x]`. -/
def nomaskMid (F : FloatOps K) (e : FNcc) (hasDst hasSv : Bool) (w2 y x : Int) :
    Step (Flt K) :=
  let yup := yupOf w2 y
  let ydown := ydownOf e w2 y
  let N : Flt K := Flt.fin 1 / (Flt.ofInt (ydown - yup) * Flt.ofInt (w2 * 2 + 1))
  let sqrtN := Flt.sqrtf F N
  let c1 := (yup, -w2 - 1 + x)
  let c2 := (yup, w2 + x)
  let c3 := (ydown, w2 + x)
  let c4 := (ydown, -w2 - 1 + x)
  { y := y, x := x, reads := [c1, c2, c3, c4], nAssert := none,
    out := (e.sum4 c1 c2 c3 c4).map (fun s => nccValues F hasDst hasSv s N sqrtN) }

/-- One iteration of the right-edge loop of `computeNcc_nomask` (lines 235-266):
corners `upl[x], up[dst.cols], down[dst.cols], downl[x]`. -/
def nomaskRight (F : FloatOps K) (e : FNcc) (hasDst hasSv : Bool) (dstCols w2 y x : Int) :
    Step (Flt K) :=
  let yup := yupOf w2 y
  let ydown := ydownOf e w2 y
  let N : Flt K := Flt.fin 1 / Flt.ofInt (max ((ydown - yup) * (dstCols - (x - w2 - 1))) 1)
  let sqrtN := Flt.sqrtf F N
  let c1 := (yup, -w2 - 1 + x)
  let c2 := (yup, dstCols)
  let c3 := (ydown, dstCols)
  let c4 := (ydown, -w2 - 1 + x)
  { y := y, x := x, reads := [c1, c2, c3, c4], nAssert := none,
    out := (e.sum4 c1 c2 c3 c4).map (fun s => nccValues F hasDst hasSv s N sqrtN) }

/-- The conditions asserted by `computeNcc_nomask` (lines 148-149); every
`OutMap` stands for a `CV_32FC1` map. -/
def computeNccAsserts (e : FNcc) (dst : Option OutMap) : Prop :=
  match dst with
  | some d => d.cols + 1 = e.width ∧ d.rows + 1 = e.height
  | none => True

/-- `FNcc::computeNcc_nomask(winSize, dst, sumvar)`: the iterations of its
pixel loops, in execution order.  `dst = none` / `sumvar = none` is an empty
output map. -/
def FNcc.computeNcc_nomask (F : FloatOps K) (e : FNcc) (winSize : Int)
    (dst sumvar : Option OutMap) : List (Step (Flt K)) :=
  let w2 : Int := Int.tdiv winSize 2
  let hasDst := dst.isSome
  let hasSv := sumvar.isSome
  let dstCols := outCols dst
  (intRange 0 ((e.height : Int) - 1)).flatMap (fun y =>
    (intRange 0 (w2 + 1)).map (nomaskLeft F e hasDst hasSv w2 y)
      ++ (intRange (w2 + 1) (dstCols - w2)).map (nomaskMid F e hasDst hasSv w2 y)
      ++ (intRange (dstCols - w2) dstCols).map (nomaskRight F e hasDst hasSv dstCols w2 y))

/-- Read of `mask.ptr(y)[x]`; `none` outside the mask (or without a mask). -/
def FNcc.maskAt (e : FNcc) (y x : Int) : Option Nat :=
  match e.mask with
  | some k =>
    if 0 ≤ y ∧ y < k.rows ∧ 0 ≤ x ∧ x < k.cols then some (k.px y.toNat x.toNat) else none
  | none => none

/-- Read of `mask_integral.ptr<int>(row)[col]`; `none` outside the table,
which has one row and one column more than the mask. -/
def FNcc.maskCell (e : FNcc) (p : Int × Int) : Option Int :=
  match e.mask with
  | some k =>
    if 0 ≤ p.1 ∧ p.1 < k.rows + 1 ∧ 0 ≤ p.2 ∧ p.2 < k.cols + 1 then
      some (e.mask_integral p.1.toNat p.2.toNat)
    else none
  | none => none

/-- The count `n = mask_up[l] - mask_down[l] - mask_up[r] + mask_down[r]`. -/
def FNcc.maskCount (e : FNcc) (yup ydown l r : Int) : Option Int :=
  match e.maskCell (yup, l), e.maskCell (ydown, l), e.maskCell (yup, r), e.maskCell (ydown, r) with
  | some ul, some dl, some ur, some dr => some (ul - dl - ur + dr)
  | _, _, _, _ => none

/-- One iteration of a pixel loop of `computeNcc_mask` with table corners
`c1..c4` and mask-table columns `l`, `r` (lines 310-346, 354-387, 391-425):
a pixel with mask value 0 gets zeros; otherwise `N = 1.0f/n`. -/
def maskStep (F : FloatOps K) (e : FNcc) (hasDst hasSv : Bool) (w2 y x : Int)
    (c1 c2 c3 c4 : Int × Int) (l r : Int) : Step (Flt K) :=
  let yup := yupOf w2 y
  let ydown := ydownOf e w2 y
  match e.maskAt y x with
  | none => { y := y, x := x, reads := [], nAssert := none, out := none }
  | some mx =>
    if mx = 0 then
      { y := y, x := x, reads := [], nAssert := none,
        out := some (if hasDst then some (Flt.fin 0) else none,
          if hasSv then some (Flt.fin 0) else none) }
    else
      let n := e.maskCount yup ydown l r
      { y := y, x := x, reads := [c1, c2, c3, c4], nAssert := n,
        out := match n, e.sum4 c1 c2 c3 c4 with
          | some n, some s =>
            let N : Flt K := Flt.fin 1 / Flt.ofInt n
            some (nccValues F hasDst hasSv s N (Flt.sqrtf F N))
          | _, _ => none }

/-- Left-edge iteration of `computeNcc_mask` (lines 309-348). -/
def maskLeft (F : FloatOps K) (e : FNcc) (hasDst hasSv : Bool) (w2 y x : Int) :
    Step (Flt K) :=
  let yup := yupOf w2 y
  let ydown := ydownOf e w2 y
  maskStep F e hasDst hasSv w2 y x (yup, 0) (yup, w2 + x) (ydown, w2 + x) (ydown, 0) 0 (x + w2)

/-- Interior iteration of `computeNcc_mask` (lines 352-388). -/
def maskMid (F : FloatOps K) (e : FNcc) (hasDst hasSv : Bool) (w2 y x : Int) :
    Step (Flt K) :=
  let yup := yupOf w2 y
  let ydown := ydownOf e w2 y
  maskStep F e hasDst hasSv w2 y x (yup, -w2 - 1 + x) (yup, w2 + x) (ydown, w2 + x)
    (ydown, -w2 - 1 + x) (x - w2 - 1) (x + w2)

/-- Right-edge iteration of `computeNcc_mask` (lines 389-427). -/
def maskRight (F : FloatOps K) (e : FNcc) (hasDst hasSv : Bool) (dstCols w2 y x : Int) :
    Step (Flt K) :=
  let yup := yupOf w2 y
  let ydown := ydownOf e w2 y
  maskStep F e hasDst hasSv w2 y x (yup, -w2 - 1 + x) (yup, dstCols) (ydown, dstCols)
    (ydown, -w2 - 1 + x) (x - w2 - 1) dstCols

/-- `FNcc::computeNcc_mask(winSize, dst, sumvar)`: the iterations of its pixel
loops, in execution order. -/
def FNcc.computeNcc_mask (F : FloatOps K) (e : FNcc) (winSize : Int)
    (dst sumvar : Option OutMap) : List (Step (Flt K)) :=
  let w2 : Int := Int.tdiv winSize 2
  let hasDst := dst.isSome
  let hasSv := sumvar.isSome
  let dstCols := outCols dst
  (intRange 0 ((e.height : Int) - 1)).flatMap (fun y =>
    (intRange 0 (w2 + 1)).map (maskLeft F e hasDst hasSv w2 y)
      ++ (intRange (w2 + 1) (dstCols - w2)).map (maskMid F e hasDst hasSv w2 y)
      ++ (intRange (dstCols - w2) dstCols).map (maskRight F e hasDst hasSv dstCols w2 y))

/-- `FNcc::computeNcc`: the masked engine when a mask is set, else the plain one. -/
def FNcc.computeNcc (F : FloatOps K) (e : FNcc) (winSize : Int) (dst sumvar : Option OutMap) :
    List (Step (Flt K)) :=
  if e.mask.isSome then e.computeNcc_mask F winSize dst sumvar
  else e.computeNcc_nomask F winSize dst sumvar

end Engine

/-! ## Reference quantities for the tables -/

/-- Pixel value seen by `setModel`/`setImage` in a row: zero where the mask excludes it. -/
def rowVal (m : Option (Nat → Nat)) (line : Nat → Nat) (x : Nat) : Nat :=
  if maskedOut m x then 0 else line x

/-- Pixel values with every pixel whose mask value is 0 replaced by 0. -/
def maskedPx (mask : Option Img) (px : Nat → Nat → Nat) (y x : Nat) : Nat :=
  match mask with
  | some k => if k.px y x = 0 then 0 else px y x
  | none => px y x

/-- The direct window sums `(Σa', Σa'², Σb', Σb'², Σa'·b')` over the pixels with
`x1 ≤ x < x2` and `y1 ≤ y < y2`, where `a'` and `b'` are the images with the
pixels excluded by the mask replaced by 0. -/
def winSums (mask : Option Img) (a b : Img) (x1 y1 x2 y2 : Nat) : CSum :=
  CSum.mk
    (rectSum (fun i j => (maskedPx mask a.px i j : Int)) x1 y1 x2 y2)
    (rectSum (fun i j => (maskedPx mask a.px i j : Int) ^ 2) x1 y1 x2 y2)
    (rectSum (fun i j => (maskedPx mask b.px i j : Int)) x1 y1 x2 y2)
    (rectSum (fun i j => (maskedPx mask b.px i j : Int) ^ 2) x1 y1 x2 y2)
    (rectSum (fun i j => (maskedPx mask a.px i j : Int) * (maskedPx mask b.px i j : Int))
      x1 y1 x2 y2)

/-- Left table column of the window of pixel column `x`, clipped: `max(0, x-w2-1)`. -/
def winLeft (w2 x : Int) : Int := max 0 (x - w2 - 1)

/-- Right table column of the window of pixel column `x`, clipped: `min(W, x+w2)`. -/
def winRight (W w2 x : Int) : Int := min W (x + w2)

section Stats

variable {K : Type} [LinearOrderedField K]

/-- The quantity `num = s.ab - N*s.a*s.b` of the pixel loops. -/
def numOf (s : CSum) (N : K) : K := (s.ab : K) - N * (s.a : K) * (s.b : K)

/-- The quantity `vara = s.a2 - N*s.a*s.a` of the pixel loops. -/
def varaOf (s : CSum) (N : K) : K := (s.a2 : K) - N * (s.a : K) * (s.a : K)

/-- The quantity `varb = s.b2 - N*s.b*s.b` of the pixel loops. -/
def varbOf (s : CSum) (N : K) : K := (s.b2 : K) - N * (s.b : K) * (s.b : K)

/-- The values of `nccValues` in real arithmetic, for real numbers `N` and
`sqrtN`: what `nccValues` computes when `N` is finite (`nccValues_fin`). -/
def nccReal (F : FloatOps K) (hasDst hasSv : Bool) (s : CSum) (N sqrtN : K) :
    Option K × Option K :=
  let num : K := (s.ab : K) - N * (s.a : K) * (s.b : K)
  let vara : K := (s.a2 : K) - N * (s.a : K) * (s.a : K)
  let varb : K := (s.b2 : K) - N * (s.b : K) * (s.b : K)
  if hasSv then
    let vara := F.sqrtf (FMAX 0 vara)
    let varb := F.sqrtf (FMAX 0 varb)
    let d : Option K :=
      if hasDst then
        let f := vara * varb
        some (if f > 1 then num / (vara * varb) else 0)
      else none
    (d, some (texeval vara varb sqrtN))
  else if hasDst then
    let f := vara * varb
    (some (if f < 1 then 0 else num * F.rsqrt f), none)
  else (none, none)

end Stats

/-- The mask test `mask(y,x) ? 1 : 0` as a number. -/
def validAt (k : Img) (y x : Nat) : Int := if k.px y x ≠ 0 then 1 else 0

/-! ## Weighted engine: `FWNcc::correl` -/

section WeightedCorrel

variable {K : Type} [LinearOrderedField K]

/-- `InvSqrt(x)`: the reciprocal square root (`_mm_rsqrt_ss` with SSE2,
`1/sqrtf(x)` otherwise; the same value in exact arithmetic). -/
def InvSqrt (F : FloatOps K) (x : Flt K) : Flt K := Flt.rsqrt F x

/-- The block `if (cw) { ... }` of `FWNcc::correl(float area, float s[NSUMS],
float *cw, float *cx)` (lines 598-604): the weighted-population correlation. -/
def correlCw (F : FloatOps K) (area : K) (s : Nat → K) : Flt K :=
  let norm : Flt K := Flt.fin 1 / Flt.fin area
  let avgA := norm * Flt.fin (s SUM_A)
  let avgB := norm * Flt.fin (s SUM_B)
  let num := Flt.fin (s SUM_WAB) - avgB * Flt.fin (s SUM_WA) - avgA * Flt.fin (s SUM_WB)
    + avgA * avgB * Flt.fin (s SUM_W)
  let twa := Flt.fin (s SUM_WA2) - Flt.fin 2 * avgA * Flt.fin (s SUM_WA)
    + avgA * avgA * Flt.fin (s SUM_W)
  let twb := Flt.fin (s SUM_WB2) - Flt.fin 2 * avgB * Flt.fin (s SUM_WB)
    + avgB * avgB * Flt.fin (s SUM_W)
  num * InvSqrt F (twa * twb)

/-- The block `if (cx) { ... }` of `FWNcc::correl(float area, float s[NSUMS],
float *cw, float *cx)` (lines 606-617): the complementary-population correlation. -/
def correlCx (F : FloatOps K) (area : K) (s : Nat → K) : Flt K :=
  let norm : Flt K := Flt.fin 1 / Flt.fin area
  let avgA := norm * Flt.fin (s SUM_A)
  let avgB := norm * Flt.fin (s SUM_B)
  let xab : Flt K := Flt.fin (s SUM_AB - s SUM_WAB)
  let xa : Flt K := Flt.fin (s SUM_A - s SUM_WA)
  let xb : Flt K := Flt.fin (s SUM_B - s SUM_WB)
  let x : Flt K := Flt.fin (area - s SUM_W)
  let xa2 : Flt K := Flt.fin (s SUM_A2 - s SUM_WA2)
  let xb2 : Flt K := Flt.fin (s SUM_B2 - s SUM_WB2)
  let txa := xa2 - Flt.fin 2 * avgA * xa + avgA * avgA * x
  let txb := xb2 - Flt.fin 2 * avgB * xb + avgB * avgB * x
  (xab - avgB * xa - avgA * xb + avgA * avgB * x) * InvSqrt F (txa * txb)

/-- Which branch of `FWNcc::correl(int,int,int,int,int,int)` produced the result:
the comparison of both populations (line 634), the weighted population alone
(line 645) or the complementary population alone (line 647). -/
inductive CorrelBranch where
  | compare
  | weighted
  | complementary
deriving DecidableEq

/-- The body of `FWNcc::correl(int x1, int y1, int x2, int y2, int centerx,
int centery)` up to the final clamp (lines 622-649): the branch taken and
`result`; `none` when a rectangle corner lies outside the table. -/
def FWNcc.correlResult (F : FloatOps K) (e : FWNcc K) (x1 y1 x2 y2 centerx centery : Int) :
    Option (CorrelBranch × Flt K) :=
  let area : K := (((y2 - y1) * (x2 - x1) : Int) : K)
  match e.fetchRect x1 y1 x2 y2, e.fetchRect centerx centery (centerx + 1) (centery + 1) with
  | some s, some cx =>
    let se : Nat → K := fun i => s i - cx i
    let sw := se SUM_W
    let sx := area - se SUM_W
    if sw > area / 3 ∧ sx > area / 3 then
      let cw := correlCw F area s
      let cx := correlCx F area s
      let cew := correlCw F area se
      let cex := correlCx F area se
      let dw := Flt.fin sw * Flt.fabs (cw - cew)
      let dx := Flt.fin sx * Flt.fabs (cx - cex)
      if dw < dx then some (CorrelBranch.compare, cw) else some (CorrelBranch.compare, cx)
    else if sw > sx then some (CorrelBranch.weighted, correlCw F area s)
    else some (CorrelBranch.complementary, correlCx F area s)
  | _, _ => none

/-- `FWNcc::correl(int x1, int y1, int x2, int y2, int centerx, int centery)`:
`MAX(result, 0)`. -/
def FWNcc.correl (F : FloatOps K) (e : FWNcc K) (x1 y1 x2 y2 centerx centery : Int) :
    Option (Flt K) :=
  (e.correlResult F x1 y1 x2 y2 centerx centery).map (fun p => MAX p.2 (Flt.fin 0))

end WeightedCorrel

/-! ## Per-pixel clipping, as the specification words it -/

/-- A window rectangle in table coordinates. -/
structure ClipRect where
  left : Int
  right : Int
  top : Int
  bottom : Int

/-- Per-pixel clipping as the specification words it: for pixel `(x, y)` of a `W` × `H`
image, `left = max(0, x−w2−1)`, `right = min(W, x+w2)`, `top = max(0, y−w2−1)`,
`bottom = min(H, y+w2)`. -/
def clippedRect (W H w2 x y : Int) : ClipRect :=
  { left := max 0 (x - w2 - 1), right := min W (x + w2),
    top := max 0 (y - w2 - 1), bottom := min H (y + w2) }

/-- The pixels of a `W` × `H` image in row-major order, each one once. -/
def pixelOrder (W H : Int) : List (Int × Int) :=
  (intRange 0 H).flatMap (fun y => (intRange 0 W).map (fun x => (y, x)))

/-! ## Weighted engine: `FWNcc::compute` -/

section WeightedCompute

variable {K : Type} [LinearOrderedField K]

/-- What one iteration of a pixel loop of `FWNcc::compute` does: the location
`dst.at<float>(y, x)` it stores to, the rectangle `(x1, y1, x2, y2)` it passes to
`correl`, and the value stored (`none` when `correl` reads outside the table).
`K` is the type of the stored values. -/
structure WStep (K : Type) where
  y : Int
  x : Int
  x1 : Int
  y1 : Int
  x2 : Int
  y2 : Int
  val : Option K

/-- The call `dst.at<float>(y, x) = correl(x1, y1, x2, y2, x, y)`. -/
def FWNcc.pixel (F : FloatOps K) (e : FWNcc K) (y x x1 y1 x2 y2 : Int) : WStep (Flt K) :=
  { y := y, x := x, x1 := x1, y1 := y1, x2 := x2, y2 := y2,
    val := e.correl F x1 y1 x2 y2 x y }

/-- `FWNcc::compute(winSize, dst)` (lines 554-570): the iterations of its three
pixel loops, in execution order. -/
def FWNcc.compute (F : FloatOps K) (e : FWNcc K) (winSize : Int) (dst : OutMap) :
    List (WStep (Flt K)) :=
  let w : Int := Int.tdiv winSize 2
  (intRange 0 dst.rows).flatMap (fun y =>
    let top := max (y - w) 0
    let bot := min (y + w) (dst.rows : Int)
    (intRange 0 w).map (fun x => e.pixel F y x 0 top (x + w) bot)
      ++ (intRange w ((dst.cols : Int) - w)).map (fun x => e.pixel F y x (x - w) top (x + w) bot)
      ++ (intRange ((dst.cols : Int) - w) dst.cols).map
          (fun x => e.pixel F y x (x - w) top (dst.cols : Int) bot))

/-- The source pixels `(row, column)` of the half-open rectangle `x1 ≤ x < x2`,
`y1 ≤ y < y2`. -/
def rectPixels (x1 y1 x2 y2 : Int) : Finset (Int × Int) :=
  Finset.Ico y1 y2 ×ˢ Finset.Ico x1 x2

end WeightedCompute

/-! ## Multi-channel engine: `FNccMC` -/

/-- A `float` map as a function of row and column; `none` where no value has been
stored, or the value stored depends on a read outside a table. -/
abbrev FMap (K : Type) := Int → Int → Option K

/-- An 8-bit image of several channels, by the planes `cv::split` extracts. -/
structure ImgMC where
  channels : Nat
  depth : Nat
  plane : Nat → Img

/-- State of `FNccMC`: the per-channel engines `ncc[3]`. -/
structure FNccMC where
  ncc : Nat → FNcc

/-- The engine after its constructor. -/
def FNccMC.init : FNccMC := { ncc := fun _ => FNcc.init }

/-- The conditions asserted by `FNccMC::setModel` and `FNccMC::setImage`
(lines 440-441, 455-456). -/
def channelAsserts (im : ImgMC) : Prop := im.depth = 0 ∧ im.channels ≤ 3

/-- `FNccMC::setModel(im, mask)`: `ncc[i].setModel(b[i], mask)` for every channel of `im`. -/
def FNccMC.setModel (m : FNccMC) (fresh : Nat → Tbl CSum) (im : ImgMC) (mask : Option Img) :
    FNccMC :=
  { ncc := fun i =>
      if i < im.channels then (m.ncc i).setModel (fresh i) (im.plane i) mask else m.ncc i }

/-- `FNccMC::setImage(im)`: `ncc[i].setImage(a[i])` for every channel of `im`. -/
def FNccMC.setImage (m : FNccMC) (im : ImgMC) : FNccMC :=
  { ncc := fun i => if i < im.channels then (m.ncc i).setImage (im.plane i) else m.ncc i }

section MultiChannel

variable {K : Type} [LinearOrderedField K]

/-- The store to `dline[x]` of one iteration of a pixel loop, applied to the map. -/
def Step.storeDst (m : FMap K) (st : Step K) : FMap K :=
  fun y x =>
    if y = st.y ∧ x = st.x then
      match st.out with
      | some (some v, _) => some v
      | some (none, _) => m y x
      | none => none
    else m y x

/-- The store to `sv[x]` of one iteration of a pixel loop, applied to the map. -/
def Step.storeSv (m : FMap K) (st : Step K) : FMap K :=
  fun y x =>
    if y = st.y ∧ x = st.x then
      match st.out with
      | some (_, some t) => some t
      | some (_, none) => m y x
      | none => none
    else m y x

/-- The correlation map the iterations leave in a freshly allocated `dst`. -/
def dstMap (steps : List (Step K)) : FMap K := steps.foldl Step.storeDst (fun _ _ => none)

/-- The texture map the iterations leave in a freshly allocated `sumvar`. -/
def svMap (steps : List (Step K)) : FMap K := steps.foldl Step.storeSv (fun _ _ => none)

/-- `FNccMC::merge(src, dst)` (lines 483-492) for a `dst` of `dstChannels`
channels, by channel of `dst`: `cv::merge(src, 3, dst)` when `dst` has more than one
channel; otherwise the loop `for (i=1; i<dst.channels(); i++) src[i] = src[0] + src[0]`
followed by `src[0].convertTo(dst, dst.type(), 1.0/dst.channels())`. -/
def FNccMC.merge (src : Nat → FMap (Flt K)) (dstChannels : Nat) : Nat → FMap (Flt K) :=
  if dstChannels > 1 then
    fun c => if c < 3 then src c else fun _ _ => none
  else
    let src := forLoop (dstChannels - 1)
      (fun j (s : Nat → FMap (Flt K)) => fun i =>
        if i = j + 1 then
          fun y x => match s 0 y x with
            | some v => some (v + v)
            | none => none
        else s i) src
    fun c =>
      if c = 0 then
        fun y x => (src 0 y x).map (fun v => v * (Flt.fin 1 / Flt.ofInt (dstChannels : Int)))
      else fun _ _ => none

/-- `FNccMC::computeNcc(windowSize, dst, sumvar)` (lines 467-481) for a `dst` of
`dstChannels` channels and a `sumvar` of `svChannels` channels: the channels of
`dst` and of `sumvar` after the call.  `tmp1`, `tmp2` are the members `tmp_flt1`,
`tmp_flt2` as earlier calls left them. -/
def FNccMC.computeNcc (F : FloatOps K) (m : FNccMC) (windowSize : Int) (dstChannels : Nat)
    (dst : OutMap) (svChannels : Nat) (sumvar : Option OutMap)
    (tmp1 tmp2 : Nat → FMap (Flt K)) :
    (Nat → FMap (Flt K)) × Option (Nat → FMap (Flt K)) :=
  let t1 : Nat → FMap (Flt K) := fun i =>
    if i < dstChannels then
      dstMap ((m.ncc i).computeNcc F windowSize (some dst) (sumvar.map (fun _ => dst)))
    else tmp1 i
  let t2 : Nat → FMap (Flt K) := fun i =>
    if i < dstChannels ∧ sumvar.isSome then
      svMap ((m.ncc i).computeNcc F windowSize (some dst) (sumvar.map (fun _ => dst)))
    else tmp2 i
  (FNccMC.merge t1 dstChannels,
    if sumvar.isSome then some (FNccMC.merge t2 svChannels) else none)

end MultiChannel

/-! ## Test inputs -/

/-- First 2×3 test image. -/
def exA : Img := Img.mk8 2 3 (fun y x => 3 * y + x)

/-- Second 2×3 test image. -/
def exB : Img := Img.mk8 2 3 (fun y x => 7 + x * x + y)

/-- A weight map for the 2×3 test images. -/
def exW : Nat → Nat → ℚ := fun y x => (y + 1 : ℚ) / (x + 2 : ℚ)

/-- A mask for the 2×3 test images, excluding pixel `(x, y) = (1, 0)`. -/
def exM : Img := Img.mk8 2 3 (fun y x => if y = 0 ∧ x = 1 then 0 else 255)

/-- A one-pixel test image. -/
def ex11 : Img := Img.mk8 1 1 (fun _ _ => 5)

/-- The 5×5 test image whose pixel value is its column index. -/
def exCol : Img := Img.mk8 5 5 (fun _ x => x)

/-- The 5×5 test image `255 - column index`. -/
def exNeg : Img := Img.mk8 5 5 (fun _ x => 255 - x)

/-- The 1×3 test image `[0, 1, 0]`. -/
def ex010 : Img := Img.mk8 1 3 (fun _ x => if x = 1 then 1 else 0)

/-- The 1×3 test image `[0, 2, 0]`. -/
def ex020 : Img := Img.mk8 1 3 (fun _ x => if x = 1 then 2 else 0)

/-- The 2×2 test image with every pixel 100. -/
def ex100 : Img := Img.mk8 2 2 (fun _ _ => 100)

/-- The 5×5 test image with every pixel 100. -/
def ex5c : Img := Img.mk8 5 5 (fun _ _ => 100)

/-- The first 2×3 test image with another value at the pixel `(x, y) = (1, 0)`. -/
def exA2 : Img := Img.mk8 2 3 (fun y x => if y = 0 ∧ x = 1 then 200 else 3 * y + x)

/-- The second 2×3 test image with another value at the pixel `(x, y) = (1, 0)`. -/
def exB2 : Img := Img.mk8 2 3 (fun y x => if y = 0 ∧ x = 1 then 9 else 7 + x * x + y)

/-- The 1×3 test image with every pixel 7. -/
def ex777 : Img := Img.mk8 1 3 (fun _ _ => 7)

/-- The two-channel 1×3 test model: planes `[0, 2, 0]` and `[7, 7, 7]`. -/
def exModel2 : ImgMC :=
  { channels := 2, depth := 0, plane := fun i => if i = 0 then ex020 else ex777 }

/-- The two-channel 1×3 test image: planes `[0, 1, 0]` and `[7, 7, 7]`. -/
def exImage2 : ImgMC :=
  { channels := 2, depth := 0, plane := fun i => if i = 0 then ex010 else ex777 }

/-! # Theorems -/

/-! ## Loops and tables -/

theorem forLoop_succ {σ : Type} (n : Nat) (body : Nat → σ → σ) (s : σ) :
    forLoop (n + 1) body s = body n (forLoop n body s) := rfl

theorem Tbl.set_apply {α : Type} (T : Tbl α) (r c : Nat) (v : α) (i j : Nat) :
    T.set r c v i j = if i = r ∧ j = c then v else T i j := rfl

section WeightedProofs

variable {K : Type} [LinearOrderedField K]

/-- Effect of clearing the first cell of a table row. -/
theorem prepare_clear (T : Tbl K) (r : Nat) (n : Nat) (i j : Nat) :
    forLoop n (fun k T => T.set r k 0) T i j = if i = r ∧ j < n then 0 else T i j := by
  induction n with
  | zero => simp [forLoop]
  | succ m ih =>
    rw [forLoop_succ, Tbl.set_apply, ih]
    by_cases h1 : i = r
    · by_cases h2 : j = m
      · simp [h1, h2]
      · by_cases h3 : j < m
        · have : j < m + 1 := by omega
          simp [h1, h2, h3, this]
        · have : ¬ j < m + 1 := by omega
          simp [h1, h2, h3, this]
    · simp [h1]

/-- Effect of adding the row above, after `n` columns. -/
theorem prepare_addUp (T : Tbl K) (y : Nat) (n : Nat) (i j : Nat) :
    forLoop n (fun x T => T.set (y + 1) (NSUMS + x) (T (y + 1) (NSUMS + x) + T y (NSUMS + x))) T i j
      = if i = y + 1 ∧ NSUMS ≤ j ∧ j < NSUMS + n then T i j + T y j else T i j := by
  induction n generalizing i j with
  | zero =>
    have h : ¬ (i = y + 1 ∧ NSUMS ≤ j ∧ j < NSUMS + 0) := by omega
    rw [if_neg h]
    rfl
  | succ m ih =>
    rw [forLoop_succ, Tbl.set_apply, ih, ih, ih]
    have hy : ¬ (y = y + 1) := by omega
    by_cases h1 : i = y + 1
    · by_cases h2 : j = NSUMS + m
      · subst h1 h2
        simp [hy]
      · by_cases h3 : NSUMS ≤ j ∧ j < NSUMS + m
        · have : NSUMS ≤ j ∧ j < NSUMS + (m + 1) := by omega
          simp [h1, h2, h3, this]
        · have : ¬ (NSUMS ≤ j ∧ j < NSUMS + (m + 1)) := by omega
          simp [h1, h2, h3, this]
    · simp [h1]

end WeightedProofs

section PrepareProofs

variable {K : Type} [LinearOrderedField K]

theorem prepareAcc_low (T : Tbl K) (y x8 k : Nat) (v : K) (i j : Nat) (h : j < NSUMS + x8) :
    prepareAcc T y x8 k v i j = T i j := by
  have : ¬ (i = y + 1 ∧ j = NSUMS + x8 + k) := by omega
  simp only [prepareAcc, Tbl.set_apply, if_neg this]

theorem prepareAcc_other (T : Tbl K) (y x8 k : Nat) (v : K) (i j : Nat)
    (h : ¬ (i = y + 1 ∧ j = NSUMS + x8 + k)) :
    prepareAcc T y x8 k v i j = T i j := by
  simp only [prepareAcc, Tbl.set_apply, if_neg h]

theorem prepareAcc_same (T : Tbl K) (y x8 k : Nat) (v : K) :
    prepareAcc T y x8 k v (y + 1) (NSUMS + x8 + k) = T (y + 1) (x8 + k) + v := by
  simp [prepareAcc, Tbl.set_apply]

theorem prepareCell_frame (la lb : Nat → Nat) (lw : Option (Nat → K)) (y x : Nat) (T : Tbl K)
    (i j : Nat) (h : ¬ (i = y + 1 ∧ NSUMS + x * NSUMS ≤ j ∧ j < NSUMS + x * NSUMS + NSUMS)) :
    prepareCell la lb lw y x T i j = T i j := by
  simp only [prepareCell, SUM_A, SUM_B, SUM_W, SUM_WA, SUM_WB, SUM_WAB,
      SUM_WA2, SUM_WB2, SUM_A2, SUM_B2, SUM_AB]
  simp only [NSUMS] at h
  repeat (rw [prepareAcc_other _ _ _ _ _ _ _ (by simp only [NSUMS]; omega)])

theorem prepareCell_new (la lb : Nat → Nat) (lw : Option (Nat → K)) (y x : Nat) (T : Tbl K)
    (k : Nat) (hk : k < NSUMS) :
    prepareCell la lb lw y x T (y + 1) (NSUMS + x * NSUMS + k)
      = T (y + 1) (x * NSUMS + k) + addend la lb lw x k := by
  simp only [prepareCell, SUM_A, SUM_B, SUM_W, SUM_WA, SUM_WB, SUM_WAB,
      SUM_WA2, SUM_WB2, SUM_A2, SUM_B2, SUM_AB]
  simp only [NSUMS] at hk
  interval_cases k <;>
  · repeat (rw [prepareAcc_other _ _ _ _ _ _ _ (by simp only [NSUMS]; omega)])
    rw [prepareAcc_same]
    repeat (rw [prepareAcc_low _ _ _ _ _ _ _ (by simp only [NSUMS]; omega)])
    rfl
theorem addend_eq_quantity (a b : Img) (w : Option (Nat → Nat → K)) (y x k : Nat) (hk : k < NSUMS) :
    addend (a.px y) (b.px y) (w.map (fun m => m y)) x k = quantity a b w k y x := by
  simp only [NSUMS] at hk
  cases w <;> interval_cases k <;> simp [addend, quantity, weightAt] <;> ring

/-- Inclusion-exclusion on prefix sums gives the sum over the rectangle. -/
theorem rectSum_of_prefixSum {α : Type} [AddCommGroup α] (f : Nat → Nat → α) (x1 y1 x2 y2 : Nat)
    (hx : x1 ≤ x2) (hy : y1 ≤ y2) :
    prefixSum f y1 x1 - prefixSum f y1 x2 - prefixSum f y2 x1 + prefixSum f y2 x2
      = rectSum f x1 y1 x2 y2 := by
  unfold prefixSum rectSum
  rw [Finset.sum_Ico_eq_sub _ hy]
  have h : ∀ n, (∑ i in Finset.range n, ∑ j in Finset.Ico x1 x2, f i j)
      = (∑ i in Finset.range n, ∑ j in Finset.range x2, f i j)
        - ∑ i in Finset.range n, ∑ j in Finset.range x1, f i j := by
    intro n
    rw [← Finset.sum_sub_distrib]
    exact Finset.sum_congr rfl (fun i _ => Finset.sum_Ico_eq_sub _ hx)
  rw [h, h]
  abel

/-- State of row `y+1` after the pixel loop over `n` columns. -/
theorem prepare_cells (la lb : Nat → Nat) (lw : Option (Nat → K)) (y : Nat) (T : Tbl K) (n : Nat) :
    (∀ i j, ¬ (i = y + 1 ∧ NSUMS ≤ j ∧ j < NSUMS + n * NSUMS) →
        forLoop n (prepareCell la lb lw y) T i j = T i j) ∧
    (∀ x k, x ≤ n → k < NSUMS →
        forLoop n (prepareCell la lb lw y) T (y + 1) (x * NSUMS + k)
          = T (y + 1) k + ∑ i in Finset.range x, addend la lb lw i k) := by
  induction n with
  | zero =>
    refine ⟨fun i j _ => rfl, fun x k hx hk => ?_⟩
    have : x = 0 := by omega
    subst this
    simp [forLoop]
  | succ m ih =>
    obtain ⟨ih1, ih2⟩ := ih
    refine ⟨fun i j h => ?_, fun x k hx hk => ?_⟩
    · rw [forLoop_succ, prepareCell_frame, ih1]
      · simp only [NSUMS] at h ⊢; omega
      · simp only [NSUMS] at h ⊢; omega
    · rw [forLoop_succ]
      by_cases hx2 : x = m + 1
      · subst hx2
        have : (m + 1) * NSUMS + k = NSUMS + m * NSUMS + k := by ring
        rw [this, prepareCell_new _ _ _ _ _ _ _ hk, ih2 m k (Nat.le_refl m) hk,
          Finset.sum_range_succ, add_assoc]
      · rw [prepareCell_frame, ih2 x k (by omega) hk]
        simp only [NSUMS] at hk ⊢; omega

/-- After `prepare`, every cell of the table holds the prefix sums of the eleven quantities. -/
theorem prepare_table (a b : Img) (w : Option (Nat → Nat → K)) (n : Nat) :
    ∀ r x k, r ≤ n → x ≤ a.cols → k < NSUMS →
      forLoop n (prepareRow a b w) (fun _ _ => (0 : K)) r (x * NSUMS + k)
        = prefixSum (quantity a b w k) r x := by
  induction n with
  | zero =>
    intro r x k hr _ _
    have : r = 0 := by omega
    subst this
    simp [forLoop, prefixSum]
  | succ m ih =>
    intro r x k hr hx hk
    rw [forLoop_succ]
    generalize hT : forLoop m (prepareRow a b w) (fun _ _ => (0 : K)) = T at ih
    obtain ⟨c1, c2⟩ := prepare_cells (a.px m) (b.px m) (w.map (fun f => f m)) m
      (forLoop NSUMS (fun i T => T.set (m + 1) i 0) T) a.cols
    simp only [prepareRow, prepare_addUp]
    by_cases hr2 : r = m + 1
    · subst hr2
      by_cases hx0 : x = 0
      · subst hx0
        have h1 : ¬ (m + 1 = m + 1 ∧ NSUMS ≤ 0 * NSUMS + k ∧ 0 * NSUMS + k < NSUMS + a.cols * NSUMS) := by
          simp only [NSUMS] at hk ⊢; omega
        rw [if_neg h1, c2 0 k (Nat.zero_le _) hk, prepare_clear]
        simp [hk, prefixSum]
      · have h1 : (m + 1 = m + 1 ∧ NSUMS ≤ x * NSUMS + k ∧ x * NSUMS + k < NSUMS + a.cols * NSUMS) := by
          have e : NSUMS = 11 := rfl
          rw [e] at hk ⊢
          have := Nat.mul_le_mul_right 11 hx
          omega
        have h2 : ¬ (m = m + 1 ∧ x * NSUMS + k < NSUMS) := by omega
        have h3 : ¬ (m = m + 1 ∧ NSUMS ≤ x * NSUMS + k ∧ x * NSUMS + k < NSUMS + a.cols * NSUMS) := by
          omega
        rw [if_pos h1, c2 x k hx hk, prepare_clear, c1 m (x * NSUMS + k) h3, prepare_clear,
          if_neg h2, ih m x k (Nat.le_refl m) hx hk]
        simp only [hk, and_self, if_true, zero_add]
        unfold prefixSum
        rw [Finset.sum_range_succ, add_comm]
        congr 1
        exact Finset.sum_congr rfl (fun i _ => addend_eq_quantity a b w m i k hk)
    · have h1 : ¬ (r = m + 1 ∧ NSUMS ≤ x * NSUMS + k ∧ x * NSUMS + k < NSUMS + a.cols * NSUMS) := by
        omega
      have h2 : ¬ (r = m + 1 ∧ x * NSUMS + k < NSUMS) := by omega
      rw [if_neg h1, c1 r (x * NSUMS + k) h1, prepare_clear, if_neg h2]
      exact ih r x k (by omega) hx hk

/-- After `prepare`, `fetchRect` on a rectangle inside the image returns the direct sums. -/
theorem fetchRect_prepare (a b : Img) (w : Option (Nat → Nat → K))
    (x1 y1 x2 y2 : Nat) (hx : x1 ≤ x2) (hx2 : x2 ≤ a.cols) (hy : y1 ≤ y2) (hy2 : y2 ≤ a.rows) :
    ∃ s, (FWNcc.prepare a b w).fetchRect x1 y1 x2 y2 = some s ∧
      ∀ k, k < NSUMS → s k = rectSum (quantity a b w k) x1 y1 x2 y2 := by
  have hin : ∀ (p q : Nat), p ≤ a.cols → q ≤ a.rows →
      (FWNcc.prepare a b w).inTable (p : Int) (q : Int) := by
    intro p q h1 h2
    simp only [FWNcc.inTable, FWNcc.prepare]
    omega
  refine ⟨_, if_pos ⟨hin x1 y1 (by omega) (by omega), hin x2 y1 hx2 (by omega),
    hin x1 y2 (by omega) hy2, hin x2 y2 hx2 hy2⟩, fun k hk => ?_⟩
  simp only [FWNcc.prepare, Emvisi2.prepare, Int.toNat_ofNat]
  rw [prepare_table a b w a.rows y1 x1 k (by omega) (by omega) hk,
    prepare_table a b w a.rows y1 x2 k (by omega) hx2 hk,
    prepare_table a b w a.rows y2 x1 k hy2 (by omega) hk,
    prepare_table a b w a.rows y2 x2 k hy2 hx2 hk]
  exact rectSum_of_prefixSum _ x1 y1 x2 y2 hx hy

/-- C1: after `FWNcc::prepare(a, b, w)` (an absent weight map meaning weight 1), for every
rectangle with `x1 ≤ x2 ≤ W` and `y1 ≤ y2 ≤ H`, `fetchRect(x1,y1,x2,y2)` returns, for each of
the eleven quantities, exactly the direct sum of that quantity over the pixels with
`x1 ≤ x < x2` and `y1 ≤ y < y2`; in particular the rectangle `(0,0,W,H)` gives the naive sum
over all pixels. -/
theorem prepare_fetchRect_direct_sum (a b : Img) (w : Option (Nat → Nat → K))
    (x1 y1 x2 y2 : Nat) (hx : x1 ≤ x2) (hx2 : x2 ≤ a.cols) (hy : y1 ≤ y2) (hy2 : y2 ≤ a.rows) :
    (∃ s, (FWNcc.prepare a b w).fetchRect x1 y1 x2 y2 = some s ∧
      ∀ k, k < NSUMS → s k = rectSum (quantity a b w k) x1 y1 x2 y2) ∧
    (∃ s, (FWNcc.prepare a b w).fetchRect 0 0 a.cols a.rows = some s ∧
      ∀ k, k < NSUMS →
        s k = ∑ y in Finset.range a.rows, ∑ x in Finset.range a.cols, quantity a b w k y x) := by
  refine ⟨fetchRect_prepare a b w x1 y1 x2 y2 hx hx2 hy hy2, ?_⟩
  obtain ⟨s, hs, hk⟩ := fetchRect_prepare a b w 0 0 a.cols a.rows (Nat.zero_le _)
    (Nat.le_refl _) (Nat.zero_le _) (Nat.le_refl _)
  refine ⟨s, hs, fun k hk2 => ?_⟩
  rw [hk k hk2]
  simp [rectSum]

/-- C1 at a concrete input: a 2 by 3 image pair with a weight map, rectangle `(1,0,3,2)`. -/
theorem prepare_fetchRect_direct_sum_witness :
    (1 ≤ 3 ∧ 3 ≤ exA.cols ∧ 0 ≤ 2 ∧ 2 ≤ exA.rows) ∧
    ((∃ s, (FWNcc.prepare exA exB (some exW)).fetchRect (1 : Nat) (0 : Nat) (3 : Nat) (2 : Nat)
        = some s ∧
      ∀ k, k < NSUMS → s k = rectSum (quantity exA exB (some exW) k) 1 0 3 2) ∧
    (∃ s, (FWNcc.prepare exA exB (some exW)).fetchRect 0 0 exA.cols exA.rows = some s ∧
      ∀ k, k < NSUMS →
        s k = ∑ y in Finset.range exA.rows, ∑ x in Finset.range exA.cols,
          quantity exA exB (some exW) k y x)) :=
  ⟨by decide, prepare_fetchRect_direct_sum exA exB (some exW) 1 0 3 2 (by decide) (by decide)
    (by decide) (by decide)⟩

end PrepareProofs

/-! ## The integral table of `FNcc` -/

theorem setModelAccum_line (m : Option (Nat → Nat)) (y : Nat) (L0 : Tbl Nat) (T0 : Tbl CSum)
    (n : Nat) (i j : Nat) :
    (forLoop n (setModelAccum m y) (L0, T0)).1 i j
      = if i = y ∧ j < n ∧ maskedOut m j = true then 0 else L0 i j := by
  induction n generalizing i j with
  | zero => simp [forLoop]
  | succ k ih =>
    rw [forLoop_succ]
    simp only [setModelAccum]
    by_cases hm : maskedOut m k = true
    · simp only [hm, if_true, Tbl.set_apply, ih]
      by_cases h1 : i = y ∧ j = k
      · obtain ⟨rfl, rfl⟩ := h1
        simp [hm]
      · rw [if_neg h1]
        by_cases h2 : i = y ∧ j < k ∧ maskedOut m j = true
        · rw [if_pos h2, if_pos ⟨h2.1, by omega, h2.2.2⟩]
        · rw [if_neg h2, if_neg]
          rintro ⟨h3, h4, h5⟩
          rcases Nat.lt_succ_iff_lt_or_eq.mp h4 with h6 | h6
          · exact h2 ⟨h3, h6, h5⟩
          · exact h1 ⟨h3, h6⟩
    · simp only [hm, Bool.false_eq_true, if_false, ih]
      by_cases h2 : i = y ∧ j < k ∧ maskedOut m j = true
      · rw [if_pos h2, if_pos ⟨h2.1, by omega, h2.2.2⟩]
      · rw [if_neg h2, if_neg]
        rintro ⟨h3, h4, h5⟩
        rcases Nat.lt_succ_iff_lt_or_eq.mp h4 with h6 | h6
        · exact h2 ⟨h3, h6, h5⟩
        · subst h6; exact hm h5

theorem setModelAccum_cur (m : Option (Nat → Nat)) (y : Nat) (L0 : Tbl Nat) (T0 : Tbl CSum)
    (n : Nat) :
    (if maskedOut m n = true then (forLoop n (setModelAccum m y) (L0, T0)).1.set y n 0
      else (forLoop n (setModelAccum m y) (L0, T0)).1) y n = rowVal m (L0 y) n := by
  unfold rowVal
  by_cases hm : maskedOut m n = true
  · simp [hm, Tbl.set_apply]
  · simp only [hm, Bool.false_eq_true, if_false, setModelAccum_line]
    rw [if_neg]
    omega

theorem setModelAccum_snd (m : Option (Nat → Nat)) (y x : Nat) (s : Tbl Nat × Tbl CSum)
    (i j : Nat) :
    (setModelAccum m y x s).2 i j
      = if i = y + 1 ∧ j = x + 1 then
          CSum.mk (s.2 (y + 1) (x + 1)).a (s.2 (y + 1) (x + 1)).a2
            ((s.2 (y + 1) x).b + ((setModelAccum m y x s).1 y x : Int))
            ((s.2 (y + 1) x).b2
              + ((setModelAccum m y x s).1 y x : Int) * ((setModelAccum m y x s).1 y x : Int))
            (s.2 (y + 1) (x + 1)).ab
        else s.2 i j := by
  simp only [setModelAccum, Tbl.set_apply]
  by_cases h : i = y + 1 ∧ j = x + 1
  · obtain ⟨rfl, rfl⟩ := h
    simp
  · simp only [if_neg h]

theorem setModelAccum_fst (m : Option (Nat → Nat)) (y x : Nat) (s : Tbl Nat × Tbl CSum) :
    (setModelAccum m y x s).1 = if maskedOut m x = true then s.1.set y x 0 else s.1 := rfl

theorem setModelAccum_table (m : Option (Nat → Nat)) (y : Nat) (L0 : Tbl Nat) (T0 : Tbl CSum)
    (n : Nat) (i j : Nat) :
    (forLoop n (setModelAccum m y) (L0, T0)).2 i j
      = if i = y + 1 ∧ 1 ≤ j ∧ j ≤ n then
          CSum.mk (T0 i j).a (T0 i j).a2
            ((T0 (y + 1) 0).b + ∑ k in Finset.range j, (rowVal m (L0 y) k : Int))
            ((T0 (y + 1) 0).b2
              + ∑ k in Finset.range j, (rowVal m (L0 y) k : Int) * (rowVal m (L0 y) k : Int))
            (T0 i j).ab
        else T0 i j := by
  induction n generalizing i j with
  | zero =>
    rw [if_neg (by omega)]
    rfl
  | succ k ih =>
    rw [forLoop_succ, setModelAccum_snd, setModelAccum_fst, setModelAccum_cur]
    by_cases h1 : i = y + 1 ∧ j = k + 1
    · obtain ⟨rfl, rfl⟩ := h1
      have hk : ¬ (y + 1 = y + 1 ∧ 1 ≤ k + 1 ∧ k + 1 ≤ k) := by omega
      rw [if_pos ⟨rfl, rfl⟩, if_pos (by omega), ih, ih, if_neg hk]
      by_cases hk0 : k = 0
      · subst hk0
        rw [if_neg (by omega)]
        simp
      · rw [if_pos (by omega)]
        simp [Finset.sum_range_succ, add_assoc]
    · rw [if_neg h1, ih]
      by_cases h2 : i = y + 1 ∧ 1 ≤ j ∧ j ≤ k
      · rw [if_pos h2, if_pos (by omega)]
      · rw [if_neg h2, if_neg (by omega)]

theorem setModelAddUp_apply (y x : Nat) (T : Tbl CSum) (i j : Nat) :
    setModelAddUp y x T i j
      = if i = y + 1 ∧ j = x + 1 then
          CSum.mk (T (y + 1) (x + 1)).a (T (y + 1) (x + 1)).a2
            ((T (y + 1) (x + 1)).b + (T y (x + 1)).b) ((T (y + 1) (x + 1)).b2 + (T y (x + 1)).b2)
            (T (y + 1) (x + 1)).ab
        else T i j := by
  simp only [setModelAddUp, Tbl.set_apply]
  by_cases h : i = y + 1 ∧ j = x + 1
  · obtain ⟨rfl, rfl⟩ := h
    simp
  · simp only [if_neg h]

theorem setModelAddUp_table (y : Nat) (T0 : Tbl CSum) (n : Nat) (i j : Nat) :
    forLoop n (setModelAddUp y) T0 i j
      = if i = y + 1 ∧ 1 ≤ j ∧ j ≤ n then
          CSum.mk (T0 i j).a (T0 i j).a2 ((T0 i j).b + (T0 y j).b) ((T0 i j).b2 + (T0 y j).b2)
            (T0 i j).ab
        else T0 i j := by
  induction n generalizing i j with
  | zero =>
    rw [if_neg (by omega)]
    rfl
  | succ k ih =>
    rw [forLoop_succ, setModelAddUp_apply]
    by_cases h1 : i = y + 1 ∧ j = k + 1
    · obtain ⟨rfl, rfl⟩ := h1
      have hk : ¬ (y + 1 = y + 1 ∧ 1 ≤ k + 1 ∧ k + 1 ≤ k) := by omega
      have hy : ¬ (y = y + 1 ∧ 1 ≤ k + 1 ∧ k + 1 ≤ k) := by omega
      rw [if_pos ⟨rfl, rfl⟩, if_pos (by omega), ih, ih, if_neg hk, if_neg hy]
    · rw [if_neg h1, ih]
      by_cases h2 : i = y + 1 ∧ 1 ≤ j ∧ j ≤ k
      · rw [if_pos h2, if_pos (by omega)]
      · rw [if_neg h2, if_neg (by omega)]


theorem rowVal_eq_maskedPx (mask : Option Img) (px : Nat → Nat → Nat) (y x : Nat) :
    rowVal (mask.map (fun k => k.px y)) (px y) x = maskedPx mask px y x := by
  cases mask <;> simp [rowVal, maskedPx, maskedOut]

theorem forLoop_set_row {α : Type} (T : Tbl α) (r : Nat) (v : α) (n : Nat) (i j : Nat) :
    forLoop n (fun k T => T.set r k v) T i j = if i = r ∧ j < n then v else T i j := by
  induction n with
  | zero => simp [forLoop]
  | succ m ih =>
    rw [forLoop_succ, Tbl.set_apply, ih]
    by_cases h1 : i = r ∧ j = m
    · rw [if_pos h1, if_pos (by omega)]
    · rw [if_neg h1]
      by_cases h2 : i = r ∧ j < m
      · rw [if_pos h2, if_pos (by omega)]
      · rw [if_neg h2, if_neg (by omega)]

theorem setModelRow_fst (cols : Nat) (mask : Option Img) (y : Nat) (s : Tbl Nat × Tbl CSum)
    (i j : Nat) :
    (setModelRow cols mask y s).1 i j
      = if i = y ∧ j < cols then maskedPx mask s.1 i j else s.1 i j := by
  simp only [setModelRow, setModelAccum_line]
  by_cases h : i = y ∧ j < cols
  · rw [if_pos h]
    obtain ⟨rfl, h2⟩ := h
    rw [← rowVal_eq_maskedPx]
    unfold rowVal
    by_cases hm : maskedOut (Option.map (fun k => k.px i) mask) j = true
    · rw [if_pos ⟨rfl, h2, hm⟩, if_pos hm]
    · rw [if_neg (fun h => hm h.2.2), if_neg hm]
  · rw [if_neg h, if_neg (fun h3 => h ⟨h3.1, h3.2.1⟩)]

theorem setModelRow_snd (cols : Nat) (mask : Option Img) (y : Nat) (s : Tbl Nat × Tbl CSum)
    (i j : Nat) :
    (setModelRow cols mask y s).2 i j
      = if i = y + 1 ∧ j ≤ cols then
          (if j = 0 then CSum.zero else
            CSum.mk (s.2 i j).a (s.2 i j).a2
              ((∑ k in Finset.range j, (maskedPx mask s.1 y k : Int)) + (s.2 y j).b)
              ((∑ k in Finset.range j, (maskedPx mask s.1 y k : Int) * (maskedPx mask s.1 y k : Int))
                + (s.2 y j).b2)
              (s.2 i j).ab)
        else s.2 i j := by
  simp only [setModelRow, setModelAddUp_table, setModelAccum_table, Tbl.set_apply,
    rowVal_eq_maskedPx]
  have hy : ∀ q : Prop, ¬ (y = y + 1 ∧ q) := fun q h => by omega
  by_cases h : i = y + 1 ∧ j ≤ cols
  · obtain ⟨rfl, h2⟩ := h
    by_cases h0 : j = 0
    · subst h0
      simp
    · have h1 : y + 1 = y + 1 ∧ 1 ≤ j ∧ j ≤ cols := ⟨rfl, by omega, h2⟩
      have h3 : ¬ (y + 1 = y + 1 ∧ j = 0) := by omega
      have h4 : 1 ≤ j := by omega
      simp [h0, h2, h4, CSum.zero]
  · have h1 : ¬ (i = y + 1 ∧ 1 ≤ j ∧ j ≤ cols) := fun h3 => h ⟨h3.1, h3.2.2⟩
    have h3 : ¬ (i = y + 1 ∧ j = 0) := fun h3 => h ⟨h3.1, by omega⟩
    simp only [if_neg h, if_neg h1, if_neg h3]

/-- State of the model loop of `setModel` after `n` rows. -/
theorem setModel_rows (b : Img) (mask : Option Img) (T0 : Tbl CSum)
    (h0 : ∀ x, x ≤ b.cols → T0 0 x = CSum.zero) (n : Nat) :
    (∀ i j, (forLoop n (setModelRow b.cols mask) (b.px, T0)).1 i j
        = if i < n ∧ j < b.cols then maskedPx mask b.px i j else b.px i j) ∧
    (∀ r x, r ≤ n → x ≤ b.cols →
      ((forLoop n (setModelRow b.cols mask) (b.px, T0)).2 r x).b
          = prefixSum (fun i j => (maskedPx mask b.px i j : Int)) r x ∧
      ((forLoop n (setModelRow b.cols mask) (b.px, T0)).2 r x).b2
          = prefixSum (fun i j => (maskedPx mask b.px i j : Int) * (maskedPx mask b.px i j : Int))
              r x) ∧
    (∀ r, r ≤ n → (forLoop n (setModelRow b.cols mask) (b.px, T0)).2 r 0 = CSum.zero) ∧
    (∀ x, x ≤ b.cols → (forLoop n (setModelRow b.cols mask) (b.px, T0)).2 0 x = CSum.zero) := by
  induction n with
  | zero =>
    refine ⟨fun i j => ?_, fun r x hr hx => ?_, fun r hr => ?_, fun x hx => ?_⟩
    · simp [forLoop]
    · have : r = 0 := by omega
      subst this
      simp [forLoop, h0 x hx, CSum.zero, prefixSum]
    · have : r = 0 := by omega
      subst this
      exact h0 0 (Nat.zero_le _)
    · exact h0 x hx
  | succ m ih =>
    obtain ⟨i1, i2, i3, i4⟩ := ih
    have hrow : ∀ k, maskedPx mask (forLoop m (setModelRow b.cols mask) (b.px, T0)).1 m k
        = maskedPx mask b.px m k := by
      intro k
      have := i1 m k
      rw [if_neg (by omega)] at this
      cases mask <;> simp [maskedPx, this]
    refine ⟨fun i j => ?_, fun r x hr hx => ?_, fun r hr => ?_, fun x hx => ?_⟩
    · rw [forLoop_succ, setModelRow_fst, i1]
      by_cases h : i = m ∧ j < b.cols
      · obtain ⟨rfl, h2⟩ := h
        rw [if_pos ⟨rfl, h2⟩, if_pos ⟨by omega, h2⟩, hrow]
      · rw [if_neg h]
        by_cases h2 : i < m ∧ j < b.cols
        · rw [if_pos h2, if_pos ⟨by omega, h2.2⟩]
        · rw [if_neg h2, if_neg (by omega)]
    · rw [forLoop_succ, setModelRow_snd]
      by_cases h : r = m + 1
      · subst h
        rw [if_pos ⟨rfl, hx⟩]
        by_cases hx0 : x = 0
        · subst hx0
          simp [CSum.zero, prefixSum]
        · rw [if_neg hx0]
          simp only [hrow, (i2 m x (Nat.le_refl m) hx).1, (i2 m x (Nat.le_refl m) hx).2]
          simp only [prefixSum]
          rw [Finset.sum_range_succ, Finset.sum_range_succ]
          constructor <;> ring
      · rw [if_neg (fun h2 => h h2.1)]
        exact i2 r x (by omega) hx
    · rw [forLoop_succ, setModelRow_snd]
      by_cases h : r = m + 1
      · subst h
        rw [if_pos ⟨rfl, Nat.zero_le _⟩, if_pos rfl]
      · rw [if_neg (fun h2 => h h2.1)]
        exact i3 r (by omega)
    · rw [forLoop_succ, setModelRow_snd, if_neg (by omega)]
      exact i4 x hx


/-- The two-dimensional recurrence satisfied by prefix sums. -/
theorem prefixSum_step (f : Nat → Nat → Int) (y x : Nat) :
    prefixSum f (y + 1) x - prefixSum f y x + prefixSum f y (x + 1) + f y x
      = prefixSum f (y + 1) (x + 1) := by
  simp only [prefixSum, Finset.sum_range_succ]
  ring

theorem prefixSum_zero_row {α : Type} [AddCommMonoid α] (f : Nat → Nat → α) (x : Nat) :
    prefixSum f 0 x = 0 := by
  simp [prefixSum]

theorem prefixSum_zero_col {α : Type} [AddCommMonoid α] (f : Nat → Nat → α) (r : Nat) :
    prefixSum f r 0 = 0 := by
  simp [prefixSum]

theorem setImageCell_apply (aline bline : Nat → Nat) (m : Option (Nat → Nat)) (y x : Nat)
    (T : Tbl CSum) (i j : Nat) :
    setImageCell aline bline m y x T i j
      = if i = y + 1 ∧ j = x + 1 then
          CSum.mk
            (((T (y + 1) x).a - (T y x).a) + ((T y (x + 1)).a + (rowVal m aline x : Int)))
            (((T (y + 1) x).a2 - (T y x).a2)
              + ((T y (x + 1)).a2 + (rowVal m aline x : Int) * (rowVal m aline x : Int)))
            (T (y + 1) (x + 1)).b (T (y + 1) (x + 1)).b2
            ((T (y + 1) x).ab - (T y x).ab + (T y (x + 1)).ab
              + (rowVal m aline x : Int) * (bline x : Int))
        else T i j := by
  simp only [setImageCell, Tbl.set_apply, rowVal]
  by_cases h : i = y + 1 ∧ j = x + 1
  · obtain ⟨rfl, rfl⟩ := h
    simp
  · simp only [if_neg h]

/-- State of table row `y+1` after `n` iterations of the pixel loop of `setImage`. -/
theorem setImage_cols (am bm : Nat → Nat → Nat) (aline bline : Nat → Nat)
    (m : Option (Nat → Nat)) (y cols : Nat) (T0 : Tbl CSum)
    (ha : ∀ x, x < cols → rowVal m aline x = am y x) (hb : ∀ x, x < cols → bline x = bm y x)
    (hrow : ∀ c, c ≤ cols →
      (T0 y c).a = prefixSum (fun i j => (am i j : Int)) y c ∧
      (T0 y c).a2 = prefixSum (fun i j => (am i j : Int) * (am i j : Int)) y c ∧
      (T0 y c).ab = prefixSum (fun i j => (am i j : Int) * (bm i j : Int)) y c)
    (h0 : T0 (y + 1) 0 = CSum.zero) (n : Nat) (hn : n ≤ cols) :
    (∀ i j, ¬ (i = y + 1 ∧ 1 ≤ j ∧ j ≤ n) →
      forLoop n (setImageCell aline bline m y) T0 i j = T0 i j) ∧
    (∀ i j, (forLoop n (setImageCell aline bline m y) T0 i j).b = (T0 i j).b ∧
      (forLoop n (setImageCell aline bline m y) T0 i j).b2 = (T0 i j).b2) ∧
    (∀ c, c ≤ n →
      (forLoop n (setImageCell aline bline m y) T0 (y + 1) c).a
        = prefixSum (fun i j => (am i j : Int)) (y + 1) c ∧
      (forLoop n (setImageCell aline bline m y) T0 (y + 1) c).a2
        = prefixSum (fun i j => (am i j : Int) * (am i j : Int)) (y + 1) c ∧
      (forLoop n (setImageCell aline bline m y) T0 (y + 1) c).ab
        = prefixSum (fun i j => (am i j : Int) * (bm i j : Int)) (y + 1) c) := by
  induction n with
  | zero =>
    refine ⟨fun i j _ => rfl, fun i j => ⟨rfl, rfl⟩, fun c hc => ?_⟩
    have : c = 0 := by omega
    subst this
    simp [forLoop, h0, CSum.zero, prefixSum_zero_col]
  | succ k ih =>
    obtain ⟨i1, i2, i3⟩ := ih (by omega)
    have hy : ¬ (y = y + 1 ∧ 1 ≤ k ∧ k ≤ k) := by omega
    have hy1 : ¬ (y = y + 1 ∧ 1 ≤ k + 1 ∧ k + 1 ≤ k) := by omega
    have hk1 : ¬ (y + 1 = y + 1 ∧ 1 ≤ k + 1 ∧ k + 1 ≤ k) := by omega
    refine ⟨fun i j h => ?_, fun i j => ?_, fun c hc => ?_⟩
    · rw [forLoop_succ, setImageCell_apply, if_neg (by omega), i1 i j (by omega)]
    · rw [forLoop_succ, setImageCell_apply]
      by_cases h : i = y + 1 ∧ j = k + 1
      · obtain ⟨rfl, rfl⟩ := h
        rw [if_pos ⟨rfl, rfl⟩]
        exact i2 (y + 1) (k + 1)
      · rw [if_neg h]
        exact i2 i j
    · rw [forLoop_succ, setImageCell_apply]
      by_cases h : c = k + 1
      · subst h
        rw [if_pos ⟨rfl, rfl⟩]
        simp only [i1 y k hy, i1 y (k + 1) hy1, (i3 k (Nat.le_refl k)).1, (i3 k (Nat.le_refl k)).2.1,
          (i3 k (Nat.le_refl k)).2.2, (hrow k (by omega)).1, (hrow k (by omega)).2.1,
          (hrow k (by omega)).2.2, (hrow (k + 1) hn).1, (hrow (k + 1) hn).2.1,
          (hrow (k + 1) hn).2.2, ha k (by omega), hb k (by omega)]
        refine ⟨?_, ?_, ?_⟩
        · rw [← prefixSum_step (fun i j => (am i j : Int))]; ring
        · rw [← prefixSum_step (fun i j => (am i j : Int) * (am i j : Int))]; ring
        · rw [← prefixSum_step (fun i j => (am i j : Int) * (bm i j : Int))]
      · rw [if_neg (fun h2 => h h2.2)]
        exact i3 c (by omega)


/-- State of the table after `n` rows of `setImage`. -/
theorem setImage_rows (a : Img) (bpx : Tbl Nat) (mask : Option Img) (bm : Nat → Nat → Nat)
    (T0 : Tbl CSum)
    (hb : ∀ y x, y < a.rows → x < a.cols → bpx y x = bm y x)
    (hrow0 : ∀ c, c ≤ a.cols → T0 0 c = CSum.zero)
    (hcol0 : ∀ r, r ≤ a.rows → T0 r 0 = CSum.zero) (n : Nat) (hn : n ≤ a.rows) :
    (∀ r c, r ≤ n → c ≤ a.cols →
      (forLoop n (fun y T => forLoop a.cols
          (setImageCell (a.px y) (bpx y) (mask.map (fun k => k.px y)) y) T) T0 r c).a
        = prefixSum (fun i j => (maskedPx mask a.px i j : Int)) r c ∧
      (forLoop n (fun y T => forLoop a.cols
          (setImageCell (a.px y) (bpx y) (mask.map (fun k => k.px y)) y) T) T0 r c).a2
        = prefixSum (fun i j => (maskedPx mask a.px i j : Int) * (maskedPx mask a.px i j : Int))
            r c ∧
      (forLoop n (fun y T => forLoop a.cols
          (setImageCell (a.px y) (bpx y) (mask.map (fun k => k.px y)) y) T) T0 r c).ab
        = prefixSum (fun i j => (maskedPx mask a.px i j : Int) * (bm i j : Int)) r c) ∧
    (∀ i j, (forLoop n (fun y T => forLoop a.cols
          (setImageCell (a.px y) (bpx y) (mask.map (fun k => k.px y)) y) T) T0 i j).b = (T0 i j).b ∧
      (forLoop n (fun y T => forLoop a.cols
          (setImageCell (a.px y) (bpx y) (mask.map (fun k => k.px y)) y) T) T0 i j).b2
        = (T0 i j).b2) ∧
    (∀ i j, (j = 0 ∨ i = 0 ∨ n < i) →
      forLoop n (fun y T => forLoop a.cols
          (setImageCell (a.px y) (bpx y) (mask.map (fun k => k.px y)) y) T) T0 i j = T0 i j) := by
  induction n with
  | zero =>
    refine ⟨fun r c hr hc => ?_, fun i j => ⟨rfl, rfl⟩, fun i j _ => rfl⟩
    have : r = 0 := by omega
    subst this
    simp [forLoop, hrow0 c hc, CSum.zero, prefixSum_zero_row]
  | succ k ih =>
    obtain ⟨j1, j2, j3⟩ := ih (by omega)
    generalize hT : forLoop k (fun y T => forLoop a.cols
          (setImageCell (a.px y) (bpx y) (mask.map (fun k => k.px y)) y) T) T0 = T at j1 j2 j3
    have h0 : T (k + 1) 0 = CSum.zero := by
      rw [j3 (k + 1) 0 (Or.inl rfl)]
      exact hcol0 (k + 1) hn
    obtain ⟨c1, c2, c3⟩ := setImage_cols (maskedPx mask a.px) bm (a.px k) (bpx k)
      (mask.map (fun q => q.px k)) k a.cols T
      (fun x _ => rowVal_eq_maskedPx mask a.px k x) (fun x hx => hb k x (by omega) hx)
      (fun c hc => j1 k c (Nat.le_refl k) hc) h0 a.cols (Nat.le_refl _)
    refine ⟨fun r c hr hc => ?_, fun i j => ?_, fun i j h => ?_⟩
    · rw [forLoop_succ, hT]
      by_cases h : r = k + 1
      · subst h
        exact c3 c hc
      · rw [c1 r c (by omega)]
        exact j1 r c (by omega) hc
    · rw [forLoop_succ, hT, (c2 i j).1, (c2 i j).2]
      exact j2 i j
    · rw [forLoop_succ, hT, c1 i j (by omega)]
      exact j3 i j (by omega)

/-- The table cells after `setModel` followed by `setImage`. -/
theorem integral_cells (e0 : FNcc) (fresh : Tbl CSum) (a b : Img) (mask : Option Img)
    (hr : a.rows = b.rows) (hc : a.cols = b.cols) (y x : Nat) (hy : y ≤ b.rows)
    (hx : x ≤ b.cols) :
    ((e0.setModel fresh b mask).setImage a).integral y x
      = CSum.mk
          (prefixSum (fun i j => (maskedPx mask a.px i j : Int)) y x)
          (prefixSum (fun i j => (maskedPx mask a.px i j : Int) ^ 2) y x)
          (prefixSum (fun i j => (maskedPx mask b.px i j : Int)) y x)
          (prefixSum (fun i j => (maskedPx mask b.px i j : Int) ^ 2) y x)
          (prefixSum (fun i j => (maskedPx mask a.px i j : Int) * (maskedPx mask b.px i j : Int))
            y x) := by
  have hT0 : ∀ x, x ≤ b.cols →
      forLoop (b.cols + 1) (fun x T => T.set 0 x CSum.zero) fresh 0 x = CSum.zero := by
    intro x hx
    rw [forLoop_set_row, if_pos ⟨rfl, by omega⟩]
  obtain ⟨m1, m2, m3, m4⟩ := setModel_rows b mask _ hT0 b.rows
  obtain ⟨s1, s2, s3⟩ := setImage_rows a
    (forLoop b.rows (setModelRow b.cols mask)
      (b.px, forLoop (b.cols + 1) (fun x T => T.set 0 x CSum.zero) fresh)).1 mask
    (maskedPx mask b.px)
    (forLoop b.rows (setModelRow b.cols mask)
      (b.px, forLoop (b.cols + 1) (fun x T => T.set 0 x CSum.zero) fresh)).2
    (fun y x hy hx => by rw [m1 y x, if_pos ⟨by omega, by omega⟩])
    (fun c hc' => m4 c (by omega)) (fun r hr' => m3 r (by omega)) a.rows (Nat.le_refl _)
  have main : ∀ y x, y ≤ b.rows → x ≤ b.cols →
      ((e0.setModel fresh b mask).setImage a).integral y x
        = CSum.mk
            (prefixSum (fun i j => (maskedPx mask a.px i j : Int)) y x)
            (prefixSum (fun i j => (maskedPx mask a.px i j : Int) ^ 2) y x)
            (prefixSum (fun i j => (maskedPx mask b.px i j : Int)) y x)
            (prefixSum (fun i j => (maskedPx mask b.px i j : Int) ^ 2) y x)
            (prefixSum (fun i j => (maskedPx mask a.px i j : Int) * (maskedPx mask b.px i j : Int))
              y x) := by
    intro y x hy hx
    have e1 := s1 y x (by omega) (by omega)
    have e2 := s2 y x
    have e3 := m2 y x hy hx
    simp only [FNcc.setImage, FNcc.setModel]
    apply CSum.ext
    · exact e1.1
    · simpa [sq] using e1.2.1
    · exact e2.1.trans e3.1
    · simpa [sq] using e2.2.trans e3.2
    · exact e1.2.2
  exact main y x hy hx

/-- C2: after `setModel(b, mask?)` and `setImage(a)` on H×W images, table cell `(y, x)`
(`0 ≤ y ≤ H`, `0 ≤ x ≤ W`) holds exactly `(Σa', Σa'², Σb', Σb'², Σa'·b')` over the pixels with
row `< y` and column `< x`, where `a'` and `b'` are `a` and `b` with every pixel whose mask
value is 0 replaced by 0; consequently row 0 and column 0 of the table are all zero. -/
theorem setModel_setImage_integral (e0 : FNcc) (fresh : Tbl CSum) (a b : Img) (mask : Option Img)
    (hr : a.rows = b.rows) (hc : a.cols = b.cols) :
    (∀ y x, y ≤ b.rows → x ≤ b.cols →
      ((e0.setModel fresh b mask).setImage a).integral y x
        = CSum.mk
            (prefixSum (fun i j => (maskedPx mask a.px i j : Int)) y x)
            (prefixSum (fun i j => (maskedPx mask a.px i j : Int) ^ 2) y x)
            (prefixSum (fun i j => (maskedPx mask b.px i j : Int)) y x)
            (prefixSum (fun i j => (maskedPx mask b.px i j : Int) ^ 2) y x)
            (prefixSum (fun i j => (maskedPx mask a.px i j : Int) * (maskedPx mask b.px i j : Int))
              y x)) ∧
    (∀ x, x ≤ b.cols → ((e0.setModel fresh b mask).setImage a).integral 0 x = CSum.zero) ∧
    (∀ y, y ≤ b.rows → ((e0.setModel fresh b mask).setImage a).integral y 0 = CSum.zero) := by
  have main := integral_cells e0 fresh a b mask hr hc
  refine ⟨main, fun x hx => ?_, fun y hy => ?_⟩
  · rw [main 0 x (Nat.zero_le _) hx]
    simp [prefixSum_zero_row, CSum.zero]
  · rw [main y 0 hy (Nat.zero_le _)]
    simp [prefixSum_zero_col, CSum.zero]

/-- C2 at a concrete input: the two by three test images with a mask. -/
theorem setModel_setImage_integral_witness :
    (exA.rows = exB.rows ∧ exA.cols = exB.cols) ∧
    ((∀ y x, y ≤ exB.rows → x ≤ exB.cols →
      ((FNcc.init.setModel (fun _ _ => CSum.mk 7 7 7 7 7) exB (some exM)).setImage exA).integral y x
        = CSum.mk
            (prefixSum (fun i j => (maskedPx (some exM) exA.px i j : Int)) y x)
            (prefixSum (fun i j => (maskedPx (some exM) exA.px i j : Int) ^ 2) y x)
            (prefixSum (fun i j => (maskedPx (some exM) exB.px i j : Int)) y x)
            (prefixSum (fun i j => (maskedPx (some exM) exB.px i j : Int) ^ 2) y x)
            (prefixSum (fun i j => (maskedPx (some exM) exA.px i j : Int)
              * (maskedPx (some exM) exB.px i j : Int)) y x)) ∧
    (∀ x, x ≤ exB.cols →
      ((FNcc.init.setModel (fun _ _ => CSum.mk 7 7 7 7 7) exB (some exM)).setImage exA).integral 0 x
        = CSum.zero) ∧
    (∀ y, y ≤ exB.rows →
      ((FNcc.init.setModel (fun _ _ => CSum.mk 7 7 7 7 7) exB (some exM)).setImage exA).integral y 0
        = CSum.zero)) :=
  ⟨⟨rfl, rfl⟩, setModel_setImage_integral FNcc.init (fun _ _ => CSum.mk 7 7 7 7 7) exA exB
    (some exM) rfl rfl⟩

/-! ## `float` values -/

section FloatLemmas

variable {K : Type} [LinearOrderedField K]

theorem Flt.ofInt_eq (n : Int) : (Flt.ofInt n : Flt K) = Flt.fin (n : K) := rfl

theorem Flt.fin_add (a b : K) : Flt.fin a + Flt.fin b = Flt.fin (a + b) := rfl

theorem Flt.fin_sub (a b : K) : Flt.fin a - Flt.fin b = Flt.fin (a - b) := by
  show Flt.fin (a + -b) = Flt.fin (a - b)
  rw [sub_eq_add_neg]

theorem Flt.fin_mul (a b : K) : Flt.fin a * Flt.fin b = Flt.fin (a * b) := rfl

/-- The quotient of finite values with a divisor other than zero. -/
theorem Flt.fin_div (a b : K) (h : b ≠ 0) : Flt.fin a / Flt.fin b = Flt.fin (a / b) := by
  show (if b = 0 then Flt.infMul false a else Flt.fin (a / b)) = Flt.fin (a / b)
  rw [if_neg h]

theorem Flt.fin_lt (a b : K) : Flt.fin a < Flt.fin b ↔ a < b := by
  show Flt.lt (Flt.fin a) (Flt.fin b) = true ↔ a < b
  simp [Flt.lt]

theorem Flt.sqrtf_fin (F : FloatOps K) (v : K) (h : 0 ≤ v) :
    Flt.sqrtf F (Flt.fin v) = Flt.fin (F.sqrtf v) := by
  show (if v < 0 then Flt.nan else Flt.fin (F.sqrtf v)) = Flt.fin (F.sqrtf v)
  rw [if_neg (not_lt.mpr h)]

theorem Flt.rsqrt_fin (F : FloatOps K) (v : K) (h : 0 < v) :
    Flt.rsqrt F (Flt.fin v) = Flt.fin (F.rsqrt v) := by
  show (if v < 0 then Flt.nan else if v = 0 then Flt.pinf else Flt.fin (F.rsqrt v))
    = Flt.fin (F.rsqrt v)
  rw [if_neg (not_lt.mpr h.le), if_neg h.ne.symm]

/-- `1.0f/n` for an integer `n` other than zero. -/
theorem Flt.one_div_ofInt (n : Int) (h : n ≠ 0) :
    (Flt.fin 1 / Flt.ofInt n : Flt K) = Flt.fin (1 / (n : K)) :=
  Flt.fin_div 1 _ (by exact_mod_cast h)

/-- `1.0f/0` is `+inf`. -/
theorem Flt.one_div_zero : (Flt.fin 1 / Flt.fin 0 : Flt K) = Flt.pinf := by
  show (if (0 : K) = 0 then Flt.infMul false (1 : K) else Flt.fin (1 / 0)) = Flt.pinf
  rw [if_pos rfl]
  unfold Flt.infMul
  rw [if_neg one_ne_zero, if_neg (not_lt.mpr zero_le_one)]
  rfl

/-- `inf*0` is NaN. -/
theorem Flt.pinf_mul_zero : (Flt.pinf * Flt.fin 0 : Flt K) = Flt.nan := by
  show Flt.infMul false (0 : K) = Flt.nan
  unfold Flt.infMul
  rw [if_pos rfl]

theorem Flt.mul_fin_one (v : Flt K) : v * Flt.fin 1 = v := by
  cases v with
  | fin a =>
    show Flt.fin (a * 1) = Flt.fin a
    rw [mul_one]
  | pinf =>
    show Flt.infMul false (1 : K) = Flt.pinf
    unfold Flt.infMul
    rw [if_neg one_ne_zero, if_neg (not_lt.mpr zero_le_one)]
    rfl
  | ninf =>
    show Flt.infMul true (1 : K) = Flt.ninf
    unfold Flt.infMul
    rw [if_neg one_ne_zero, if_neg (not_lt.mpr zero_le_one)]
    rfl
  | nan => rfl

theorem FMAX_zero_of_nonneg (t : K) (h : 0 ≤ t) : FMAX 0 t = t := by
  unfold FMAX
  rw [if_neg (not_lt.mpr h)]

theorem FMAX_zero_nonneg (t : K) : 0 ≤ FMAX 0 t := by
  unfold FMAX
  split_ifs with h
  · exact le_refl 0
  · exact not_lt.mp h

theorem FMAX_fin (a b : K) : FMAX (Flt.fin a) (Flt.fin b) = Flt.fin (FMAX a b) := by
  unfold FMAX
  by_cases h : a > b
  · rw [if_pos h, if_pos ((Flt.fin_lt b a).2 h)]
  · rw [if_neg h, if_neg (fun h2 => h ((Flt.fin_lt b a).1 h2))]

/-- On a finite `N` and `sqrtN` the pixel arithmetic is the arithmetic of real numbers. -/
theorem nccValues_fin (F : FloatOps K) (hasDst hasSv : Bool) (s : CSum) (N q : K) :
    nccValues F hasDst hasSv s (Flt.fin N) (Flt.fin q)
      = ((nccReal F hasDst hasSv s N q).1.map Flt.fin,
          (nccReal F hasDst hasSv s N q).2.map Flt.fin) := by
  unfold nccValues nccReal
  simp only [Flt.ofInt_eq, Flt.fin_mul, Flt.fin_sub, FMAX_fin]
  rw [Flt.sqrtf_fin F _ (FMAX_zero_nonneg _), Flt.sqrtf_fin F _ (FMAX_zero_nonneg _)]
  simp only [Flt.fin_mul, texeval, Flt.fin_add]
  cases hasSv with
  | true =>
    cases hasDst with
    | true =>
      simp only [if_true, Option.map_some', gt_iff_lt, Flt.fin_lt]
      split_ifs with h
      · rw [Flt.fin_div _ _ (by intro h0; rw [h0] at h; exact absurd h (not_lt.mpr zero_le_one))]
      · rfl
    | false => simp
  | false =>
    cases hasDst with
    | true =>
      simp only [if_true, Bool.false_eq_true, if_false, Option.map_some', Option.map_none',
        Flt.fin_lt]
      split_ifs with h
      · rfl
      · rw [Flt.rsqrt_fin F _ (lt_of_lt_of_le zero_lt_one (not_lt.mp h)), Flt.fin_mul]
    | false => simp

end FloatLemmas

/-! ## The pixel loops of `computeNcc` -/


theorem mem_intRange (lo hi x : Int) : x ∈ intRange lo hi ↔ lo ≤ x ∧ x < hi := by
  unfold intRange
  rw [List.mem_map]
  constructor
  · rintro ⟨i, hi1, rfl⟩
    rw [List.mem_range] at hi1
    omega
  · rintro ⟨h1, h2⟩
    refine ⟨(x - lo).toNat, ?_, ?_⟩
    · rw [List.mem_range]
      omega
    · omega

theorem tdiv_two_nonneg (w : Int) (h : 1 ≤ w) : 0 ≤ Int.tdiv w 2 :=
  Int.tdiv_nonneg (by omega) (by omega)

section EngineProofs

variable {K : Type} [LinearOrderedField K]

/-- The iterations of `computeNcc_mask`, by row and zone. -/
theorem mem_computeNcc_mask (F : FloatOps K) (e : FNcc) (winSize : Int)
    (dst sumvar : Option OutMap) (st : Step (Flt K)) :
    st ∈ e.computeNcc_mask F winSize dst sumvar ↔
      ∃ y : Int, (0 ≤ y ∧ y < (e.height : Int) - 1) ∧
        ((∃ x : Int, (0 ≤ x ∧ x < Int.tdiv winSize 2 + 1) ∧
            maskLeft F e dst.isSome sumvar.isSome (Int.tdiv winSize 2) y x = st) ∨
          (∃ x : Int, (Int.tdiv winSize 2 + 1 ≤ x ∧ x < outCols dst - Int.tdiv winSize 2) ∧
            maskMid F e dst.isSome sumvar.isSome (Int.tdiv winSize 2) y x = st) ∨
          (∃ x : Int, (outCols dst - Int.tdiv winSize 2 ≤ x ∧ x < outCols dst) ∧
            maskRight F e dst.isSome sumvar.isSome (outCols dst) (Int.tdiv winSize 2) y x = st)) := by
  simp only [FNcc.computeNcc_mask, List.mem_flatMap, List.mem_append, List.mem_map, mem_intRange,
    or_assoc]

/-- The iterations of `computeNcc_nomask`, by row and zone. -/
theorem mem_computeNcc_nomask (F : FloatOps K) (e : FNcc) (winSize : Int)
    (dst sumvar : Option OutMap) (st : Step (Flt K)) :
    st ∈ e.computeNcc_nomask F winSize dst sumvar ↔
      ∃ y : Int, (0 ≤ y ∧ y < (e.height : Int) - 1) ∧
        ((∃ x : Int, (0 ≤ x ∧ x < Int.tdiv winSize 2 + 1) ∧
            nomaskLeft F e dst.isSome sumvar.isSome (Int.tdiv winSize 2) y x = st) ∨
          (∃ x : Int, (Int.tdiv winSize 2 + 1 ≤ x ∧ x < outCols dst - Int.tdiv winSize 2) ∧
            nomaskMid F e dst.isSome sumvar.isSome (Int.tdiv winSize 2) y x = st) ∨
          (∃ x : Int, (outCols dst - Int.tdiv winSize 2 ≤ x ∧ x < outCols dst) ∧
            nomaskRight F e dst.isSome sumvar.isSome (outCols dst) (Int.tdiv winSize 2) y x = st)) := by
  simp only [FNcc.computeNcc_nomask, List.mem_flatMap, List.mem_append, List.mem_map,
    mem_intRange, or_assoc]

theorem maskStep_y (F : FloatOps K) (e : FNcc) (hasDst hasSv : Bool) (w2 y x : Int)
    (c1 c2 c3 c4 : Int × Int) (l r : Int) :
    (maskStep F e hasDst hasSv w2 y x c1 c2 c3 c4 l r).y = y ∧
    (maskStep F e hasDst hasSv w2 y x c1 c2 c3 c4 l r).x = x := by
  unfold maskStep
  cases e.maskAt y x with
  | none => exact ⟨rfl, rfl⟩
  | some mx =>
    by_cases h : mx = 0
    · simp [h]
    · simp [h]

theorem maskStep_masked (F : FloatOps K) (e : FNcc) (hasDst hasSv : Bool) (w2 y x : Int)
    (c1 c2 c3 c4 : Int × Int) (l r : Int) (h : e.maskAt y x = some 0) :
    (maskStep F e hasDst hasSv w2 y x c1 c2 c3 c4 l r).out
      = some (if hasDst then some (Flt.fin 0) else none,
          if hasSv then some (Flt.fin 0) else none) := by
  unfold maskStep
  rw [h]
  simp

/-- C3: in the masked engine, for every image, mask, window size and every in-bounds pixel
`(x, y)` whose mask value is 0, the correlation output and (when requested) the texture output
at `(x, y)` are both exactly 0: the pixel is visited, and every iteration that visits it stores
0 to `dline[x]` and, when `sumvar` is given, 0 to `sv[x]`. -/
theorem computeNcc_mask_zero_where_masked (F : FloatOps K) (e : FNcc) (k : Img) (winSize : Int)
    (d : OutMap) (sumvar : Option OutMap) (hmask : e.mask = some k)
    (hw : k.cols + 1 = e.width) (hh : k.rows + 1 = e.height) (hd : d.cols + 1 = e.width)
    (y x : Nat) (hy : y < k.rows) (hx : x < k.cols) (hm : k.px y x = 0) :
    (∃ st ∈ e.computeNcc_mask F winSize (some d) sumvar, st.y = (y : Int) ∧ st.x = (x : Int)) ∧
    (∀ st ∈ e.computeNcc_mask F winSize (some d) sumvar, st.y = (y : Int) → st.x = (x : Int) →
      st.out = some (some (Flt.fin 0), if sumvar.isSome then some (Flt.fin 0) else none)) := by
  have hat : e.maskAt (y : Int) (x : Int) = some 0 := by
    unfold FNcc.maskAt
    rw [hmask]
    simp only [Int.toNat_ofNat, hm]
    rw [if_pos (by omega)]
  have hcols : outCols (some d) = (k.cols : Int) := by
    simp only [outCols]
    omega
  constructor
  · have hyr : (0 : Int) ≤ (y : Int) ∧ (y : Int) < (e.height : Int) - 1 := by omega
    by_cases h1 : (x : Int) < Int.tdiv winSize 2 + 1
    · refine ⟨_, (mem_computeNcc_mask F e winSize (some d) sumvar _).2
        ⟨y, hyr, Or.inl ⟨x, ⟨by omega, h1⟩, rfl⟩⟩, ?_⟩
      exact maskStep_y F e _ _ _ _ _ _ _ _ _ _ _
    · by_cases h2 : (x : Int) < outCols (some d) - Int.tdiv winSize 2
      · refine ⟨_, (mem_computeNcc_mask F e winSize (some d) sumvar _).2
          ⟨y, hyr, Or.inr (Or.inl ⟨x, ⟨by omega, h2⟩, rfl⟩)⟩, ?_⟩
        exact maskStep_y F e _ _ _ _ _ _ _ _ _ _ _
      · refine ⟨_, (mem_computeNcc_mask F e winSize (some d) sumvar _).2
          ⟨y, hyr, Or.inr (Or.inr ⟨x, ⟨by omega, by omega⟩, rfl⟩)⟩, ?_⟩
        exact maskStep_y F e _ _ _ _ _ _ _ _ _ _ _
  · intro st hst hsy hsx
    rw [mem_computeNcc_mask] at hst
    obtain ⟨y', _, h | h | h⟩ := hst
    all_goals
      obtain ⟨x', _, rfl⟩ := h
      first
        | simp only [maskLeft] at hsy hsx ⊢
        | simp only [maskMid] at hsy hsx ⊢
        | simp only [maskRight] at hsy hsx ⊢
      rw [(maskStep_y F e _ _ _ _ _ _ _ _ _ _ _).1] at hsy
      rw [(maskStep_y F e _ _ _ _ _ _ _ _ _ _ _).2] at hsx
      subst hsy hsx
      rw [maskStep_masked F e _ _ _ _ _ _ _ _ _ _ _ hat]
      simp

/-- C3 at a concrete input: the masked test images, window size 3, pixel `(x, y) = (1, 0)`. -/
theorem computeNcc_mask_zero_where_masked_witness :
    (((FNcc.init.setModel (fun _ _ => CSum.zero) exB (some exM)).setImage exA).mask = some exM ∧
      exM.cols + 1 = ((FNcc.init.setModel (fun _ _ => CSum.zero) exB (some exM)).setImage exA).width ∧
      exM.rows + 1 = ((FNcc.init.setModel (fun _ _ => CSum.zero) exB (some exM)).setImage exA).height ∧
      (OutMap.mk 2 3).cols + 1
        = ((FNcc.init.setModel (fun _ _ => CSum.zero) exB (some exM)).setImage exA).width ∧
      0 < exM.rows ∧ 1 < exM.cols ∧ exM.px 0 1 = 0) ∧
    ((∃ st ∈ ((FNcc.init.setModel (fun _ _ => CSum.zero) exB (some exM)).setImage exA).computeNcc_mask
        (FloatOps.mk (fun t : ℚ => t) (fun t => t)) 3 (some (OutMap.mk 2 3)) (some (OutMap.mk 2 3)),
        st.y = ((0 : Nat) : Int) ∧ st.x = ((1 : Nat) : Int)) ∧
    (∀ st ∈ ((FNcc.init.setModel (fun _ _ => CSum.zero) exB (some exM)).setImage exA).computeNcc_mask
        (FloatOps.mk (fun t : ℚ => t) (fun t => t)) 3 (some (OutMap.mk 2 3)) (some (OutMap.mk 2 3)),
      st.y = ((0 : Nat) : Int) → st.x = ((1 : Nat) : Int) →
      st.out = some (some (Flt.fin 0),
        if (some (OutMap.mk 2 3)).isSome then some (Flt.fin 0) else none))) :=
  ⟨⟨rfl, rfl, rfl, rfl, by decide, by decide, rfl⟩,
    computeNcc_mask_zero_where_masked _ _ exM 3 (OutMap.mk 2 3) (some (OutMap.mk 2 3)) rfl rfl rfl
      rfl 0 1 (by decide) (by decide) rfl⟩

/-- C4, evaluated on a 1×1 image with window size 3: the left-edge loop runs for `x = 0, 1`;
its iteration `x = 1` stores to `dline[1]` of a one-column map and reads column 2 of a table
that has the two columns 0 and 1, so its result depends on a read outside the table. -/
theorem computeNcc_nomask_leaves_table (fresh : Tbl CSum) :
    ((FNcc.init.setModel fresh ex11 none).setImage ex11).width = 2 ∧
    ((FNcc.init.setModel fresh ex11 none).setImage ex11).height = 2 ∧
    ∃ st ∈ ((FNcc.init.setModel fresh ex11 none).setImage ex11).computeNcc_nomask
        (FloatOps.mk Real.sqrt (fun t => 1 / Real.sqrt t)) 3 (some (OutMap.mk 1 1)) none,
      st.y = 0 ∧ st.x = 1 ∧ st.reads = [(0, 0), (0, 2), (1, 2), (1, 0)] ∧ st.out = none := by
  refine ⟨rfl, rfl, nomaskLeft (FloatOps.mk Real.sqrt (fun t => 1 / Real.sqrt t))
    ((FNcc.init.setModel fresh ex11 none).setImage ex11) true false 1 0 1, ?_, rfl, rfl, ?_, ?_⟩
  · rw [mem_computeNcc_nomask]
    have hh : ((FNcc.init.setModel fresh ex11 none).setImage ex11).height = 2 := rfl
    refine ⟨0, ?_, Or.inl ⟨1, by decide, rfl⟩⟩
    rw [hh]
    decide
  · simp [nomaskLeft, yupOf, ydownOf, FNcc.setImage, FNcc.setModel, ex11, Img.mk8]
  · simp [nomaskLeft, yupOf, ydownOf, FNcc.setImage, FNcc.setModel, ex11, Img.mk8, FNcc.sum4,
      FNcc.cell]

end EngineProofs

section StepSpec

variable {K : Type} [LinearOrderedField K]

/-- Size and mask of the engine after `setModel` and `setImage`. -/
theorem setup_fields (e0 : FNcc) (fresh : Tbl CSum) (a b : Img) (mask : Option Img) :
    ((e0.setModel fresh b mask).setImage a).width = b.cols + 1 ∧
    ((e0.setModel fresh b mask).setImage a).height = b.rows + 1 ∧
    ((e0.setModel fresh b mask).setImage a).mask = mask := ⟨rfl, rfl, rfl⟩

/-- A read inside the table, after `setModel` and `setImage`. -/
theorem cell_setup (e0 : FNcc) (fresh : Tbl CSum) (a b : Img) (mask : Option Img)
    (hr : a.rows = b.rows) (hc : a.cols = b.cols) (r c : Int)
    (h1 : 0 ≤ r) (h2 : r ≤ b.rows) (h3 : 0 ≤ c) (h4 : c ≤ b.cols) :
    ((e0.setModel fresh b mask).setImage a).cell (r, c)
      = some (CSum.mk
          (prefixSum (fun i j => (maskedPx mask a.px i j : Int)) r.toNat c.toNat)
          (prefixSum (fun i j => (maskedPx mask a.px i j : Int) ^ 2) r.toNat c.toNat)
          (prefixSum (fun i j => (maskedPx mask b.px i j : Int)) r.toNat c.toNat)
          (prefixSum (fun i j => (maskedPx mask b.px i j : Int) ^ 2) r.toNat c.toNat)
          (prefixSum (fun i j => (maskedPx mask a.px i j : Int) * (maskedPx mask b.px i j : Int))
            r.toNat c.toNat)) := by
  unfold FNcc.cell
  obtain ⟨hw, hh, -⟩ := setup_fields e0 fresh a b mask
  rw [if_pos (by rw [hw, hh]; omega),
    integral_cells e0 fresh a b mask hr hc r.toNat c.toNat (by omega) (by omega)]

/-- The four-corner combination over a rectangle inside the table is the direct window sum. -/
theorem sum4_setup (e0 : FNcc) (fresh : Tbl CSum) (a b : Img) (mask : Option Img)
    (hr : a.rows = b.rows) (hc : a.cols = b.cols) (t bo l r : Int)
    (ht : 0 ≤ t) (htb : t ≤ bo) (hb : bo ≤ b.rows) (hl : 0 ≤ l) (hlr : l ≤ r) (hrw : r ≤ b.cols) :
    ((e0.setModel fresh b mask).setImage a).sum4 (t, l) (t, r) (bo, r) (bo, l)
      = some (winSums mask a b l.toNat t.toNat r.toNat bo.toNat) := by
  unfold FNcc.sum4
  rw [cell_setup e0 fresh a b mask hr hc t l ht (by omega) hl (by omega),
    cell_setup e0 fresh a b mask hr hc t r ht (by omega) (by omega) hrw,
    cell_setup e0 fresh a b mask hr hc bo r (by omega) hb (by omega) hrw,
    cell_setup e0 fresh a b mask hr hc bo l (by omega) hb hl (by omega)]
  have hx : l.toNat ≤ r.toNat := by omega
  have hy : t.toNat ≤ bo.toNat := by omega
  simp only [CSum.setaddsub4, winSums, ← rectSum_of_prefixSum _ _ _ _ _ hx hy]
  congr 1
  apply CSum.ext <;> simp only <;> ring


/-- `1.0f/MAX(area,1)` is `1/area` when the area is not zero. -/
theorem one_div_max_one (n : Int) (h0 : 0 ≤ n) (h : n ≠ 0) :
    (Flt.fin 1 / Flt.ofInt (max n 1) : Flt K) = Flt.fin (1 / (n : K)) := by
  have h1 : max n 1 = n := max_eq_left (by omega)
  rw [h1, Flt.one_div_ofInt n h]

/-- What an iteration of `computeNcc_nomask` computes when the image is at least
`2·w2+1` pixels wide: its window is the clipped rectangle, its sums are the direct sums over
that rectangle, and `N` is the reciprocal of the rectangle's pixel count when that is not 0. -/
theorem nomask_step_spec (F : FloatOps K) (e0 : FNcc) (fresh : Tbl CSum) (a b : Img)
    (mask : Option Img) (hr : a.rows = b.rows) (hc : a.cols = b.cols) (winSize : Int)
    (hws : 1 ≤ winSize) (hW : 2 * Int.tdiv winSize 2 + 1 ≤ (b.cols : Int)) (d : OutMap)
    (hd : d.cols = b.cols) (sumvar : Option OutMap) (st : Step (Flt K))
    (hst : st ∈ ((e0.setModel fresh b mask).setImage a).computeNcc_nomask F winSize (some d) sumvar) :
    ∃ (x y : Int) (N : Flt K), (0 ≤ y ∧ y < b.rows ∧ 0 ≤ x ∧ x < b.cols) ∧ st.y = y ∧ st.x = x ∧
      st.reads
        = [(yupOf (Int.tdiv winSize 2) y, winLeft (Int.tdiv winSize 2) x),
           (yupOf (Int.tdiv winSize 2) y, winRight b.cols (Int.tdiv winSize 2) x),
           (min (b.rows : Int) (y + Int.tdiv winSize 2), winRight b.cols (Int.tdiv winSize 2) x),
           (min (b.rows : Int) (y + Int.tdiv winSize 2), winLeft (Int.tdiv winSize 2) x)] ∧
      (0 ≤ yupOf (Int.tdiv winSize 2) y ∧
        yupOf (Int.tdiv winSize 2) y ≤ min (b.rows : Int) (y + Int.tdiv winSize 2) ∧
        0 ≤ winLeft (Int.tdiv winSize 2) x ∧
        winLeft (Int.tdiv winSize 2) x ≤ winRight b.cols (Int.tdiv winSize 2) x) ∧
      ((winRight b.cols (Int.tdiv winSize 2) x - winLeft (Int.tdiv winSize 2) x)
          * (min (b.rows : Int) (y + Int.tdiv winSize 2) - yupOf (Int.tdiv winSize 2) y) ≠ 0 →
        N = Flt.fin (1 / (((winRight b.cols (Int.tdiv winSize 2) x - winLeft (Int.tdiv winSize 2) x)
          * (min (b.rows : Int) (y + Int.tdiv winSize 2) - yupOf (Int.tdiv winSize 2) y) : Int) : K))) ∧
      st.out = some (nccValues F true sumvar.isSome
        (winSums mask a b (winLeft (Int.tdiv winSize 2) x).toNat (yupOf (Int.tdiv winSize 2) y).toNat
          (winRight b.cols (Int.tdiv winSize 2) x).toNat
          (min (b.rows : Int) (y + Int.tdiv winSize 2)).toNat) N (Flt.sqrtf F N)) := by
  have hw2 := tdiv_two_nonneg winSize hws
  rw [mem_computeNcc_nomask] at hst
  generalize Int.tdiv winSize 2 = w2 at *
  obtain ⟨hwd, hht, -⟩ := setup_fields e0 fresh a b mask
  have hyd : ∀ y, ydownOf ((e0.setModel fresh b mask).setImage a) w2 y
      = min (b.rows : Int) (y + w2) := by
    intro y
    unfold ydownOf
    rw [hht]
    congr 1
    omega
  have hcols : outCols (some d) = (b.cols : Int) := by
    simp only [outCols, hd]
  rw [hcols, hht] at hst
  obtain ⟨y, hy, h | h | h⟩ := hst
  · obtain ⟨x, hx, rfl⟩ := h
    have hL : winLeft w2 x = 0 := by unfold winLeft; omega
    have hR : winRight b.cols w2 x = w2 + x := by unfold winRight; omega
    have hT : 0 ≤ yupOf w2 y ∧ yupOf w2 y ≤ min (b.rows : Int) (y + w2) := by
      unfold yupOf; omega
    refine ⟨x, y, Flt.fin 1 / Flt.ofInt (max ((x + w2) * (ydownOf ((e0.setModel fresh b mask).setImage a) w2 y - yupOf w2 y)) 1),
      ⟨by omega, by omega, by omega, by omega⟩, rfl, rfl, ?_, ⟨hT.1, hT.2, by omega, by omega⟩,
      ?_, ?_⟩
    · simp only [nomaskLeft, hyd, hL, hR]
    · intro hne
      rw [hL, hR] at hne
      rw [hyd, hL, hR]
      have e1 : (x + w2) * (min (b.rows : Int) (y + w2) - yupOf w2 y)
          = (w2 + x - 0) * (min (b.rows : Int) (y + w2) - yupOf w2 y) := by ring
      rw [e1]
      exact one_div_max_one _ (mul_nonneg (by omega) (by omega)) hne
    · simp only [nomaskLeft, Option.isSome_some]
      rw [hyd, hL, hR, sum4_setup e0 fresh a b mask hr hc _ _ _ _ hT.1 hT.2 (by omega)
        (le_refl 0) (by omega) (by omega)]
      rfl
  · obtain ⟨x, hx, rfl⟩ := h
    have hL : winLeft w2 x = -w2 - 1 + x := by unfold winLeft; omega
    have hR : winRight b.cols w2 x = w2 + x := by unfold winRight; omega
    have hT : 0 ≤ yupOf w2 y ∧ yupOf w2 y ≤ min (b.rows : Int) (y + w2) := by
      unfold yupOf; omega
    refine ⟨x, y, Flt.fin 1 / (Flt.ofInt (ydownOf ((e0.setModel fresh b mask).setImage a) w2 y - yupOf w2 y) * Flt.ofInt (w2 * 2 + 1)),
      ⟨by omega, by omega, by omega, by omega⟩, rfl, rfl, ?_, ⟨hT.1, hT.2, by omega, by omega⟩,
      ?_, ?_⟩
    · simp only [nomaskMid, hyd, hL, hR]
    · intro hne
      rw [hL, hR] at hne
      rw [hyd, hL, hR]
      have e1 : (((min (b.rows : Int) (y + w2) - yupOf w2 y : Int)) : K) * (((w2 * 2 + 1 : Int)) : K)
          = (((w2 + x - (-w2 - 1 + x)) * (min (b.rows : Int) (y + w2) - yupOf w2 y) : Int) : K) := by
        push_cast
        ring
      rw [Flt.ofInt_eq, Flt.ofInt_eq, Flt.fin_mul, e1, Flt.fin_div]
      exact_mod_cast hne
    · simp only [nomaskMid, Option.isSome_some]
      rw [hyd, hL, hR, sum4_setup e0 fresh a b mask hr hc _ _ _ _ hT.1 hT.2 (by omega)
        (by omega) (by omega) (by omega)]
      rfl
  · obtain ⟨x, hx, rfl⟩ := h
    have hL : winLeft w2 x = -w2 - 1 + x := by unfold winLeft; omega
    have hR : winRight b.cols w2 x = (b.cols : Int) := by unfold winRight; omega
    have hT : 0 ≤ yupOf w2 y ∧ yupOf w2 y ≤ min (b.rows : Int) (y + w2) := by
      unfold yupOf; omega
    refine ⟨x, y,
      Flt.fin 1 / Flt.ofInt (max ((ydownOf ((e0.setModel fresh b mask).setImage a) w2 y - yupOf w2 y) * ((b.cols : Int) - (x - w2 - 1))) 1),
      ⟨by omega, by omega, by omega, by omega⟩, rfl, rfl, ?_, ⟨hT.1, hT.2, by omega, by omega⟩,
      ?_, ?_⟩
    · simp only [nomaskRight, hyd, hL, hR]
    · intro hne
      rw [hL, hR] at hne
      rw [hyd, hL, hR]
      have e1 : (min (b.rows : Int) (y + w2) - yupOf w2 y) * ((b.cols : Int) - (x - w2 - 1))
          = ((b.cols : Int) - (-w2 - 1 + x)) * (min (b.rows : Int) (y + w2) - yupOf w2 y) := by ring
      rw [e1]
      exact one_div_max_one _ (mul_nonneg (by omega) (by omega)) hne
    · simp only [nomaskRight, Option.isSome_some]
      rw [hyd, hL, hR, sum4_setup e0 fresh a b mask hr hc _ _ _ _ hT.1 hT.2 (by omega)
        (by omega) (by omega) (le_refl _)]
      rfl

end StepSpec

theorem maskIntegralRow_step (k : Img) (y x : Nat) (M : Tbl Int) (i j : Nat) :
    (M.set (y + 1) (x + 1)
      (M y (x + 1) - M y x + M (y + 1) x + (if k.px y x ≠ 0 then 1 else 0 : Int))) i j
      = if i = y + 1 ∧ j = x + 1 then M y (x + 1) - M y x + M (y + 1) x + validAt k y x
        else M i j := rfl

/-- State of row `y+1` of the mask-coverage table after `n` iterations of its pixel loop. -/
theorem maskIntegral_cols (k : Img) (y : Nat) (M0 : Tbl Int)
    (hrow : ∀ c, c ≤ k.cols → M0 y c = prefixSum (validAt k) y c)
    (h0 : M0 (y + 1) 0 = 0) (n : Nat) (hn : n ≤ k.cols) :
    (∀ i j, ¬ (i = y + 1 ∧ 1 ≤ j ∧ j ≤ n) →
      forLoop n (fun x M => M.set (y + 1) (x + 1)
        (M y (x + 1) - M y x + M (y + 1) x + (if k.px y x ≠ 0 then 1 else 0 : Int))) M0 i j
        = M0 i j) ∧
    (∀ c, c ≤ n →
      forLoop n (fun x M => M.set (y + 1) (x + 1)
        (M y (x + 1) - M y x + M (y + 1) x + (if k.px y x ≠ 0 then 1 else 0 : Int))) M0 (y + 1) c
        = prefixSum (validAt k) (y + 1) c) := by
  induction n with
  | zero =>
    refine ⟨fun i j _ => rfl, fun c hc => ?_⟩
    have : c = 0 := by omega
    subst this
    simp [forLoop, h0, prefixSum_zero_col]
  | succ m ih =>
    obtain ⟨i1, i2⟩ := ih (by omega)
    refine ⟨fun i j h => ?_, fun c hc => ?_⟩
    · rw [forLoop_succ, maskIntegralRow_step, if_neg (by omega), i1 i j (by omega)]
    · rw [forLoop_succ, maskIntegralRow_step]
      by_cases h : c = m + 1
      · subst h
        rw [if_pos ⟨rfl, rfl⟩, i1 y (m + 1) (by omega), i1 y m (by omega), i2 m (Nat.le_refl m),
          hrow m (by omega), hrow (m + 1) hn, ← prefixSum_step (validAt k)]
        ring
      · rw [if_neg (fun h2 => h h2.2)]
        exact i2 c (by omega)

/-- The mask-coverage table holds the number of nonzero-mask pixels with smaller row and
column. -/
theorem maskIntegral_rows (k : Img) (n : Nat) (hn : n ≤ k.rows) :
    (∀ r c, r ≤ n → c ≤ k.cols →
      forLoop n (maskIntegralRow k) (fun _ _ => 0) r c = prefixSum (validAt k) r c) ∧
    (∀ i j, (j = 0 ∨ i = 0 ∨ n < i) →
      forLoop n (maskIntegralRow k) (fun _ _ => 0) i j = 0) := by
  induction n with
  | zero =>
    refine ⟨fun r c hr hc => ?_, fun i j _ => rfl⟩
    have : r = 0 := by omega
    subst this
    simp [forLoop, prefixSum_zero_row]
  | succ m ih =>
    obtain ⟨j1, j3⟩ := ih (by omega)
    generalize hT : forLoop m (maskIntegralRow k) (fun _ _ => 0) = T at j1 j3
    obtain ⟨c1, c3⟩ := maskIntegral_cols k m T (fun c hc => j1 m c (Nat.le_refl m) hc)
      (j3 (m + 1) 0 (Or.inl rfl)) k.cols (Nat.le_refl _)
    refine ⟨fun r c hr hc => ?_, fun i j h => ?_⟩
    · rw [forLoop_succ, hT]
      by_cases h : r = m + 1
      · subst h
        exact c3 c hc
      · unfold maskIntegralRow
        rw [c1 r c (by omega)]
        exact j1 r c (by omega) hc
    · rw [forLoop_succ, hT]
      unfold maskIntegralRow
      rw [c1 i j (by omega)]
      exact j3 i j (by omega)

theorem maskIntegral_cells (k : Img) (r c : Nat) (hr : r ≤ k.rows) (hc : c ≤ k.cols) :
    maskIntegral k r c = prefixSum (validAt k) r c :=
  (maskIntegral_rows k k.rows (Nat.le_refl _)).1 r c hr hc

/-- The count read from the mask-coverage table for a rectangle inside the mask. -/
theorem maskCount_setup (e0 : FNcc) (fresh : Tbl CSum) (a b : Img) (k : Img)
    (t bo l r : Int) (ht : 0 ≤ t) (htb : t ≤ bo) (hb : bo ≤ k.rows) (hl : 0 ≤ l) (hlr : l ≤ r)
    (hrw : r ≤ k.cols) :
    ((e0.setModel fresh b (some k)).setImage a).maskCount t bo l r
      = some (rectSum (validAt k) l.toNat t.toNat r.toNat bo.toNat) := by
  have hcell : ∀ p q : Int, 0 ≤ p → p ≤ k.rows → 0 ≤ q → q ≤ k.cols →
      ((e0.setModel fresh b (some k)).setImage a).maskCell (p, q)
        = some (prefixSum (validAt k) p.toNat q.toNat) := by
    intro p q h1 h2 h3 h4
    simp only [FNcc.maskCell, FNcc.setImage, FNcc.setModel]
    rw [if_pos (by omega), maskIntegral_cells k _ _ (by omega) (by omega)]
  unfold FNcc.maskCount
  rw [hcell t l ht (by omega) hl (by omega), hcell bo l (by omega) hb hl (by omega),
    hcell t r ht (by omega) (by omega) hrw, hcell bo r (by omega) hb (by omega) hrw]
  have hx : l.toNat ≤ r.toNat := by omega
  have hy : t.toNat ≤ bo.toNat := by omega
  simp only [← rectSum_of_prefixSum _ _ _ _ _ hx hy]
  congr 1
  ring


section MaskSpec

variable {K : Type} [LinearOrderedField K]

theorem ydownOf_setup (e0 : FNcc) (fresh : Tbl CSum) (a b : Img) (mask : Option Img)
    (w2 y : Int) :
    ydownOf ((e0.setModel fresh b mask).setImage a) w2 y = min (b.rows : Int) (y + w2) := by
  unfold ydownOf
  rw [(setup_fields e0 fresh a b mask).2.1]
  congr 1
  omega

/-- An iteration of the masked engine at an in-bounds pixel: zeros where the mask is 0,
otherwise the statistics of the window with `N = 1/n`, `n` the number of nonzero-mask pixels
of the window. -/
theorem maskStep_setup (F : FloatOps K) (e0 : FNcc) (fresh : Tbl CSum) (a b : Img) (k : Img)
    (hr : a.rows = b.rows) (hc : a.cols = b.cols) (hkr : k.rows = b.rows) (hkc : k.cols = b.cols)
    (hasSv : Bool) (w2 y x : Int) (hw2 : 0 ≤ w2) (hy : 0 ≤ y ∧ y < b.rows)
    (hx : 0 ≤ x ∧ x < b.cols) (l r : Int) (hl : 0 ≤ l) (hlr : l ≤ r) (hrw : r ≤ b.cols) :
    (maskStep F ((e0.setModel fresh b (some k)).setImage a) true hasSv w2 y x
        (yupOf w2 y, l) (yupOf w2 y, r) (min (b.rows : Int) (y + w2), r)
        (min (b.rows : Int) (y + w2), l) l r).y = y ∧
    (maskStep F ((e0.setModel fresh b (some k)).setImage a) true hasSv w2 y x
        (yupOf w2 y, l) (yupOf w2 y, r) (min (b.rows : Int) (y + w2), r)
        (min (b.rows : Int) (y + w2), l) l r).x = x ∧
    ((k.px y.toNat x.toNat = 0 ∧
      (maskStep F ((e0.setModel fresh b (some k)).setImage a) true hasSv w2 y x
        (yupOf w2 y, l) (yupOf w2 y, r) (min (b.rows : Int) (y + w2), r)
        (min (b.rows : Int) (y + w2), l) l r).out
        = some (some (Flt.fin 0), if hasSv then some (Flt.fin 0) else none)) ∨
     (k.px y.toNat x.toNat ≠ 0 ∧
      (maskStep F ((e0.setModel fresh b (some k)).setImage a) true hasSv w2 y x
        (yupOf w2 y, l) (yupOf w2 y, r) (min (b.rows : Int) (y + w2), r)
        (min (b.rows : Int) (y + w2), l) l r).reads
        = [(yupOf w2 y, l), (yupOf w2 y, r), (min (b.rows : Int) (y + w2), r),
            (min (b.rows : Int) (y + w2), l)] ∧
      (maskStep F ((e0.setModel fresh b (some k)).setImage a) true hasSv w2 y x
        (yupOf w2 y, l) (yupOf w2 y, r) (min (b.rows : Int) (y + w2), r)
        (min (b.rows : Int) (y + w2), l) l r).nAssert
        = some (rectSum (validAt k) l.toNat (yupOf w2 y).toNat r.toNat
            (min (b.rows : Int) (y + w2)).toNat) ∧
      (maskStep F ((e0.setModel fresh b (some k)).setImage a) true hasSv w2 y x
        (yupOf w2 y, l) (yupOf w2 y, r) (min (b.rows : Int) (y + w2), r)
        (min (b.rows : Int) (y + w2), l) l r).out
        = some (nccValues F true hasSv
            (winSums (some k) a b l.toNat (yupOf w2 y).toNat r.toNat
              (min (b.rows : Int) (y + w2)).toNat)
            (Flt.fin 1 / Flt.ofInt (rectSum (validAt k) l.toNat (yupOf w2 y).toNat r.toNat
              (min (b.rows : Int) (y + w2)).toNat))
            (Flt.sqrtf F (Flt.fin 1 / Flt.ofInt (rectSum (validAt k) l.toNat (yupOf w2 y).toNat
              r.toNat (min (b.rows : Int) (y + w2)).toNat)))))) := by
  have hat : ((e0.setModel fresh b (some k)).setImage a).maskAt y x
      = some (k.px y.toNat x.toNat) := by
    simp only [FNcc.maskAt, FNcc.setImage, FNcc.setModel]
    rw [if_pos (by omega)]
  have hT : 0 ≤ yupOf w2 y ∧ yupOf w2 y ≤ min (b.rows : Int) (y + w2) := by
    unfold yupOf; omega
  have hcnt := maskCount_setup e0 fresh a b k (yupOf w2 y) (min (b.rows : Int) (y + w2)) l r
    hT.1 hT.2 (by omega) hl hlr (by omega)
  have hsum := sum4_setup e0 fresh a b (some k) hr hc (yupOf w2 y) (min (b.rows : Int) (y + w2))
    l r hT.1 hT.2 (by omega) hl hlr hrw
  refine ⟨(maskStep_y F _ _ _ _ _ _ _ _ _ _ _ _).1, (maskStep_y F _ _ _ _ _ _ _ _ _ _ _ _).2, ?_⟩
  by_cases hm : k.px y.toNat x.toNat = 0
  · left
    refine ⟨hm, ?_⟩
    rw [maskStep_masked F _ _ _ _ _ _ _ _ _ _ _ _ (by rw [hat, hm])]
    rfl
  · right
    unfold maskStep
    rw [hat]
    simp only [if_neg hm, ydownOf_setup, hcnt, hsum]
    exact ⟨hm, trivial, trivial, trivial⟩

/-- What an iteration of `computeNcc_mask` computes when the image is at least `2·w2+1`
pixels wide. -/
theorem mask_step_spec (F : FloatOps K) (e0 : FNcc) (fresh : Tbl CSum) (a b : Img) (k : Img)
    (hr : a.rows = b.rows) (hc : a.cols = b.cols) (hkr : k.rows = b.rows) (hkc : k.cols = b.cols)
    (winSize : Int) (hws : 1 ≤ winSize) (hW : 2 * Int.tdiv winSize 2 + 1 ≤ (b.cols : Int))
    (d : OutMap) (hd : d.cols = b.cols) (sumvar : Option OutMap) (st : Step (Flt K))
    (hst : st ∈ ((e0.setModel fresh b (some k)).setImage a).computeNcc_mask F winSize (some d)
      sumvar) :
    ∃ (x y : Int), (0 ≤ y ∧ y < b.rows ∧ 0 ≤ x ∧ x < b.cols) ∧ st.y = y ∧ st.x = x ∧
      (0 ≤ yupOf (Int.tdiv winSize 2) y ∧
        yupOf (Int.tdiv winSize 2) y ≤ min (b.rows : Int) (y + Int.tdiv winSize 2) ∧
        0 ≤ winLeft (Int.tdiv winSize 2) x ∧
        winLeft (Int.tdiv winSize 2) x ≤ winRight b.cols (Int.tdiv winSize 2) x) ∧
      ((k.px y.toNat x.toNat = 0 ∧
          st.out = some (some (Flt.fin 0), if sumvar.isSome then some (Flt.fin 0) else none)) ∨
        (k.px y.toNat x.toNat ≠ 0 ∧
          st.reads
            = [(yupOf (Int.tdiv winSize 2) y, winLeft (Int.tdiv winSize 2) x),
               (yupOf (Int.tdiv winSize 2) y, winRight b.cols (Int.tdiv winSize 2) x),
               (min (b.rows : Int) (y + Int.tdiv winSize 2), winRight b.cols (Int.tdiv winSize 2) x),
               (min (b.rows : Int) (y + Int.tdiv winSize 2), winLeft (Int.tdiv winSize 2) x)] ∧
          st.nAssert
            = some (rectSum (validAt k) (winLeft (Int.tdiv winSize 2) x).toNat
                (yupOf (Int.tdiv winSize 2) y).toNat (winRight b.cols (Int.tdiv winSize 2) x).toNat
                (min (b.rows : Int) (y + Int.tdiv winSize 2)).toNat) ∧
          st.out = some (nccValues F true sumvar.isSome
            (winSums (some k) a b (winLeft (Int.tdiv winSize 2) x).toNat
              (yupOf (Int.tdiv winSize 2) y).toNat (winRight b.cols (Int.tdiv winSize 2) x).toNat
              (min (b.rows : Int) (y + Int.tdiv winSize 2)).toNat)
            (Flt.fin 1 / Flt.ofInt (rectSum (validAt k) (winLeft (Int.tdiv winSize 2) x).toNat
                (yupOf (Int.tdiv winSize 2) y).toNat (winRight b.cols (Int.tdiv winSize 2) x).toNat
                (min (b.rows : Int) (y + Int.tdiv winSize 2)).toNat))
            (Flt.sqrtf F (Flt.fin 1 / Flt.ofInt (rectSum (validAt k)
                (winLeft (Int.tdiv winSize 2) x).toNat
                (yupOf (Int.tdiv winSize 2) y).toNat (winRight b.cols (Int.tdiv winSize 2) x).toNat
                (min (b.rows : Int) (y + Int.tdiv winSize 2)).toNat)))))) := by
  have hw2 := tdiv_two_nonneg winSize hws
  rw [mem_computeNcc_mask] at hst
  generalize Int.tdiv winSize 2 = w2 at *
  obtain ⟨hwd, hht, -⟩ := setup_fields e0 fresh a b (some k)
  have hcols : outCols (some d) = (b.cols : Int) := by
    simp only [outCols, hd]
  rw [hcols, hht] at hst
  have hT : ∀ y : Int, 0 ≤ y → y < b.rows →
      0 ≤ yupOf w2 y ∧ yupOf w2 y ≤ min (b.rows : Int) (y + w2) := by
    intro y h1 h2
    unfold yupOf; omega
  obtain ⟨y, hy, h | h | h⟩ := hst
  · obtain ⟨x, hx, rfl⟩ := h
    have hL : winLeft w2 x = 0 := by unfold winLeft; omega
    have hR : winRight b.cols w2 x = x + w2 := by unfold winRight; omega
    have hR2 : w2 + x = x + w2 := by ring
    have h := maskStep_setup F e0 fresh a b k hr hc hkr hkc sumvar.isSome w2 y x hw2
      ⟨by omega, by omega⟩ ⟨by omega, by omega⟩ 0 (x + w2) (le_refl 0) (by omega) (by omega)
    refine ⟨x, y, ⟨by omega, by omega, by omega, by omega⟩, ?_, ?_,
      ⟨(hT y (by omega) (by omega)).1, (hT y (by omega) (by omega)).2, by omega, by omega⟩, ?_⟩
    · exact (maskStep_y F _ _ _ _ _ _ _ _ _ _ _ _).1
    · exact (maskStep_y F _ _ _ _ _ _ _ _ _ _ _ _).2
    · simp only [maskLeft, Option.isSome_some, ydownOf_setup, hL, hR, hR2]
      exact h.2.2
  · obtain ⟨x, hx, rfl⟩ := h
    have hL : winLeft w2 x = x - w2 - 1 := by unfold winLeft; omega
    have hR : winRight b.cols w2 x = x + w2 := by unfold winRight; omega
    have hR2 : w2 + x = x + w2 := by ring
    have hL2 : -w2 - 1 + x = x - w2 - 1 := by ring
    have h := maskStep_setup F e0 fresh a b k hr hc hkr hkc sumvar.isSome w2 y x hw2
      ⟨by omega, by omega⟩ ⟨by omega, by omega⟩ (x - w2 - 1) (x + w2) (by omega) (by omega)
      (by omega)
    refine ⟨x, y, ⟨by omega, by omega, by omega, by omega⟩, ?_, ?_,
      ⟨(hT y (by omega) (by omega)).1, (hT y (by omega) (by omega)).2, by omega, by omega⟩, ?_⟩
    · exact (maskStep_y F _ _ _ _ _ _ _ _ _ _ _ _).1
    · exact (maskStep_y F _ _ _ _ _ _ _ _ _ _ _ _).2
    · simp only [maskMid, Option.isSome_some, ydownOf_setup, hL, hR, hR2, hL2]
      exact h.2.2
  · obtain ⟨x, hx, rfl⟩ := h
    have hL : winLeft w2 x = x - w2 - 1 := by unfold winLeft; omega
    have hR : winRight b.cols w2 x = (b.cols : Int) := by unfold winRight; omega
    have hL2 : -w2 - 1 + x = x - w2 - 1 := by ring
    have h := maskStep_setup F e0 fresh a b k hr hc hkr hkc sumvar.isSome w2 y x hw2
      ⟨by omega, by omega⟩ ⟨by omega, by omega⟩ (x - w2 - 1) (b.cols : Int) (by omega) (by omega)
      (le_refl _)
    refine ⟨x, y, ⟨by omega, by omega, by omega, by omega⟩, ?_, ?_,
      ⟨(hT y (by omega) (by omega)).1, (hT y (by omega) (by omega)).2, by omega, by omega⟩, ?_⟩
    · exact (maskStep_y F _ _ _ _ _ _ _ _ _ _ _ _).1
    · exact (maskStep_y F _ _ _ _ _ _ _ _ _ _ _ _).2
    · simp only [maskRight, Option.isSome_some, ydownOf_setup, hL, hR, hL2]
      exact h.2.2

end MaskSpec

/-- The correlation stored by the texture path, in exact real arithmetic. -/
theorem nccReal_texture (F : FloatOps ℝ) (hF : F.IsExact) (hasDst : Bool) (s : CSum) (N q : ℝ) :
    nccReal F hasDst true s N q
      = (if hasDst then
          some (if Real.sqrt (FMAX 0 (varaOf s N)) * Real.sqrt (FMAX 0 (varbOf s N)) > 1 then
            numOf s N / (Real.sqrt (FMAX 0 (varaOf s N)) * Real.sqrt (FMAX 0 (varbOf s N)))
          else 0)
        else none,
        some (texeval (Real.sqrt (FMAX 0 (varaOf s N))) (Real.sqrt (FMAX 0 (varbOf s N))) q)) := by
  simp only [nccReal, hF.1, numOf, varaOf, varbOf, if_true]

/-- The correlation stored by the path without texture, in exact real arithmetic. -/
theorem nccReal_plain (F : FloatOps ℝ) (hF : F.IsExact) (s : CSum) (N q : ℝ) :
    nccReal F true false s N q
      = (some (if varaOf s N * varbOf s N < 1 then 0
          else numOf s N * (1 / Real.sqrt (varaOf s N * varbOf s N))), none) := by
  simp only [nccReal, hF.2, numOf, varaOf, varbOf, if_true, Bool.false_eq_true, if_false]

/-- The correlation lies in `[-1, 1]` once `num² ≤ vara·varb` with non-negative variances. -/
theorem nccReal_bounded (F : FloatOps ℝ) (hF : F.IsExact) (hasSv : Bool) (s : CSum) (N q : ℝ)
    (ha : 0 ≤ varaOf s N) (hb : 0 ≤ varbOf s N)
    (hcs : numOf s N ^ 2 ≤ varaOf s N * varbOf s N) :
    ∃ d t, nccReal F true hasSv s N q = (some d, t) ∧ -1 ≤ d ∧ d ≤ 1 := by
  have habs : |numOf s N| ≤ Real.sqrt (varaOf s N * varbOf s N) := Real.abs_le_sqrt hcs
  cases hasSv with
  | true =>
    rw [nccReal_texture F hF, FMAX_zero_of_nonneg _ ha, FMAX_zero_of_nonneg _ hb,
      ← Real.sqrt_mul ha]
    refine ⟨_, _, rfl, ?_⟩
    by_cases h : Real.sqrt (varaOf s N * varbOf s N) > 1
    · rw [if_pos h]
      have hpos : 0 < Real.sqrt (varaOf s N * varbOf s N) := by linarith
      rw [← abs_le, abs_div, abs_of_pos hpos]
      exact (div_le_one hpos).mpr habs
    · rw [if_neg h]
      constructor <;> norm_num
  | false =>
    rw [nccReal_plain F hF]
    refine ⟨_, _, rfl, ?_⟩
    by_cases h : varaOf s N * varbOf s N < 1
    · rw [if_pos h]
      constructor <;> norm_num
    · rw [if_neg h]
      have h1 : 1 ≤ Real.sqrt (varaOf s N * varbOf s N) := by
        rw [← Real.sqrt_one]
        exact Real.sqrt_le_sqrt (not_lt.mp h)
      have hpos : 0 < Real.sqrt (varaOf s N * varbOf s N) := by linarith
      rw [← abs_le, ← div_eq_mul_one_div, abs_div, abs_of_pos hpos]
      exact (div_le_one hpos).mpr habs

/-- The correlation stored for a finite `N ≥ 0` is a real number of `[-1, 1]` once
`num² ≤ vara·varb` with non-negative variances. -/
theorem nccValues_bounded (F : FloatOps ℝ) (hF : F.IsExact) (hasSv : Bool) (s : CSum) (N : ℝ)
    (hN : 0 ≤ N) (ha : 0 ≤ varaOf s N) (hb : 0 ≤ varbOf s N)
    (hcs : numOf s N ^ 2 ≤ varaOf s N * varbOf s N) :
    ∃ d t, nccValues F true hasSv s (Flt.fin N) (Flt.sqrtf F (Flt.fin N)) = (some (Flt.fin d), t)
      ∧ -1 ≤ d ∧ d ≤ 1 := by
  obtain ⟨d, t, hd, hbd⟩ := nccReal_bounded F hF hasSv s N (F.sqrtf N) ha hb hcs
  refine ⟨d, t.map Flt.fin, ?_, hbd⟩
  rw [Flt.sqrtf_fin F N hN, nccValues_fin, hd]
  rfl

/-- Cauchy-Schwarz for the centred sums over a finite set: with `N` the reciprocal of the
number of elements (any `N` for the empty set), `num² ≤ vara·varb` and both variances are
non-negative. -/
theorem centred_sums {ι : Type} (S : Finset ι) (u v : ι → ℝ) (N : ℝ)
    (hN : (S.card : ℝ) ≠ 0 → N = 1 / (S.card : ℝ)) :
    0 ≤ (∑ i in S, u i ^ 2) - N * (∑ i in S, u i) * (∑ i in S, u i) ∧
    0 ≤ (∑ i in S, v i ^ 2) - N * (∑ i in S, v i) * (∑ i in S, v i) ∧
    ((∑ i in S, u i * v i) - N * (∑ i in S, u i) * (∑ i in S, v i)) ^ 2
      ≤ ((∑ i in S, u i ^ 2) - N * (∑ i in S, u i) * (∑ i in S, u i))
        * ((∑ i in S, v i ^ 2) - N * (∑ i in S, v i) * (∑ i in S, v i)) := by
  by_cases hc : (S.card : ℝ) = 0
  · have : S = ∅ := by
      rw [← Finset.card_eq_zero]
      exact_mod_cast hc
    subst this
    simp
  · have hNe := hN hc
    have key : ∀ f g : ι → ℝ,
        ∑ i in S, (f i - N * ∑ j in S, f j) * (g i - N * ∑ j in S, g j)
          = (∑ i in S, f i * g i) - N * (∑ i in S, f i) * (∑ i in S, g i) := by
      intro f g
      have e1 : ∀ i, (f i - N * ∑ j in S, f j) * (g i - N * ∑ j in S, g j)
          = f i * g i - (N * ∑ j in S, g j) * f i - (N * ∑ j in S, f j) * g i
            + (N * ∑ j in S, f j) * (N * ∑ j in S, g j) := fun i => by ring
      simp only [e1, Finset.sum_add_distrib, Finset.sum_sub_distrib, ← Finset.mul_sum,
        Finset.sum_const, nsmul_eq_mul]
      rw [hNe]
      field_simp
      ring
    have ku := key u u
    have kv := key v v
    have kuv := key u v
    have cs := Finset.sum_mul_sq_le_sq_mul_sq S (fun i => u i - N * ∑ j in S, u j)
      (fun i => v i - N * ∑ j in S, v j)
    simp only [] at cs
    have su : ∀ f : ι → ℝ, ∑ i in S, (f i - N * ∑ j in S, f j) ^ 2
        = ∑ i in S, (f i - N * ∑ j in S, f j) * (f i - N * ∑ j in S, f j) :=
      fun f => Finset.sum_congr rfl (fun i _ => sq _)
    have sq' : ∀ f : ι → ℝ, ∑ i in S, f i ^ 2 = ∑ i in S, f i * f i :=
      fun f => Finset.sum_congr rfl (fun i _ => sq _)
    rw [su u, su v, ku, kv, kuv] at cs
    rw [sq' u, sq' v]
    refine ⟨?_, ?_, cs⟩
    · rw [← ku]
      exact Finset.sum_nonneg (fun i _ => mul_self_nonneg _)
    · rw [← kv]
      exact Finset.sum_nonneg (fun i _ => mul_self_nonneg _)


theorem rectSum_eq_sum_product {α : Type} [AddCommMonoid α] (f : Nat → Nat → α)
    (x1 y1 x2 y2 : Nat) :
    rectSum f x1 y1 x2 y2 = ∑ p in Finset.Ico y1 y2 ×ˢ Finset.Ico x1 x2, f p.1 p.2 := by
  unfold rectSum
  rw [Finset.sum_product]

/-- The window statistics of a rectangle satisfy Cauchy-Schwarz when `N` is the reciprocal of
the number of its pixels (any `N` when the rectangle is empty). -/
theorem winSums_stats (mask : Option Img) (a b : Img) (x1 y1 x2 y2 : Nat) (N : ℝ)
    (hN : (((x2 - x1) * (y2 - y1) : Nat) : ℝ) ≠ 0 → N = 1 / (((x2 - x1) * (y2 - y1) : Nat) : ℝ)) :
    0 ≤ varaOf (winSums mask a b x1 y1 x2 y2) N ∧ 0 ≤ varbOf (winSums mask a b x1 y1 x2 y2) N ∧
    numOf (winSums mask a b x1 y1 x2 y2) N ^ 2
      ≤ varaOf (winSums mask a b x1 y1 x2 y2) N * varbOf (winSums mask a b x1 y1 x2 y2) N := by
  have hcard : (Finset.Ico y1 y2 ×ˢ Finset.Ico x1 x2).card = (x2 - x1) * (y2 - y1) := by
    rw [Finset.card_product, Nat.card_Ico, Nat.card_Ico, Nat.mul_comm]
  have h := centred_sums (Finset.Ico y1 y2 ×ˢ Finset.Ico x1 x2)
    (fun p => ((maskedPx mask a.px p.1 p.2 : Int) : ℝ))
    (fun p => ((maskedPx mask b.px p.1 p.2 : Int) : ℝ)) N (by rw [hcard]; exact hN)
  simp only [varaOf, varbOf, numOf, winSums, rectSum_eq_sum_product]
  push_cast
  exact h

/-- The count of nonzero-mask pixels of a rectangle, as the size of a finite set. -/
theorem rectSum_validAt (k : Img) (x1 y1 x2 y2 : Nat) :
    rectSum (validAt k) x1 y1 x2 y2
      = (((Finset.Ico y1 y2 ×ˢ Finset.Ico x1 x2).filter (fun p => k.px p.1 p.2 ≠ 0)).card : Int) := by
  rw [rectSum_eq_sum_product, Finset.card_filter]
  push_cast
  rfl

/-- Sums of masked values over a rectangle only see the nonzero-mask pixels. -/
theorem sum_masked_filter (k : Img) (S : Finset (Nat × Nat)) (f : Nat × Nat → ℝ)
    (hf : ∀ p, k.px p.1 p.2 = 0 → f p = 0) :
    ∑ p in S, f p = ∑ p in S.filter (fun p => k.px p.1 p.2 ≠ 0), f p := by
  rw [Finset.sum_filter]
  refine Finset.sum_congr rfl (fun p _ => ?_)
  by_cases h : k.px p.1 p.2 = 0
  · simp [h, hf p h]
  · simp [h]

/-- The window statistics of the masked engine satisfy Cauchy-Schwarz when `N` is the
reciprocal of the number of nonzero-mask pixels of the window (any `N` when there is none). -/
theorem winSums_stats_masked (k : Img) (a b : Img) (x1 y1 x2 y2 : Nat) (N : ℝ)
    (hN : ((rectSum (validAt k) x1 y1 x2 y2 : Int) : ℝ) ≠ 0 →
      N = 1 / ((rectSum (validAt k) x1 y1 x2 y2 : Int) : ℝ)) :
    0 ≤ varaOf (winSums (some k) a b x1 y1 x2 y2) N ∧
    0 ≤ varbOf (winSums (some k) a b x1 y1 x2 y2) N ∧
    numOf (winSums (some k) a b x1 y1 x2 y2) N ^ 2
      ≤ varaOf (winSums (some k) a b x1 y1 x2 y2) N
        * varbOf (winSums (some k) a b x1 y1 x2 y2) N := by
  have hcard := rectSum_validAt k x1 y1 x2 y2
  generalize rectSum (validAt k) x1 y1 x2 y2 = n at hN hcard
  subst hcard
  simp only [Int.cast_natCast] at hN
  have h := centred_sums _
    (fun p => ((maskedPx (some k) a.px p.1 p.2 : Nat) : ℝ))
    (fun p => ((maskedPx (some k) b.px p.1 p.2 : Nat) : ℝ)) N hN
  have hz : ∀ (px : Nat → Nat → Nat) (p : Nat × Nat), k.px p.1 p.2 = 0 →
      ((maskedPx (some k) px p.1 p.2 : Nat) : ℝ) = 0 := by
    intro px p hp
    simp [maskedPx, hp]
  have ea := sum_masked_filter k (Finset.Ico y1 y2 ×ˢ Finset.Ico x1 x2)
    (fun p => ((maskedPx (some k) a.px p.1 p.2 : ℕ) : ℝ)) (fun p hp => hz a.px p hp)
  have eb := sum_masked_filter k (Finset.Ico y1 y2 ×ˢ Finset.Ico x1 x2)
    (fun p => ((maskedPx (some k) b.px p.1 p.2 : ℕ) : ℝ)) (fun p hp => hz b.px p hp)
  have ea2 := sum_masked_filter k (Finset.Ico y1 y2 ×ˢ Finset.Ico x1 x2)
    (fun p => ((maskedPx (some k) a.px p.1 p.2 : ℕ) : ℝ) ^ 2)
    (fun p hp => by simp only [hz a.px p hp]; norm_num)
  have eb2 := sum_masked_filter k (Finset.Ico y1 y2 ×ˢ Finset.Ico x1 x2)
    (fun p => ((maskedPx (some k) b.px p.1 p.2 : ℕ) : ℝ) ^ 2)
    (fun p hp => by simp only [hz b.px p hp]; norm_num)
  have eab := sum_masked_filter k (Finset.Ico y1 y2 ×ˢ Finset.Ico x1 x2)
    (fun p => ((maskedPx (some k) a.px p.1 p.2 : ℕ) : ℝ)
      * ((maskedPx (some k) b.px p.1 p.2 : ℕ) : ℝ))
    (fun p hp => by simp only [hz a.px p hp]; norm_num)
  simp only [] at ea eb ea2 eb2 eab
  rw [← ea, ← eb, ← ea2, ← eb2, ← eab] at h
  simp only [varaOf, varbOf, numOf, winSums, rectSum_eq_sum_product]
  push_cast
  exact h

/-- A window that holds a nonzero-mask pixel has a positive count. -/
theorem rectSum_validAt_pos (k : Img) (x1 y1 x2 y2 y x : Nat) (hy : y1 ≤ y ∧ y < y2)
    (hx : x1 ≤ x ∧ x < x2) (hm : k.px y x ≠ 0) : 0 < rectSum (validAt k) x1 y1 x2 y2 := by
  rw [rectSum_validAt]
  have hmem : (y, x) ∈ (Finset.Ico y1 y2 ×ˢ Finset.Ico x1 x2).filter (fun p => k.px p.1 p.2 ≠ 0) := by
    rw [Finset.mem_filter, Finset.mem_product, Finset.mem_Ico, Finset.mem_Ico]
    exact ⟨⟨hy, hx⟩, hm⟩
  exact_mod_cast Finset.card_pos.2 ⟨_, hmem⟩

section Coverage

variable {K : Type} [LinearOrderedField K]

/-- Every pixel of the image is visited by the pixel loops of `computeNcc_nomask` when the
correlation map is given. -/
theorem nomask_covers (F : FloatOps K) (e : FNcc) (winSize : Int) (d : OutMap)
    (sumvar : Option OutMap) (hd : d.cols + 1 = e.width) (y x : Int)
    (hy : 0 ≤ y ∧ y < (e.height : Int) - 1) (hx : 0 ≤ x ∧ x < (d.cols : Int)) :
    ∃ st ∈ e.computeNcc_nomask F winSize (some d) sumvar, st.y = y ∧ st.x = x := by
  have hcols : outCols (some d) = (d.cols : Int) := rfl
  by_cases h1 : x < Int.tdiv winSize 2 + 1
  · exact ⟨_, (mem_computeNcc_nomask F e winSize (some d) sumvar _).2
      ⟨y, hy, Or.inl ⟨x, ⟨by omega, h1⟩, rfl⟩⟩, rfl, rfl⟩
  · by_cases h2 : x < outCols (some d) - Int.tdiv winSize 2
    · exact ⟨_, (mem_computeNcc_nomask F e winSize (some d) sumvar _).2
        ⟨y, hy, Or.inr (Or.inl ⟨x, ⟨by omega, h2⟩, rfl⟩)⟩, rfl, rfl⟩
    · exact ⟨_, (mem_computeNcc_nomask F e winSize (some d) sumvar _).2
        ⟨y, hy, Or.inr (Or.inr ⟨x, ⟨by omega, by omega⟩, rfl⟩)⟩, rfl, rfl⟩

/-- Every pixel of the image is visited by the pixel loops of `computeNcc_mask` when the
correlation map is given. -/
theorem mask_covers (F : FloatOps K) (e : FNcc) (winSize : Int) (d : OutMap)
    (sumvar : Option OutMap) (hd : d.cols + 1 = e.width) (y x : Int)
    (hy : 0 ≤ y ∧ y < (e.height : Int) - 1) (hx : 0 ≤ x ∧ x < (d.cols : Int)) :
    ∃ st ∈ e.computeNcc_mask F winSize (some d) sumvar, st.y = y ∧ st.x = x := by
  have hcols : outCols (some d) = (d.cols : Int) := rfl
  by_cases h1 : x < Int.tdiv winSize 2 + 1
  · exact ⟨_, (mem_computeNcc_mask F e winSize (some d) sumvar _).2
      ⟨y, hy, Or.inl ⟨x, ⟨by omega, h1⟩, rfl⟩⟩, maskStep_y F e _ _ _ _ _ _ _ _ _ _ _⟩
  · by_cases h2 : x < outCols (some d) - Int.tdiv winSize 2
    · exact ⟨_, (mem_computeNcc_mask F e winSize (some d) sumvar _).2
        ⟨y, hy, Or.inr (Or.inl ⟨x, ⟨by omega, h2⟩, rfl⟩)⟩, maskStep_y F e _ _ _ _ _ _ _ _ _ _ _⟩
    · exact ⟨_, (mem_computeNcc_mask F e winSize (some d) sumvar _).2
        ⟨y, hy, Or.inr (Or.inr ⟨x, ⟨by omega, by omega⟩, rfl⟩)⟩,
        maskStep_y F e _ _ _ _ _ _ _ _ _ _ _⟩

/-- Every pixel of the image is visited by `computeNcc` when the correlation map is given. -/
theorem computeNcc_covers (F : FloatOps K) (e : FNcc) (winSize : Int) (d : OutMap)
    (sumvar : Option OutMap) (hd : d.cols + 1 = e.width) (y x : Int)
    (hy : 0 ≤ y ∧ y < (e.height : Int) - 1) (hx : 0 ≤ x ∧ x < (d.cols : Int)) :
    ∃ st ∈ e.computeNcc F winSize (some d) sumvar, st.y = y ∧ st.x = x := by
  unfold FNcc.computeNcc
  by_cases h : e.mask.isSome = true
  · rw [if_pos h]
    exact mask_covers F e winSize d sumvar hd y x hy hx
  · rw [if_neg h]
    exact nomask_covers F e winSize d sumvar hd y x hy hx

end Coverage

/-- Area of a clipped window as an integer and as a natural number. -/
theorem area_cast (l t r bo : Int) (hl : 0 ≤ l) (hlr : l ≤ r) (ht : 0 ≤ t) (htb : t ≤ bo) :
    ((((r.toNat - l.toNat) * (bo.toNat - t.toNat) : Nat)) : ℝ) = (((r - l) * (bo - t) : Int) : ℝ) := by
  have h1 : ((r.toNat - l.toNat : Nat) : Int) = r - l := by omega
  have h2 : ((bo.toNat - t.toNat : Nat) : Int) = bo - t := by omega
  have : ((((r.toNat - l.toNat) * (bo.toNat - t.toNat) : Nat)) : Int) = (r - l) * (bo - t) := by
    rw [Nat.cast_mul, h1, h2]
  exact_mod_cast this

/-- The window of an in-bounds pixel holds at least one pixel when `w2 ≥ 1`. -/
theorem window_area_pos (rows cols : Nat) (w2 x y : Int) (hw : 1 ≤ w2)
    (hy : 0 ≤ y ∧ y < rows) (hx : 0 ≤ x ∧ x < cols) :
    0 < (winRight cols w2 x - winLeft w2 x) * (min (rows : Int) (y + w2) - yupOf w2 y) := by
  apply mul_pos
  · unfold winRight winLeft
    omega
  · unfold yupOf
    omega

/-- The correlation values of the plain and the masked engine for window sizes from 2, in
exact real arithmetic: with `w2 = windowSize/2 ≥ 1` and the image at least `2·w2+1` pixels
wide, every pixel is visited and every iteration of the pixel loops stores a real number of
`[-1, 1]` to `dline[x]`. -/
theorem correlation_bounded (F : FloatOps ℝ) (hF : F.IsExact) (e0 : FNcc)
    (fresh : Tbl CSum) (a b : Img) (mask : Option Img) (hr : a.rows = b.rows)
    (hc : a.cols = b.cols) (hmask : ∀ k, mask = some k → k.rows = b.rows ∧ k.cols = b.cols)
    (winSize : Int) (hw : 1 ≤ Int.tdiv winSize 2)
    (hW : 2 * Int.tdiv winSize 2 + 1 ≤ (b.cols : Int))
    (d : OutMap) (hd : d.cols = b.cols) (sumvar : Option OutMap) :
    (∀ y x : Nat, y < b.rows → x < b.cols →
      ∃ st ∈ ((e0.setModel fresh b mask).setImage a).computeNcc F winSize (some d) sumvar,
        st.y = (y : Int) ∧ st.x = (x : Int)) ∧
    (∀ st ∈ ((e0.setModel fresh b mask).setImage a).computeNcc F winSize (some d) sumvar,
      ∃ v t, st.out = some (some (Flt.fin v), t) ∧ -1 ≤ v ∧ v ≤ 1) := by
  have hws : 1 ≤ winSize := by
    by_contra hneg
    have h1 : Int.tdiv winSize 2 = -Int.tdiv (-winSize) 2 := by
      rw [Int.neg_tdiv, neg_neg]
    have h2 := Int.tdiv_nonneg (a := -winSize) (b := 2) (by omega) (by omega)
    omega
  obtain ⟨hwd, hht, hmk⟩ := setup_fields e0 fresh a b mask
  constructor
  · intro y x hy hx
    exact computeNcc_covers F _ winSize d sumvar (by rw [hwd, hd]) y x
      (by rw [hht]; omega) (by omega)
  · intro st hst
    unfold FNcc.computeNcc at hst
    rw [hmk] at hst
    cases mask with
    | none =>
      simp only [Option.isSome_none, Bool.false_eq_true, if_false] at hst
      obtain ⟨x, y, N, ⟨hy1, hy2, hx1, hx2⟩, -, -, -, ⟨h1, h2, h3, h4⟩, hN, hout⟩ :=
        nomask_step_spec F e0 fresh a b none hr hc winSize hws hW d hd sumvar st hst
      have hpos := window_area_pos b.rows b.cols (Int.tdiv winSize 2) x y hw ⟨hy1, hy2⟩ ⟨hx1, hx2⟩
      rw [hout, hN (ne_of_gt hpos)]
      have hs := winSums_stats none a b (winLeft (Int.tdiv winSize 2) x).toNat
        (yupOf (Int.tdiv winSize 2) y).toNat (winRight b.cols (Int.tdiv winSize 2) x).toNat
        (min (b.rows : Int) (y + Int.tdiv winSize 2)).toNat _
        (by rw [area_cast _ _ _ _ h3 h4 h1 h2]
            intro _
            rfl)
      obtain ⟨v, t, hv, hb⟩ := nccValues_bounded F hF sumvar.isSome _ _
        (one_div_nonneg.mpr (by exact_mod_cast hpos.le)) hs.1 hs.2.1 hs.2.2
      exact ⟨v, t, by rw [hv], hb⟩
    | some k =>
      simp only [Option.isSome_some, if_true] at hst
      obtain ⟨hkr, hkc⟩ := hmask k rfl
      obtain ⟨x, y, ⟨hy1, hy2, hx1, hx2⟩, -, -, -, h | h⟩ :=
        mask_step_spec F e0 fresh a b k hr hc hkr hkc winSize hws hW d hd sumvar st hst
      · exact ⟨0, _, h.2, by norm_num, by norm_num⟩
      · obtain ⟨hm, -, -, hout⟩ := h
        have hn : 0 < rectSum (validAt k) (winLeft (Int.tdiv winSize 2) x).toNat
            (yupOf (Int.tdiv winSize 2) y).toNat (winRight b.cols (Int.tdiv winSize 2) x).toNat
            (min (b.rows : Int) (y + Int.tdiv winSize 2)).toNat := by
          refine rectSum_validAt_pos k _ _ _ _ y.toNat x.toNat ?_ ?_ hm
          · unfold yupOf
            omega
          · unfold winLeft winRight
            omega
        rw [hout]
        generalize (winLeft (Int.tdiv winSize 2) x).toNat = x1 at hn ⊢
        generalize (yupOf (Int.tdiv winSize 2) y).toNat = y1 at hn ⊢
        generalize (winRight (b.cols : Int) (Int.tdiv winSize 2) x).toNat = x2 at hn ⊢
        generalize (min (b.rows : Int) (y + Int.tdiv winSize 2)).toNat = y2 at hn ⊢
        rw [Flt.one_div_ofInt _ (ne_of_gt hn)]
        have hs := winSums_stats_masked k a b x1 y1 x2 y2
          (1 / ((rectSum (validAt k) x1 y1 x2 y2 : Int) : ℝ)) (fun _ => rfl)
        obtain ⟨v, t, hv, hb⟩ := nccValues_bounded F hF sumvar.isSome _ _
          (one_div_nonneg.mpr (by exact_mod_cast hn.le)) hs.1 hs.2.1 hs.2.2
        exact ⟨v, t, by rw [hv], hb⟩

/-- An interior iteration of row 0 for window size 1, without the texture output: the
window rows are `[MAX(0, -1), MIN(H, 0)) = [0, 0)`, so `N = 1.0f/(0·1)` is `+inf`, the sums
are 0, `num = 0 - inf·0·0` is NaN, `f<1` is false for the NaN `f`, and NaN is stored. -/
theorem nomaskMid_window_one (F : FloatOps ℝ) (e0 : FNcc) (fresh : Tbl CSum) (a b : Img)
    (hr : a.rows = b.rows) (hc : a.cols = b.cols) (x : Int) (hx : 1 ≤ x ∧ x ≤ b.cols) :
    (nomaskMid F ((e0.setModel fresh b none).setImage a) true false 0 0 x).out
      = some (some Flt.nan, none) := by
  have hyd := ydownOf_setup e0 fresh a b none 0 0
  have hmin : min (b.rows : Int) (0 + 0) = 0 := by omega
  have hyu : yupOf 0 0 = 0 := by decide
  have hsum := sum4_setup e0 fresh a b none hr hc 0 0 (-0 - 1 + x) (0 + x) (le_refl 0) (le_refl 0)
    (by omega) (by omega) (by omega) (by omega)
  have hz : winSums none a b (-0 - 1 + x).toNat (0 : Int).toNat (0 + x).toNat (0 : Int).toNat
      = CSum.mk 0 0 0 0 0 := by
    simp [winSums, rectSum]
  simp only [nomaskMid, hyd, hmin, hyu, hsum, hz]
  have hN : (Flt.fin 1 / (Flt.ofInt (0 - 0) * Flt.ofInt (0 * 2 + 1)) : Flt ℝ) = Flt.pinf := by
    have : (Flt.ofInt (0 - 0) * Flt.ofInt (0 * 2 + 1) : Flt ℝ) = Flt.fin 0 := by
      rw [Flt.ofInt_eq, Flt.ofInt_eq, Flt.fin_mul]
      norm_num
    rw [this, Flt.one_div_zero]
  rw [hN]
  simp only [nccValues, Flt.ofInt_eq, Int.cast_zero, Flt.pinf_mul_zero, Option.map_some',
    Bool.false_eq_true, if_false, if_true]
  rfl

/-- C5, evaluated on the unmasked 2×3 test images with window size 1 and the correlation map
alone, at pixel `(x, y) = (1, 0)`: the pixel is visited by the interior loop, whose window
for window size 1 is empty in row 0; every iteration that visits it stores NaN, which is no
number of `[-1, 1]`. -/
theorem correlation_nan_for_window_one (F : FloatOps ℝ) (fresh : Tbl CSum) :
    exA.rows = exB.rows ∧ exA.cols = exB.cols ∧
    (1 : Int) ≤ 1 ∧ 2 * Int.tdiv 1 2 + 1 ≤ (exB.cols : Int) ∧
    (∃ st ∈ ((FNcc.init.setModel fresh exB none).setImage exA).computeNcc F 1
        (some (OutMap.mk 2 3)) none, st.y = 0 ∧ st.x = 1) ∧
    (∀ st ∈ ((FNcc.init.setModel fresh exB none).setImage exA).computeNcc F 1
        (some (OutMap.mk 2 3)) none, st.y = 0 → st.x = 1 →
      st.out = some (some Flt.nan, none) ∧ ¬ ∃ v : ℝ, st.out = some (some (Flt.fin v), none)) := by
  refine ⟨rfl, rfl, by decide, by decide, ?_, ?_⟩
  · exact computeNcc_covers F _ 1 (OutMap.mk 2 3) none rfl 0 1
      ⟨by decide, by rw [(setup_fields FNcc.init fresh exA exB none).2.1]; decide⟩
      ⟨by decide, by decide⟩
  · intro st hst hy hx
    have hout : st.out = some (some Flt.nan, none) := by
      unfold FNcc.computeNcc at hst
      rw [(setup_fields FNcc.init fresh exA exB none).2.2] at hst
      simp only [Option.isSome_none, Bool.false_eq_true, if_false] at hst
      rw [mem_computeNcc_nomask] at hst
      have hw : Int.tdiv 1 2 = 0 := by decide
      have hcols : outCols (some (OutMap.mk 2 3)) = 3 := rfl
      rw [hw, hcols] at hst
      obtain ⟨y', -, h | h | h⟩ := hst
      · obtain ⟨x', hx', rfl⟩ := h
        exfalso
        have : x' = 1 := hx
        omega
      · obtain ⟨x', hx', rfl⟩ := h
        obtain rfl : y' = 0 := hy
        obtain rfl : x' = 1 := hx
        exact nomaskMid_window_one F FNcc.init fresh exA exB rfl rfl 1 (by decide)
      · obtain ⟨x', hx', rfl⟩ := h
        exfalso
        have : x' = 1 := hx
        omega
    refine ⟨hout, ?_⟩
    rintro ⟨v, hv⟩
    rw [hout] at hv
    exact absurd hv (by simp)

/-- The value stored to `dline[x]` when `num = k·vara` and `varb = k²·vara` with
`vara·varb > 1`: the sign of `k`. -/
theorem nccReal_affine (F : FloatOps ℝ) (hF : F.IsExact) (hasSv : Bool) (s : CSum) (N q kk : ℝ)
    (ha : 0 ≤ varaOf s N) (hnum : numOf s N = kk * varaOf s N)
    (hvb : varbOf s N = kk ^ 2 * varaOf s N) (hgt : varaOf s N * varbOf s N > 1) :
    ∃ v t, nccReal F true hasSv s N q = (some v, t) ∧ (0 < kk → v = 1) ∧ (kk < 0 → v = -1) := by
  have hk0 : kk ≠ 0 := by
    rintro rfl
    rw [hvb] at hgt
    norm_num at hgt
  have hva : 0 < varaOf s N := by
    rcases ha.lt_or_eq with h | h
    · exact h
    · rw [← h] at hgt
      norm_num at hgt
  have hprod : varaOf s N * varbOf s N = (|kk| * varaOf s N) ^ 2 := by
    rw [hvb, mul_pow, sq_abs]
    ring
  have hpos : 0 < |kk| * varaOf s N := mul_pos (abs_pos.mpr hk0) hva
  have hsq : Real.sqrt (varaOf s N * varbOf s N) = |kk| * varaOf s N := by
    rw [hprod, Real.sqrt_sq hpos.le]
  have hval : numOf s N / (|kk| * varaOf s N) = kk / |kk| := by
    rw [hnum]
    field_simp
    ring
  have hsign : (0 < kk → kk / |kk| = 1) ∧ (kk < 0 → kk / |kk| = -1) := by
    constructor
    · intro h
      rw [abs_of_pos h, div_self hk0]
    · intro h
      rw [abs_of_neg h, div_neg, div_self hk0]
  have hvbnn : 0 ≤ varbOf s N := by
    rw [hvb]
    positivity
  cases hasSv with
  | true =>
    rw [nccReal_texture F hF, FMAX_zero_of_nonneg _ ha, FMAX_zero_of_nonneg _ hvbnn,
      ← Real.sqrt_mul ha, hsq]
    refine ⟨_, _, rfl, ?_⟩
    have h1 : |kk| * varaOf s N > 1 := by
      by_contra hle
      have : (|kk| * varaOf s N) ^ 2 ≤ 1 := by
        have := not_lt.mp hle
        nlinarith
      rw [← hprod] at this
      linarith
    rw [if_pos h1, hval]
    exact hsign
  | false =>
    rw [nccReal_plain F hF]
    refine ⟨_, _, rfl, ?_⟩
    rw [if_neg (by linarith), hsq, ← div_eq_mul_one_div, hval]
    exact hsign

/-- Window sums of an affine image pair `b = k·a + c`: `num = k·vara` and `varb = k²·vara`. -/
theorem affine_stats {ι : Type} (S : Finset ι) (u v : ι → ℝ) (kk c N : ℝ)
    (huv : ∀ i ∈ S, v i = kk * u i + c) (hN : N * (S.card : ℝ) = 1) :
    (∑ i in S, u i * v i) - N * (∑ i in S, u i) * (∑ i in S, v i)
      = kk * ((∑ i in S, u i ^ 2) - N * (∑ i in S, u i) * (∑ i in S, u i)) ∧
    (∑ i in S, v i ^ 2) - N * (∑ i in S, v i) * (∑ i in S, v i)
      = kk ^ 2 * ((∑ i in S, u i ^ 2) - N * (∑ i in S, u i) * (∑ i in S, u i)) := by
  have e1 : ∑ i in S, v i = kk * (∑ i in S, u i) + c * (S.card : ℝ) := by
    rw [Finset.sum_congr rfl huv, Finset.sum_add_distrib, ← Finset.mul_sum, Finset.sum_const,
      nsmul_eq_mul, mul_comm c]
  have e2 : ∑ i in S, u i * v i = kk * (∑ i in S, u i ^ 2) + c * (∑ i in S, u i) := by
    rw [Finset.mul_sum, Finset.mul_sum, ← Finset.sum_add_distrib]
    refine Finset.sum_congr rfl (fun i hi => ?_)
    rw [huv i hi]
    ring
  have e3 : ∑ i in S, v i ^ 2
      = kk ^ 2 * (∑ i in S, u i ^ 2) + 2 * kk * c * (∑ i in S, u i) + c ^ 2 * (S.card : ℝ) := by
    have : ∀ i ∈ S, v i ^ 2 = kk ^ 2 * u i ^ 2 + 2 * kk * c * u i + c ^ 2 := by
      intro i hi
      rw [huv i hi]
      ring
    rw [Finset.sum_congr rfl this, Finset.sum_add_distrib, Finset.sum_add_distrib,
      ← Finset.mul_sum, ← Finset.mul_sum, Finset.sum_const, nsmul_eq_mul, mul_comm (c ^ 2)]
  rw [e1, e2, e3]
  constructor
  · linear_combination (-(c * ∑ i in S, u i)) * hN
  · linear_combination (-(2 * kk * c * ∑ i in S, u i) - c ^ 2 * (S.card : ℝ)) * hN

/-- The statistics of a window of an affine image pair. -/
theorem winSums_affine (a b : Img) (kk c : ℝ)
    (hab : ∀ y x, y < b.rows → x < b.cols → (b.px y x : ℝ) = kk * (a.px y x : ℝ) + c)
    (x1 y1 x2 y2 : Nat) (hx2 : x2 ≤ b.cols) (hy2 : y2 ≤ b.rows) (N : ℝ)
    (hN : N * ((((x2 - x1) * (y2 - y1) : Nat)) : ℝ) = 1) :
    numOf (winSums none a b x1 y1 x2 y2) N = kk * varaOf (winSums none a b x1 y1 x2 y2) N ∧
    varbOf (winSums none a b x1 y1 x2 y2) N = kk ^ 2 * varaOf (winSums none a b x1 y1 x2 y2) N := by
  have hcard : (Finset.Ico y1 y2 ×ˢ Finset.Ico x1 x2).card = (x2 - x1) * (y2 - y1) := by
    rw [Finset.card_product, Nat.card_Ico, Nat.card_Ico, Nat.mul_comm]
  have h := affine_stats (Finset.Ico y1 y2 ×ˢ Finset.Ico x1 x2)
    (fun p => ((a.px p.1 p.2 : Nat) : ℝ)) (fun p => ((b.px p.1 p.2 : Nat) : ℝ)) kk c N
    (fun p hp => by
      rw [Finset.mem_product, Finset.mem_Ico, Finset.mem_Ico] at hp
      exact hab p.1 p.2 (by omega) (by omega))
    (by rw [hcard]; exact hN)
  simp only [varaOf, varbOf, numOf, winSums, rectSum_eq_sum_product, maskedPx]
  push_cast
  exact h

/-- C6: affine invariance of the plain engine.  For unmasked images with `b = k·a + c` at
every pixel, every `windowSize ≥ 1` that fits the image width, and every pixel `(x, y)` - in
particular every interior pixel - whose window statistics satisfy `vara·varb > 1`, the
correlation stored for `(x, y)` is exactly 1 when `k > 0` and exactly -1 when `k < 0`, in exact
real arithmetic, with and without the texture output. -/
theorem affine_correlation (F : FloatOps ℝ) (hF : F.IsExact) (e0 : FNcc) (fresh : Tbl CSum)
    (a b : Img) (hr : a.rows = b.rows) (hc : a.cols = b.cols) (kk c : ℝ)
    (hab : ∀ y x, y < b.rows → x < b.cols → (b.px y x : ℝ) = kk * (a.px y x : ℝ) + c)
    (winSize : Int) (hws : 1 ≤ winSize) (hW : 2 * Int.tdiv winSize 2 + 1 ≤ (b.cols : Int))
    (d : OutMap) (hd : d.cols = b.cols) (sumvar : Option OutMap) (y x : Nat)
    (hy : y < b.rows) (hx : x < b.cols)
    (hvar :
      varaOf (winSums none a b (winLeft (Int.tdiv winSize 2) x).toNat
          (yupOf (Int.tdiv winSize 2) y).toNat (winRight b.cols (Int.tdiv winSize 2) x).toNat
          (min (b.rows : Int) (y + Int.tdiv winSize 2)).toNat)
        (1 / ((((winRight b.cols (Int.tdiv winSize 2) x - winLeft (Int.tdiv winSize 2) x)
          * (min (b.rows : Int) (y + Int.tdiv winSize 2) - yupOf (Int.tdiv winSize 2) y) : Int)) : ℝ))
      * varbOf (winSums none a b (winLeft (Int.tdiv winSize 2) x).toNat
          (yupOf (Int.tdiv winSize 2) y).toNat (winRight b.cols (Int.tdiv winSize 2) x).toNat
          (min (b.rows : Int) (y + Int.tdiv winSize 2)).toNat)
        (1 / ((((winRight b.cols (Int.tdiv winSize 2) x - winLeft (Int.tdiv winSize 2) x)
          * (min (b.rows : Int) (y + Int.tdiv winSize 2) - yupOf (Int.tdiv winSize 2) y) : Int)) : ℝ))
      > 1) :
    (∃ st ∈ ((e0.setModel fresh b none).setImage a).computeNcc_nomask F winSize (some d) sumvar,
      st.y = (y : Int) ∧ st.x = (x : Int)) ∧
    (∀ st ∈ ((e0.setModel fresh b none).setImage a).computeNcc_nomask F winSize (some d) sumvar,
      st.y = (y : Int) → st.x = (x : Int) →
      ∃ v t, st.out = some (some v, t) ∧ (0 < kk → v = Flt.fin 1) ∧
        (kk < 0 → v = Flt.fin (-1))) := by
  obtain ⟨hwd, hht, -⟩ := setup_fields e0 fresh a b none
  constructor
  · exact nomask_covers F _ winSize d sumvar (by rw [hwd, hd]) y x (by rw [hht]; omega) (by omega)
  · intro st hst hsy hsx
    obtain ⟨x', y', N, -, hy', hx', -, ⟨h1, h2, h3, h4⟩, hN, hout⟩ :=
      nomask_step_spec F e0 fresh a b none hr hc winSize hws hW d hd sumvar st hst
    rw [hsy] at hy'
    rw [hsx] at hx'
    subst hy' hx'
    rw [hout]
    have hR : winRight (b.cols : Int) (Int.tdiv winSize 2) (x : Int) ≤ b.cols := by
      unfold winRight; omega
    have hB : min (b.rows : Int) ((y : Int) + Int.tdiv winSize 2) ≤ b.rows := by omega
    generalize winLeft (Int.tdiv winSize 2) (x : Int) = l at *
    generalize yupOf (Int.tdiv winSize 2) (y : Int) = t at *
    generalize winRight (b.cols : Int) (Int.tdiv winSize 2) (x : Int) = r at *
    generalize min (b.rows : Int) ((y : Int) + Int.tdiv winSize 2) = bo at *
    have hac := area_cast l t r bo h3 h4 h1 h2
    by_cases hz : (((r - l) * (bo - t) : Int) : ℝ) = 0
    · exfalso
      have hzero : varaOf (winSums none a b l.toNat t.toNat r.toNat bo.toNat) (0 : ℝ) = 0 := by
        have hcard : (Finset.Ico t.toNat bo.toNat ×ˢ Finset.Ico l.toNat r.toNat) = ∅ := by
          rw [← Finset.card_eq_zero, Finset.card_product, Nat.card_Ico, Nat.card_Ico, Nat.mul_comm]
          have := hac.trans hz
          exact_mod_cast this
        simp only [varaOf, winSums, rectSum_eq_sum_product, hcard, Finset.sum_empty]
        norm_num
      rw [hz, div_zero, hzero, zero_mul] at hvar
      norm_num at hvar
    · have hNe : N = Flt.fin (1 / (((r - l) * (bo - t) : Int) : ℝ)) :=
        hN (by exact_mod_cast hz)
      have hn0 : (0 : ℝ) ≤ 1 / (((r - l) * (bo - t) : Int) : ℝ) :=
        one_div_nonneg.mpr (by exact_mod_cast mul_nonneg (by omega) (by omega))
      obtain ⟨n, hn⟩ : ∃ n : ℝ, n = 1 / (((r - l) * (bo - t) : Int) : ℝ) := ⟨_, rfl⟩
      rw [← hn] at hvar hNe hn0
      have hN1 : n * ((((r.toNat - l.toNat) * (bo.toNat - t.toNat) : Nat)) : ℝ) = 1 := by
        rw [hac, hn]
        exact one_div_mul_cancel hz
      have hstat := winSums_stats none a b l.toNat t.toNat r.toNat bo.toNat n
        (fun _ => by rw [hac]; exact hn)
      have haff := winSums_affine a b kk c hab l.toNat t.toNat r.toNat bo.toNat (by omega)
        (by omega) n hN1
      obtain ⟨v, tt, hv, hsgn⟩ := nccReal_affine F hF sumvar.isSome _ n (F.sqrtf n) kk hstat.1
        haff.1 haff.2 hvar
      refine ⟨Flt.fin v, tt.map Flt.fin, ?_, fun h => by rw [hsgn.1 h], fun h => by rw [hsgn.2 h]⟩
      rw [hNe, Flt.sqrtf_fin F n hn0, nccValues_fin, hv]
      rfl

/-- The window statistics of pixel `(2, 2)` of the test pair `exCol`, `exNeg`, window size 3. -/
theorem exNeg_window_stats :
    varaOf (winSums none exCol exNeg (winLeft (Int.tdiv 3 2) ((2 : Nat) : Int)).toNat
        (yupOf (Int.tdiv 3 2) ((2 : Nat) : Int)).toNat
        (winRight exNeg.cols (Int.tdiv 3 2) ((2 : Nat) : Int)).toNat
        (min (exNeg.rows : Int) (((2 : Nat) : Int) + Int.tdiv 3 2)).toNat)
      (1 / ((((winRight exNeg.cols (Int.tdiv 3 2) ((2 : Nat) : Int)
          - winLeft (Int.tdiv 3 2) ((2 : Nat) : Int))
        * (min (exNeg.rows : Int) (((2 : Nat) : Int) + Int.tdiv 3 2)
          - yupOf (Int.tdiv 3 2) ((2 : Nat) : Int)) : Int)) : ℝ))
    * varbOf (winSums none exCol exNeg (winLeft (Int.tdiv 3 2) ((2 : Nat) : Int)).toNat
        (yupOf (Int.tdiv 3 2) ((2 : Nat) : Int)).toNat
        (winRight exNeg.cols (Int.tdiv 3 2) ((2 : Nat) : Int)).toNat
        (min (exNeg.rows : Int) (((2 : Nat) : Int) + Int.tdiv 3 2)).toNat)
      (1 / ((((winRight exNeg.cols (Int.tdiv 3 2) ((2 : Nat) : Int)
          - winLeft (Int.tdiv 3 2) ((2 : Nat) : Int))
        * (min (exNeg.rows : Int) (((2 : Nat) : Int) + Int.tdiv 3 2)
          - yupOf (Int.tdiv 3 2) ((2 : Nat) : Int)) : Int)) : ℝ))
    > 1 := by
  have e1 : winLeft (Int.tdiv 3 2) ((2 : Nat) : Int) = 0 := by decide
  have e2 : yupOf (Int.tdiv 3 2) ((2 : Nat) : Int) = 0 := by decide
  have e3 : winRight exNeg.cols (Int.tdiv 3 2) ((2 : Nat) : Int) = 3 := by decide
  have e4 : min (exNeg.rows : Int) (((2 : Nat) : Int) + Int.tdiv 3 2) = 3 := by decide
  have hs : winSums none exCol exNeg 0 0 3 3 = CSum.mk 9 15 2286 580650 2280 := by decide
  rw [e1, e2, e3, e4]
  have e5 : (0 : Int).toNat = 0 := rfl
  have e6 : (3 : Int).toNat = 3 := rfl
  rw [e5, e6, hs]
  norm_num [varaOf, varbOf]

/-- C6 at a concrete input: `b = 255 - a` on the 5×5 column-index image, window size 3,
pixel `(2, 2)`: the correlation is -1. -/
theorem affine_correlation_witness :
    ((FloatOps.mk Real.sqrt (fun t => 1 / Real.sqrt t)).IsExact ∧
      exCol.rows = exNeg.rows ∧ exCol.cols = exNeg.cols ∧
      (∀ y x, y < exNeg.rows → x < exNeg.cols →
        (exNeg.px y x : ℝ) = (-1) * (exCol.px y x : ℝ) + 255) ∧
      (1 : Int) ≤ 3 ∧ 2 * Int.tdiv 3 2 + 1 ≤ (exNeg.cols : Int) ∧ (OutMap.mk 5 5).cols = exNeg.cols ∧
      2 < exNeg.rows ∧ 2 < exNeg.cols) ∧
    ((∃ st ∈ ((FNcc.init.setModel (fun _ _ => CSum.zero) exNeg none).setImage exCol).computeNcc_nomask
          (FloatOps.mk Real.sqrt (fun t => 1 / Real.sqrt t)) 3 (some (OutMap.mk 5 5)) none,
        st.y = ((2 : Nat) : Int) ∧ st.x = ((2 : Nat) : Int)) ∧
    (∀ st ∈ ((FNcc.init.setModel (fun _ _ => CSum.zero) exNeg none).setImage exCol).computeNcc_nomask
          (FloatOps.mk Real.sqrt (fun t => 1 / Real.sqrt t)) 3 (some (OutMap.mk 5 5)) none,
      st.y = ((2 : Nat) : Int) → st.x = ((2 : Nat) : Int) →
      ∃ v t, st.out = some (some v, t) ∧ ((0 : ℝ) < -1 → v = Flt.fin 1) ∧
        ((-1 : ℝ) < 0 → v = Flt.fin (-1)))) := by
  have hab : ∀ y x, y < exNeg.rows → x < exNeg.cols →
      (exNeg.px y x : ℝ) = (-1) * (exCol.px y x : ℝ) + 255 := by
    intro y x _ hx
    have hx5 : x < 5 := hx
    have h : exNeg.px y x + exCol.px y x = 255 := by
      show 255 - x + x = 255
      omega
    have h2 : ((exNeg.px y x : Nat) : ℝ) + ((exCol.px y x : Nat) : ℝ) = 255 := by
      exact_mod_cast h
    linarith
  exact ⟨⟨⟨fun _ => rfl, fun _ => rfl⟩, rfl, rfl, hab, by decide, by decide, rfl, by decide,
      by decide⟩,
    affine_correlation (FloatOps.mk Real.sqrt (fun t => 1 / Real.sqrt t))
      ⟨fun _ => rfl, fun _ => rfl⟩ FNcc.init (fun _ _ => CSum.zero) exCol exNeg rfl rfl (-1) 255
      hab 3 (by decide) (by decide) (OutMap.mk 5 5) rfl none 2 2 (by decide) (by decide)
      exNeg_window_stats⟩

/-- On a finite `N ≥ 0` the pixel arithmetic, `sqrtN` included, is the arithmetic of real
numbers. -/
theorem nccValues_of_fin {K : Type} [LinearOrderedField K] (F : FloatOps K)
    (hasDst hasSv : Bool) (s : CSum) (N : K) (hN : 0 ≤ N) :
    nccValues F hasDst hasSv s (Flt.fin N) (Flt.sqrtf F (Flt.fin N))
      = ((nccReal F hasDst hasSv s N (F.sqrtf N)).1.map Flt.fin,
          (nccReal F hasDst hasSv s N (F.sqrtf N)).2.map Flt.fin) := by
  rw [Flt.sqrtf_fin F N hN, nccValues_fin]

/-- C7, evaluated on the 1×3 images `a = [0,1,0]`, `b = [0,2,0]` with window size 3, at pixel
`(x, y) = (1, 0)`: its window (columns 0 and 1) has `vara = 1/2`, `varb = 2`, so
`vara·varb = 1` exactly, and `num = 1`.  Without the texture output the iteration stores
correlation 1 (the test is `f < 1`); with the texture output it stores 0 (the test is
`f > 1`). -/
theorem unit_variance_product_paths_differ (fresh : Tbl CSum) :
    varaOf (winSums none ex010 ex020 0 0 2 1) (1 / 2 : ℝ)
      * varbOf (winSums none ex010 ex020 0 0 2 1) (1 / 2 : ℝ) = 1 ∧
    (∃ st ∈ ((FNcc.init.setModel fresh ex020 none).setImage ex010).computeNcc_nomask
        (FloatOps.mk Real.sqrt (fun t => 1 / Real.sqrt t)) 3 (some (OutMap.mk 1 3)) none,
      st.y = 0 ∧ st.x = 1) ∧
    (∀ st ∈ ((FNcc.init.setModel fresh ex020 none).setImage ex010).computeNcc_nomask
        (FloatOps.mk Real.sqrt (fun t => 1 / Real.sqrt t)) 3 (some (OutMap.mk 1 3)) none,
      st.y = 0 → st.x = 1 → st.out = some (some (Flt.fin 1), none)) ∧
    (∀ st ∈ ((FNcc.init.setModel fresh ex020 none).setImage ex010).computeNcc_nomask
        (FloatOps.mk Real.sqrt (fun t => 1 / Real.sqrt t)) 3 (some (OutMap.mk 1 3))
        (some (OutMap.mk 1 3)), st.y = 0 → st.x = 1 →
      ∃ t, st.out = some (some (Flt.fin 0), t)) := by
  have hF : (FloatOps.mk Real.sqrt (fun t => 1 / Real.sqrt t)).IsExact :=
    ⟨fun _ => rfl, fun _ => rfl⟩
  generalize FloatOps.mk Real.sqrt (fun t => 1 / Real.sqrt t) = F at hF ⊢
  have hs : winSums none ex010 ex020 0 0 2 1 = CSum.mk 1 1 2 4 2 := by decide
  have hva : varaOf (CSum.mk 1 1 2 4 2) (1 / 2 : ℝ) = 1 / 2 := by norm_num [varaOf]
  have hvb : varbOf (CSum.mk 1 1 2 4 2) (1 / 2 : ℝ) = 2 := by norm_num [varbOf]
  have hnum : numOf (CSum.mk 1 1 2 4 2) (1 / 2 : ℝ) = 1 := by norm_num [numOf]
  have key : ∀ (sumvar : Option OutMap) (st : Step (Flt ℝ)),
      st ∈ ((FNcc.init.setModel fresh ex020 none).setImage ex010).computeNcc_nomask F 3
        (some (OutMap.mk 1 3)) sumvar → st.y = 0 → st.x = 1 →
      st.out = some (nccValues F true sumvar.isSome (CSum.mk 1 1 2 4 2) (Flt.fin (1 / 2))
        (Flt.sqrtf F (Flt.fin (1 / 2)))) := by
    intro sumvar st hst hy hx
    obtain ⟨x', y', N, -, hy', hx', -, -, hN, hout⟩ :=
      nomask_step_spec F FNcc.init fresh ex010 ex020 none rfl rfl 3 (by decide) (by decide)
        (OutMap.mk 1 3) rfl sumvar st hst
    rw [hy] at hy'
    rw [hx] at hx'
    subst hy' hx'
    have e1 : winLeft (Int.tdiv 3 2) 1 = 0 := by decide
    have e2 : yupOf (Int.tdiv 3 2) 0 = 0 := by decide
    have e3 : winRight ex020.cols (Int.tdiv 3 2) 1 = 2 := by decide
    have e4 : min (ex020.rows : Int) (0 + Int.tdiv 3 2) = 1 := by decide
    rw [e1, e2, e3, e4] at hN hout
    have e5 : (0 : Int).toNat = 0 := rfl
    have e6 : (2 : Int).toNat = 2 := rfl
    have e7 : (1 : Int).toNat = 1 := rfl
    rw [e5, e6, e7, hs] at hout
    have hN2 : N = Flt.fin (1 / 2) := by
      rw [hN (by decide)]
      norm_num
    rw [hout, hN2]
  refine ⟨by rw [hs, hva, hvb]; norm_num, ?_, ?_, ?_⟩
  · have hh : (((FNcc.init.setModel fresh ex020 none).setImage ex010).height : Int) - 1 = 1 := rfl
    exact nomask_covers F _ 3 (OutMap.mk 1 3) none rfl 0 1 (by rw [hh]; decide) (by decide)
  · intro st hst hy hx
    rw [key none st hst hy hx, nccValues_of_fin F _ _ _ _ (by norm_num)]
    simp only [Option.isSome_none]
    rw [nccReal_plain F hF, hva, hvb, hnum]
    norm_num
  · intro st hst hy hx
    rw [key (some (OutMap.mk 1 3)) st hst hy hx, nccValues_of_fin F _ _ _ _ (by norm_num)]
    simp only [Option.isSome_some]
    rw [nccReal_texture F hF, hva, hvb, hnum]
    have h1 : FMAX (0 : ℝ) (1 / 2) = 1 / 2 := FMAX_zero_of_nonneg _ (by norm_num)
    have h2 : FMAX (0 : ℝ) 2 = 2 := FMAX_zero_of_nonneg _ (by norm_num)
    have h3 : Real.sqrt (1 / 2) * Real.sqrt 2 = 1 := by
      rw [← Real.sqrt_mul (by norm_num)]
      norm_num
    rw [h1, h2, h3]
    refine ⟨some (Flt.fin (texeval (Real.sqrt (1 / 2)) (Real.sqrt 2) (F.sqrtf (1 / 2)))), ?_⟩
    rw [if_neg (lt_irrefl _)]
    rfl

/-- With zero variances both code paths store correlation 0. -/
theorem nccReal_zero_var (F : FloatOps ℝ) (hF : F.IsExact) (hasSv : Bool) (s : CSum) (N q : ℝ)
    (ha : varaOf s N = 0) (hb : varbOf s N = 0) :
    ∃ t, nccReal F true hasSv s N q = (some 0, t) := by
  cases hasSv with
  | true =>
    rw [nccReal_texture F hF, ha, hb]
    have h0 : FMAX (0 : ℝ) 0 = 0 := FMAX_zero_of_nonneg _ (le_refl _)
    rw [h0, Real.sqrt_zero, if_pos rfl, if_neg (by norm_num)]
    exact ⟨some (texeval 0 0 q), rfl⟩
  | false =>
    rw [nccReal_plain F hF, ha, hb]
    rw [if_pos (by norm_num)]
    exact ⟨none, rfl⟩

/-- The variance of a constant over a finite set is zero. -/
theorem const_variance {ι : Type} (S : Finset ι) (u : ι → ℝ) (cc N : ℝ)
    (hu : ∀ i ∈ S, u i = cc) (hN : (S.card : ℝ) ≠ 0 → N = 1 / (S.card : ℝ)) :
    (∑ i in S, u i ^ 2) - N * (∑ i in S, u i) * (∑ i in S, u i) = 0 := by
  have e1 : ∑ i in S, u i = (S.card : ℝ) * cc := by
    rw [Finset.sum_congr rfl hu, Finset.sum_const, nsmul_eq_mul]
  have e2 : ∑ i in S, u i ^ 2 = (S.card : ℝ) * cc ^ 2 := by
    rw [Finset.sum_congr rfl (fun i hi => by rw [hu i hi]), Finset.sum_const, nsmul_eq_mul]
  rw [e1, e2]
  by_cases hc : (S.card : ℝ) = 0
  · rw [hc]
    ring
  · rw [hN hc]
    field_simp
    ring

/-- The window statistics of constant images: both variances are zero. -/
theorem winSums_const (a b : Img) (ca cb : Nat)
    (ha : ∀ y x, y < b.rows → x < b.cols → a.px y x = ca)
    (hb : ∀ y x, y < b.rows → x < b.cols → b.px y x = cb)
    (x1 y1 x2 y2 : Nat) (hx2 : x2 ≤ b.cols) (hy2 : y2 ≤ b.rows) (N : ℝ)
    (hN : ((((x2 - x1) * (y2 - y1) : Nat)) : ℝ) ≠ 0
      → N = 1 / ((((x2 - x1) * (y2 - y1) : Nat)) : ℝ)) :
    varaOf (winSums none a b x1 y1 x2 y2) N = 0 ∧ varbOf (winSums none a b x1 y1 x2 y2) N = 0 := by
  have hcard : (Finset.Ico y1 y2 ×ˢ Finset.Ico x1 x2).card = (x2 - x1) * (y2 - y1) := by
    rw [Finset.card_product, Nat.card_Ico, Nat.card_Ico, Nat.mul_comm]
  have hmem : ∀ p ∈ Finset.Ico y1 y2 ×ˢ Finset.Ico x1 x2, p.1 < b.rows ∧ p.2 < b.cols := by
    intro p hp
    rw [Finset.mem_product, Finset.mem_Ico, Finset.mem_Ico] at hp
    omega
  have h1 := const_variance (Finset.Ico y1 y2 ×ˢ Finset.Ico x1 x2)
    (fun p => ((a.px p.1 p.2 : Nat) : ℝ)) ca N
    (fun p hp => by simp only [ha p.1 p.2 (hmem p hp).1 (hmem p hp).2])
    (by rw [hcard]; exact hN)
  have h2 := const_variance (Finset.Ico y1 y2 ×ˢ Finset.Ico x1 x2)
    (fun p => ((b.px p.1 p.2 : Nat) : ℝ)) cb N
    (fun p hp => by simp only [hb p.1 p.2 (hmem p hp).1 (hmem p hp).2])
    (by rw [hcard]; exact hN)
  simp only [varaOf, varbOf, winSums, rectSum_eq_sum_product, maskedPx]
  push_cast
  exact ⟨h1, h2⟩

/-- Constant images and window sizes from 2, in exact real arithmetic: for every pair of
unmasked images that are each constant and every `windowSize` with `w2 = windowSize/2 ≥ 1` and
`2·w2+1` no larger than the image width, every pixel is visited and every iteration of
`computeNcc_nomask` stores 0 to `dline[x]`. -/
theorem constant_images_zero_from_window_two (F : FloatOps ℝ) (hF : F.IsExact) (e0 : FNcc)
    (fresh : Tbl CSum)
    (a b : Img) (hr : a.rows = b.rows) (hc : a.cols = b.cols) (ca cb : Nat)
    (ha : ∀ y x, y < b.rows → x < b.cols → a.px y x = ca)
    (hb : ∀ y x, y < b.rows → x < b.cols → b.px y x = cb)
    (winSize : Int) (hw : 1 ≤ Int.tdiv winSize 2)
    (hW : 2 * Int.tdiv winSize 2 + 1 ≤ (b.cols : Int))
    (d : OutMap) (hd : d.cols = b.cols) (sumvar : Option OutMap) :
    (∀ y x : Nat, y < b.rows → x < b.cols →
      ∃ st ∈ ((e0.setModel fresh b none).setImage a).computeNcc_nomask F winSize (some d) sumvar,
        st.y = (y : Int) ∧ st.x = (x : Int)) ∧
    (∀ st ∈ ((e0.setModel fresh b none).setImage a).computeNcc_nomask F winSize (some d) sumvar,
      ∃ t, st.out = some (some (Flt.fin 0), t)) := by
  have hws : 1 ≤ winSize := by
    by_contra hneg
    have h1 : Int.tdiv winSize 2 = -Int.tdiv (-winSize) 2 := by
      rw [Int.neg_tdiv, neg_neg]
    have h2 := Int.tdiv_nonneg (a := -winSize) (b := 2) (by omega) (by omega)
    omega
  obtain ⟨hwd, hht, -⟩ := setup_fields e0 fresh a b none
  constructor
  · intro y x hy hx
    exact nomask_covers F _ winSize d sumvar (by rw [hwd, hd]) y x (by rw [hht]; omega) (by omega)
  · intro st hst
    obtain ⟨x, y, N, ⟨hy1, hy2, hx1, hx2⟩, -, -, -, ⟨h1, h2, h3, h4⟩, hN, hout⟩ :=
      nomask_step_spec F e0 fresh a b none hr hc winSize hws hW d hd sumvar st hst
    have hpos := window_area_pos b.rows b.cols (Int.tdiv winSize 2) x y hw ⟨hy1, hy2⟩ ⟨hx1, hx2⟩
    rw [hout, hN (ne_of_gt hpos),
      nccValues_of_fin F _ _ _ _ (one_div_nonneg.mpr (by exact_mod_cast hpos.le))]
    have hR : winRight (b.cols : Int) (Int.tdiv winSize 2) x ≤ b.cols := by
      unfold winRight; omega
    have hB : min (b.rows : Int) (y + Int.tdiv winSize 2) ≤ b.rows := by omega
    have hs := winSums_const a b ca cb ha hb (winLeft (Int.tdiv winSize 2) x).toNat
      (yupOf (Int.tdiv winSize 2) y).toNat (winRight (b.cols : Int) (Int.tdiv winSize 2) x).toNat
      (min (b.rows : Int) (y + Int.tdiv winSize 2)).toNat (by omega) (by omega) _
      (by rw [area_cast _ _ _ _ h3 h4 h1 h2]
          intro _
          rfl)
    obtain ⟨t, ht⟩ := nccReal_zero_var F hF sumvar.isSome _ _ (F.sqrtf _) hs.1 hs.2
    exact ⟨t.map Flt.fin, by rw [ht]; rfl⟩

/-- The 5×5 image with every pixel 100 and window size 3, in exact real arithmetic: every
iteration of `computeNcc_nomask` stores correlation 0. -/
theorem constant_images_zero_window_three :
    ∀ st ∈ ((FNcc.init.setModel (fun _ _ => CSum.zero) ex5c none).setImage ex5c).computeNcc_nomask
          (FloatOps.mk Real.sqrt (fun t => 1 / Real.sqrt t)) 3 (some (OutMap.mk 5 5)) none,
      ∃ t, st.out = some (some (Flt.fin 0), t) :=
  (constant_images_zero_from_window_two (FloatOps.mk Real.sqrt (fun t => 1 / Real.sqrt t))
      ⟨fun _ => rfl, fun _ => rfl⟩ FNcc.init (fun _ _ => CSum.zero) ex5c ex5c rfl rfl 100 100
      (fun _ _ _ _ => rfl) (fun _ _ _ _ => rfl) 3 (by decide) (by decide) (OutMap.mk 5 5) rfl
      none).2

/-- On the 2×2 image with every pixel 100 and window size 2 (no larger than the image), the
right-edge iteration for pixel `(x, y) = (1, 0)` reads table column -1, so not every
iteration stores a correlation of 0. -/
theorem constant_images_even_window_fails :
    ¬ (∀ st ∈ ((FNcc.init.setModel (fun _ _ => CSum.zero) ex100 none).setImage ex100).computeNcc_nomask
        (FloatOps.mk Real.sqrt (fun t => 1 / Real.sqrt t)) 2 (some (OutMap.mk 2 2)) none,
      ∃ t, st.out = some (some (Flt.fin 0), t)) := by
  intro h
  have hmem : nomaskRight (FloatOps.mk Real.sqrt (fun t => 1 / Real.sqrt t))
      ((FNcc.init.setModel (fun _ _ => CSum.zero) ex100 none).setImage ex100) true false 2 1 0 1
      ∈ ((FNcc.init.setModel (fun _ _ => CSum.zero) ex100 none).setImage ex100).computeNcc_nomask
        (FloatOps.mk Real.sqrt (fun t => 1 / Real.sqrt t)) 2 (some (OutMap.mk 2 2)) none := by
    rw [mem_computeNcc_nomask]
    exact ⟨0, by decide, Or.inr (Or.inr ⟨1, by decide, rfl⟩)⟩
  obtain ⟨t, ht⟩ := h _ hmem
  have hnone : (nomaskRight (FloatOps.mk Real.sqrt (fun t => 1 / Real.sqrt t))
      ((FNcc.init.setModel (fun _ _ => CSum.zero) ex100 none).setImage ex100) true false 2 1 0
      1).out = none := by
    simp [nomaskRight, FNcc.sum4, FNcc.cell]
  rw [hnone] at ht
  exact Option.noConfusion ht

/-- The interior iterations of row 0 of `computeNcc_nomask` for window size 1, without the
texture output: the pixel `(x, 0)` with `1 ≤ x < W` is visited, and every iteration that
visits it stores NaN. -/
theorem nomask_window_one_row_zero (F : FloatOps ℝ) (e0 : FNcc) (fresh : Tbl CSum) (a b : Img)
    (hr : a.rows = b.rows) (hc : a.cols = b.cols) (d : OutMap) (hd : d.cols = b.cols)
    (hrows : 0 < b.rows) (x : Int) (hx : 1 ≤ x ∧ x < b.cols) :
    (∃ st ∈ ((e0.setModel fresh b none).setImage a).computeNcc_nomask F 1 (some d) none,
      st.y = 0 ∧ st.x = x) ∧
    (∀ st ∈ ((e0.setModel fresh b none).setImage a).computeNcc_nomask F 1 (some d) none,
      st.y = 0 → st.x = x → st.out = some (some Flt.nan, none)) := by
  obtain ⟨hwd, hht, -⟩ := setup_fields e0 fresh a b none
  constructor
  · exact nomask_covers F _ 1 d none (by rw [hwd, hd]) 0 x (by rw [hht]; omega)
      ⟨by omega, by rw [hd]; omega⟩
  · intro st hst hsy hsx
    rw [mem_computeNcc_nomask] at hst
    have hw : Int.tdiv 1 2 = 0 := by decide
    have hcols : outCols (some d) = (b.cols : Int) := by
      simp only [outCols, hd]
    rw [hw, hcols] at hst
    obtain ⟨y', -, h | h | h⟩ := hst
    · obtain ⟨x', hx', rfl⟩ := h
      exfalso
      have : x' = x := hsx
      omega
    · obtain ⟨x', hx', rfl⟩ := h
      obtain rfl : y' = 0 := hsy
      obtain rfl : x' = x := hsx
      exact nomaskMid_window_one F e0 fresh a b hr hc x' ⟨hx.1, by omega⟩
    · obtain ⟨x', hx', rfl⟩ := h
      exfalso
      have : x' = x := hsx
      omega

/-- C8, evaluated on the 5×5 image with every pixel 100 (model and candidate, no mask) with
window size 1, no larger than the image: the pixel `(x, y) = (1, 0)` is visited and every
iteration of `computeNcc_nomask` that visits it stores NaN to `dline[1]`, not 0; the window
of the pixel is empty, `N = 1.0f/0` is `+inf` and `vara = 0 - inf·0·0` is NaN. -/
theorem constant_images_window_one_nan (F : FloatOps ℝ) (fresh : Tbl CSum) :
    (∀ y x, y < ex5c.rows → x < ex5c.cols → ex5c.px y x = 100) ∧
    (1 : Int) ≤ 1 ∧ (1 : Int) ≤ ex5c.cols ∧ (1 : Int) ≤ ex5c.rows ∧
    (∃ st ∈ ((FNcc.init.setModel fresh ex5c none).setImage ex5c).computeNcc_nomask F 1
        (some (OutMap.mk 5 5)) none, st.y = 0 ∧ st.x = 1) ∧
    (∀ st ∈ ((FNcc.init.setModel fresh ex5c none).setImage ex5c).computeNcc_nomask F 1
        (some (OutMap.mk 5 5)) none, st.y = 0 → st.x = 1 →
      st.out = some (some Flt.nan, none) ∧ st.out ≠ some (some (Flt.fin 0), none)) := by
  have h := nomask_window_one_row_zero F FNcc.init fresh ex5c ex5c rfl rfl (OutMap.mk 5 5) rfl
    (by decide) 1 ⟨by decide, by decide⟩
  refine ⟨fun _ _ _ _ => rfl, by decide, by decide, by decide, h.1, ?_⟩
  intro st hst hy hx
  have hout := h.2 st hst hy hx
  refine ⟨hout, ?_⟩
  rw [hout]
  simp

/-- C9, evaluated on the 5×5 image `A[x,y] = x` with window size 3, at the interior pixel
`(2, 2)`: the iteration reads the table corners `(row, column) = (0,0), (0,3), (3,3), (3,0)`,
so its window is columns 0..2 and rows 0..2 (`x-w2-1 .. x+w2-1`); the sum `Σa` it uses is
`3·(0+1+2) = 9`, whereas the window symmetric about the pixel (columns and rows 1..3) has
`Σa = 3·(1+2+3) = 18`. -/
theorem window_of_centre_pixel (fresh : Tbl CSum) :
    (∃ st ∈ ((FNcc.init.setModel fresh exCol none).setImage exCol).computeNcc_nomask
        (FloatOps.mk Real.sqrt (fun t => 1 / Real.sqrt t)) 3 (some (OutMap.mk 5 5)) none,
      st.y = 2 ∧ st.x = 2) ∧
    (∀ st ∈ ((FNcc.init.setModel fresh exCol none).setImage exCol).computeNcc_nomask
        (FloatOps.mk Real.sqrt (fun t => 1 / Real.sqrt t)) 3 (some (OutMap.mk 5 5)) none,
      st.y = 2 → st.x = 2 → st.reads = [(0, 0), (0, 3), (3, 3), (3, 0)]) ∧
    ((FNcc.init.setModel fresh exCol none).setImage exCol).sum4 (0, 0) (0, 3) (3, 3) (3, 0)
      = some (winSums none exCol exCol 0 0 3 3) ∧
    (winSums none exCol exCol 0 0 3 3).a = 9 ∧
    (winSums none exCol exCol 1 1 4 4).a = 18 := by
  refine ⟨?_, ?_, ?_, by decide, by decide⟩
  · have hh : (((FNcc.init.setModel fresh exCol none).setImage exCol).height : Int) - 1 = 5 := rfl
    exact nomask_covers _ _ 3 (OutMap.mk 5 5) none rfl 2 2 (by rw [hh]; decide) (by decide)
  · intro st hst hy hx
    obtain ⟨x', y', N, -, hy', hx', hreads, -, -, -⟩ :=
      nomask_step_spec _ FNcc.init fresh exCol exCol none rfl rfl 3 (by decide) (by decide)
        (OutMap.mk 5 5) rfl none st hst
    rw [hy] at hy'
    rw [hx] at hx'
    subst hy' hx'
    rw [hreads]
    decide
  · exact sum4_setup FNcc.init fresh exCol exCol none rfl rfl 0 3 0 3 (by decide) (by decide)
      (by decide) (by decide) (by decide) (by decide)

theorem intRange_append (a b c : Int) (hab : a ≤ b) (hbc : b ≤ c) :
    intRange a b ++ intRange b c = intRange a c := by
  unfold intRange
  have h1 : (c - a).toNat = (b - a).toNat + (c - b).toNat := by omega
  rw [h1, List.range_add, List.map_append, List.map_map]
  congr 1
  apply List.map_congr_left
  intro i _
  simp only [Function.comp]
  push_cast
  omega

theorem intRange_nodup (a b : Int) : (intRange a b).Nodup := by
  unfold intRange
  refine List.Nodup.map ?_ (List.nodup_range _)
  intro i j h
  simp only at h
  omega

theorem pixelOrder_nodup (W H : Int) : (pixelOrder W H).Nodup := by
  unfold pixelOrder
  rw [List.nodup_flatMap]
  refine ⟨fun y _ => ?_, ?_⟩
  · refine List.Nodup.map ?_ (intRange_nodup 0 W)
    intro i j h
    exact (Prod.mk.inj h).2
  · refine List.Nodup.pairwise_of_forall_ne (intRange_nodup 0 H) ?_
    intro y1 _ y2 _ hne
    simp only [Function.onFun, List.Disjoint, List.mem_map]
    rintro p ⟨x1, -, rfl⟩ ⟨x2, -, h⟩
    exact hne (Prod.mk.inj h).1.symm

section Zones

variable {K : Type} [LinearOrderedField K]

/-- The three column zones of `computeNcc_nomask` visit the pixels in row-major order, each
one once, when the image is at least `2·w2+1` pixels wide. -/
theorem nomask_pixel_order (F : FloatOps K) (e : FNcc) (winSize : Int) (hws : 1 ≤ winSize)
    (d : OutMap) (sumvar : Option OutMap) (hW : 2 * Int.tdiv winSize 2 + 1 ≤ (d.cols : Int)) :
    (e.computeNcc_nomask F winSize (some d) sumvar).map (fun st => (st.y, st.x))
      = pixelOrder d.cols ((e.height : Int) - 1) := by
  have hw2 := tdiv_two_nonneg winSize hws
  unfold FNcc.computeNcc_nomask pixelOrder
  simp only [List.map_flatMap, List.map_append, List.map_map, outCols]
  congr 1
  funext y
  have e1 : ((fun st : Step (Flt K) => (st.y, st.x)) ∘
      nomaskLeft F e (some d).isSome sumvar.isSome (Int.tdiv winSize 2) y) = fun x => (y, x) := rfl
  have e2 : ((fun st : Step (Flt K) => (st.y, st.x)) ∘
      nomaskMid F e (some d).isSome sumvar.isSome (Int.tdiv winSize 2) y) = fun x => (y, x) := rfl
  have e3 : ((fun st : Step (Flt K) => (st.y, st.x)) ∘
      nomaskRight F e (some d).isSome sumvar.isSome (d.cols : Int) (Int.tdiv winSize 2) y)
        = fun x => (y, x) := rfl
  rw [e1, e2, e3, ← List.map_append, ← List.map_append,
    intRange_append 0 _ _ (by omega) (by omega), intRange_append 0 _ _ (by omega) (by omega)]

/-- C14: for every `H` × `W` image pair and every `windowSize ≥ 1` with `W ≥ 2·w2+1`
(`w2 = windowSize/2`), the three column zones of `computeNcc_nomask` visit the pixels
`0..W−1` of every row in order, no pixel twice, and at every pixel `(x, y)` the four table
corners read are those of the clipped rectangle `left = max(0, x−w2−1)`, `right = min(W, x+w2)`,
`top = max(0, y−w2−1)`, `bottom = min(H, y+w2)`, the sums are the direct sums over that
rectangle, and `N` is `1/((bottom−top)·(right−left))` whenever that product is at least 1. -/
theorem zones_equal_clipping (F : FloatOps K) (e0 : FNcc) (fresh : Tbl CSum) (a b : Img)
    (hr : a.rows = b.rows) (hc : a.cols = b.cols) (winSize : Int) (hws : 1 ≤ winSize)
    (hW : 2 * Int.tdiv winSize 2 + 1 ≤ (b.cols : Int)) (d : OutMap) (hd : d.cols = b.cols)
    (sumvar : Option OutMap) :
    (((e0.setModel fresh b none).setImage a).computeNcc_nomask F winSize (some d) sumvar).map
        (fun st => (st.y, st.x)) = pixelOrder b.cols b.rows ∧
    ((((e0.setModel fresh b none).setImage a).computeNcc_nomask F winSize (some d) sumvar).map
        (fun st => (st.y, st.x))).Nodup ∧
    ∀ st ∈ ((e0.setModel fresh b none).setImage a).computeNcc_nomask F winSize (some d) sumvar,
      st.reads
        = [((clippedRect b.cols b.rows (Int.tdiv winSize 2) st.x st.y).top,
              (clippedRect b.cols b.rows (Int.tdiv winSize 2) st.x st.y).left),
           ((clippedRect b.cols b.rows (Int.tdiv winSize 2) st.x st.y).top,
              (clippedRect b.cols b.rows (Int.tdiv winSize 2) st.x st.y).right),
           ((clippedRect b.cols b.rows (Int.tdiv winSize 2) st.x st.y).bottom,
              (clippedRect b.cols b.rows (Int.tdiv winSize 2) st.x st.y).right),
           ((clippedRect b.cols b.rows (Int.tdiv winSize 2) st.x st.y).bottom,
              (clippedRect b.cols b.rows (Int.tdiv winSize 2) st.x st.y).left)] ∧
      ∃ N : Flt K,
        (1 ≤ ((clippedRect b.cols b.rows (Int.tdiv winSize 2) st.x st.y).bottom
              - (clippedRect b.cols b.rows (Int.tdiv winSize 2) st.x st.y).top)
            * ((clippedRect b.cols b.rows (Int.tdiv winSize 2) st.x st.y).right
              - (clippedRect b.cols b.rows (Int.tdiv winSize 2) st.x st.y).left) →
          N = Flt.fin (1 / ((((clippedRect b.cols b.rows (Int.tdiv winSize 2) st.x st.y).bottom
              - (clippedRect b.cols b.rows (Int.tdiv winSize 2) st.x st.y).top)
            * ((clippedRect b.cols b.rows (Int.tdiv winSize 2) st.x st.y).right
              - (clippedRect b.cols b.rows (Int.tdiv winSize 2) st.x st.y).left) : Int) : K))) ∧
        st.out = some (nccValues F true sumvar.isSome
          (winSums none a b
            (clippedRect b.cols b.rows (Int.tdiv winSize 2) st.x st.y).left.toNat
            (clippedRect b.cols b.rows (Int.tdiv winSize 2) st.x st.y).top.toNat
            (clippedRect b.cols b.rows (Int.tdiv winSize 2) st.x st.y).right.toNat
            (clippedRect b.cols b.rows (Int.tdiv winSize 2) st.x st.y).bottom.toNat)
          N (Flt.sqrtf F N)) := by
  have hord := nomask_pixel_order F ((e0.setModel fresh b none).setImage a) winSize hws d sumvar
    (by rw [hd]; exact hW)
  have hh : ((((e0.setModel fresh b none).setImage a).height : Nat) : Int) - 1 = (b.rows : Int) := by
    rw [(setup_fields e0 fresh a b none).2.1]
    push_cast
    omega
  rw [hd, hh] at hord
  refine ⟨hord, ?_, ?_⟩
  · rw [hord]
    exact pixelOrder_nodup _ _
  · intro st hst
    obtain ⟨x, y, N, -, hy, hx, hreads, -, hN, hout⟩ :=
      nomask_step_spec F e0 fresh a b none hr hc winSize hws hW d hd sumvar st hst
    rw [hy, hx]
    refine ⟨hreads, N, fun h1 => ?_, hout⟩
    simp only [clippedRect] at h1
    simp only [winLeft, winRight, yupOf] at hN
    rw [hN (by rw [mul_comm]; omega)]
    simp only [clippedRect, mul_comm]

end Zones

/-- C14 at a concrete input: the 5×5 test images with window size 3. -/
theorem zones_equal_clipping_witness :
    (exCol.rows = exNeg.rows ∧ exCol.cols = exNeg.cols ∧ (1 : Int) ≤ 3 ∧
      2 * Int.tdiv 3 2 + 1 ≤ (exNeg.cols : Int) ∧ (OutMap.mk 5 5).cols = exNeg.cols) ∧
    (((FNcc.init.setModel (fun _ _ => CSum.zero) exNeg none).setImage exCol).computeNcc_nomask
        (FloatOps.mk (fun t : ℚ => t) (fun t => t)) 3 (some (OutMap.mk 5 5)) none).map
        (fun st => (st.y, st.x)) = pixelOrder exNeg.cols exNeg.rows :=
  ⟨⟨rfl, rfl, by decide, by decide, rfl⟩,
    (zones_equal_clipping (FloatOps.mk (fun t : ℚ => t) (fun t => t)) FNcc.init
      (fun _ _ => CSum.zero) exCol exNeg rfl rfl 3 (by decide) (by decide) (OutMap.mk 5 5) rfl
      none).1⟩

/-! ## The mask-coverage count -/

/-- A cell of the mask-coverage table counts the nonzero-mask pixels above and to the left. -/
theorem prefixSum_validAt (k : Img) (r c : Nat) :
    prefixSum (validAt k) r c
      = (((Finset.range r ×ˢ Finset.range c).filter (fun p => k.px p.1 p.2 ≠ 0)).card : Int) := by
  have h := rectSum_validAt k 0 0 c r
  simp only [rectSum, Nat.Ico_zero_eq_range] at h
  exact h

section MaskCount

variable {K : Type} [LinearOrderedField K]

/-- C16: in the masked engine, for every mask, every `windowSize ≥ 1` with the image at least
`2·w2+1` pixels wide and every pixel `(x, y)` with nonzero mask, the pixel is visited and the
count `n` read from the mask-coverage table is the number of nonzero-mask pixels with column in
`[max(0,x−w2−1), min(W,x+w2))` and row in `[max(0,y−w2−1), min(H,y+w2))`; and every cell
`mask_integral[r][c]` of the table is the number of nonzero-mask pixels with row `< r` and
column `< c`. -/
theorem mask_count_is_window_count (F : FloatOps K) (e0 : FNcc) (fresh : Tbl CSum) (a b k : Img)
    (hr : a.rows = b.rows) (hc : a.cols = b.cols) (hkr : k.rows = b.rows) (hkc : k.cols = b.cols)
    (winSize : Int) (hws : 1 ≤ winSize) (hW : 2 * Int.tdiv winSize 2 + 1 ≤ (b.cols : Int))
    (d : OutMap) (hd : d.cols = b.cols) (sumvar : Option OutMap)
    (y x : Nat) (hy : y < b.rows) (hx : x < b.cols) (hm : k.px y x ≠ 0) :
    (∃ st ∈ ((e0.setModel fresh b (some k)).setImage a).computeNcc_mask F winSize (some d) sumvar,
      st.y = (y : Int) ∧ st.x = (x : Int)) ∧
    (∀ st ∈ ((e0.setModel fresh b (some k)).setImage a).computeNcc_mask F winSize (some d) sumvar,
      st.y = (y : Int) → st.x = (x : Int) →
      st.nAssert = some
        ((((Finset.Ico (max 0 ((y : Int) - Int.tdiv winSize 2 - 1)).toNat
              (min (b.rows : Int) ((y : Int) + Int.tdiv winSize 2)).toNat
            ×ˢ Finset.Ico (max 0 ((x : Int) - Int.tdiv winSize 2 - 1)).toNat
              (min (b.cols : Int) ((x : Int) + Int.tdiv winSize 2)).toNat).filter
            (fun p => k.px p.1 p.2 ≠ 0)).card : Nat) : Int)) ∧
    (∀ r c : Nat, r ≤ k.rows → c ≤ k.cols →
      ((e0.setModel fresh b (some k)).setImage a).mask_integral r c
        = (((Finset.range r ×ˢ Finset.range c).filter (fun p => k.px p.1 p.2 ≠ 0)).card : Int)) := by
  refine ⟨?_, ?_, ?_⟩
  · exact mask_covers F _ winSize d sumvar (by rw [hd]; rfl) y x
      ⟨by omega, by rw [(setup_fields e0 fresh a b (some k)).2.1]; push_cast; omega⟩
      ⟨by omega, by rw [hd]; omega⟩
  · intro st hst hsy hsx
    obtain ⟨x', y', -, hy', hx', -, h | h⟩ :=
      mask_step_spec F e0 fresh a b k hr hc hkr hkc winSize hws hW d hd sumvar st hst
    · exfalso
      rw [hsy] at hy'
      rw [hsx] at hx'
      subst hy' hx'
      exact hm h.1
    · rw [hsy] at hy'
      rw [hsx] at hx'
      subst hy' hx'
      rw [h.2.2.1, rectSum_validAt]
      rfl
  · intro r c hr' hc'
    have e : ((e0.setModel fresh b (some k)).setImage a).mask_integral = maskIntegral k := rfl
    rw [e, maskIntegral_cells k r c hr' hc', prefixSum_validAt]

end MaskCount

/-- C16 at a concrete input: the masked 2×3 test images, window size 3, pixel `(0, 0)`. -/
theorem mask_count_is_window_count_witness :
    (exA.rows = exB.rows ∧ exA.cols = exB.cols ∧ exM.rows = exB.rows ∧ exM.cols = exB.cols ∧
      (1 : Int) ≤ 3 ∧ 2 * Int.tdiv 3 2 + 1 ≤ (exB.cols : Int) ∧ (OutMap.mk 2 3).cols = exB.cols ∧
      0 < exB.rows ∧ 0 < exB.cols ∧ exM.px 0 0 ≠ 0) ∧
    (∀ st ∈ ((FNcc.init.setModel (fun _ _ => CSum.zero) exB (some exM)).setImage exA).computeNcc_mask
        (FloatOps.mk (fun t : ℚ => t) (fun t => t)) 3 (some (OutMap.mk 2 3)) none,
      st.y = ((0 : Nat) : Int) → st.x = ((0 : Nat) : Int) →
      st.nAssert = some
        ((((Finset.Ico (max 0 (((0 : Nat) : Int) - Int.tdiv 3 2 - 1)).toNat
              (min (exB.rows : Int) (((0 : Nat) : Int) + Int.tdiv 3 2)).toNat
            ×ˢ Finset.Ico (max 0 (((0 : Nat) : Int) - Int.tdiv 3 2 - 1)).toNat
              (min (exB.cols : Int) (((0 : Nat) : Int) + Int.tdiv 3 2)).toNat).filter
            (fun p => exM.px p.1 p.2 ≠ 0)).card : Nat) : Int)) :=
  ⟨⟨rfl, rfl, rfl, rfl, by decide, by decide, rfl, by decide, by decide, by decide⟩,
    (mask_count_is_window_count (FloatOps.mk (fun t : ℚ => t) (fun t => t)) FNcc.init
      (fun _ _ => CSum.zero) exA exB exM rfl rfl rfl rfl 3 (by decide) (by decide) (OutMap.mk 2 3)
      rfl none 0 0 (by decide) (by decide) (by decide)).2.1⟩

section MaskAssert

variable {K : Type} [LinearOrderedField K]

end MaskAssert

/-- With window size 1 (`w2 = 0`) the rectangle of a pixel is the single pixel up and to the
left of it: on the masked 2×3 test images the pixel `(x, y) = (2, 1)` has nonzero mask, its
rectangle is the excluded pixel `(1, 0)`, and the value asserted positive is 0. -/
theorem mask_count_zero_for_window_one (fresh : Tbl CSum) :
    exM.px 1 2 ≠ 0 ∧
    ∃ st ∈ ((FNcc.init.setModel fresh exB (some exM)).setImage exA).computeNcc_mask
        (FloatOps.mk (fun t : ℚ => t) (fun t => t)) 1 (some (OutMap.mk 2 3)) none,
      st.y = 1 ∧ st.x = 2 ∧ st.nAssert = some 0 := by
  refine ⟨by decide, ?_⟩
  obtain ⟨st, hst, hy, hx⟩ := mask_covers (FloatOps.mk (fun t : ℚ => t) (fun t => t))
    ((FNcc.init.setModel fresh exB (some exM)).setImage exA) 1 (OutMap.mk 2 3) none rfl 1 2
    ⟨by decide, by rw [(setup_fields FNcc.init fresh exA exB (some exM)).2.1]; decide⟩
    ⟨by decide, by decide⟩
  refine ⟨st, hst, hy, hx, ?_⟩
  obtain ⟨x', y', -, hy', hx', -, h | h⟩ :=
    mask_step_spec (FloatOps.mk (fun t : ℚ => t) (fun t => t)) FNcc.init fresh exA exB exM
      rfl rfl rfl rfl 1 (by decide) (by decide) (OutMap.mk 2 3) rfl none st hst
  · exfalso
    obtain rfl : y' = 1 := by rw [← hy', hy]
    obtain rfl : x' = 2 := by rw [← hx', hx]
    exact absurd h.1 (by decide)
  · obtain rfl : y' = 1 := by rw [← hy', hy]
    obtain rfl : x' = 2 := by rw [← hx', hx]
    rw [h.2.2.1]
    decide

/-! ## Pixels excluded by the mask -/

theorem prefixSum_congr {α : Type} [AddCommMonoid α] (f g : Nat → Nat → α) (r c : Nat)
    (h : ∀ i j, i < r → j < c → f i j = g i j) : prefixSum f r c = prefixSum g r c := by
  unfold prefixSum
  refine Finset.sum_congr rfl (fun i hi => Finset.sum_congr rfl (fun j hj => ?_))
  exact h i j (Finset.mem_range.1 hi) (Finset.mem_range.1 hj)

/-- Two image pairs that agree wherever the mask is not 0 give the same table cells. -/
theorem cell_agree (e1 e2 : FNcc) (f1 f2 : Tbl CSum) (a1 b1 a2 b2 k : Img)
    (hr1 : a1.rows = b1.rows) (hc1 : a1.cols = b1.cols)
    (hr2 : a2.rows = b2.rows) (hc2 : a2.cols = b2.cols)
    (hrows : b1.rows = b2.rows) (hcols : b1.cols = b2.cols)
    (hagree : ∀ y x, y < b1.rows → x < b1.cols → k.px y x ≠ 0 →
      a1.px y x = a2.px y x ∧ b1.px y x = b2.px y x) (p : Int × Int) :
    ((e1.setModel f1 b1 (some k)).setImage a1).cell p
      = ((e2.setModel f2 b2 (some k)).setImage a2).cell p := by
  have hm : ∀ i j, i < b1.rows → j < b1.cols →
      maskedPx (some k) a1.px i j = maskedPx (some k) a2.px i j ∧
      maskedPx (some k) b1.px i j = maskedPx (some k) b2.px i j := by
    intro i j hi hj
    unfold maskedPx
    by_cases h0 : k.px i j = 0
    · simp [h0]
    · simp only [if_neg h0]
      exact hagree i j hi hj h0
  by_cases hin : 0 ≤ p.1 ∧ p.1 ≤ b1.rows ∧ 0 ≤ p.2 ∧ p.2 ≤ b1.cols
  · obtain ⟨h1, h2, h3, h4⟩ := hin
    have e1' := cell_setup e1 f1 a1 b1 (some k) hr1 hc1 p.1 p.2 h1 h2 h3 h4
    have e2' := cell_setup e2 f2 a2 b2 (some k) hr2 hc2 p.1 p.2 h1 (by omega) h3 (by omega)
    rw [show p = (p.1, p.2) from rfl, e1', e2']
    have hlt : ∀ i j, i < p.1.toNat → j < p.2.toNat → i < b1.rows ∧ j < b1.cols := by
      intro i j hi hj
      omega
    congr 2
    · exact prefixSum_congr _ _ _ _ (fun i j hi hj => by
        rw [(hm i j (hlt i j hi hj).1 (hlt i j hi hj).2).1])
    · exact prefixSum_congr _ _ _ _ (fun i j hi hj => by
        rw [(hm i j (hlt i j hi hj).1 (hlt i j hi hj).2).1])
    · exact prefixSum_congr _ _ _ _ (fun i j hi hj => by
        rw [(hm i j (hlt i j hi hj).1 (hlt i j hi hj).2).2])
    · exact prefixSum_congr _ _ _ _ (fun i j hi hj => by
        rw [(hm i j (hlt i j hi hj).1 (hlt i j hi hj).2).2])
    · exact prefixSum_congr _ _ _ _ (fun i j hi hj => by
        rw [(hm i j (hlt i j hi hj).1 (hlt i j hi hj).2).1,
          (hm i j (hlt i j hi hj).1 (hlt i j hi hj).2).2])
  · unfold FNcc.cell
    rw [(setup_fields e1 f1 a1 b1 (some k)).1, (setup_fields e1 f1 a1 b1 (some k)).2.1,
      (setup_fields e2 f2 a2 b2 (some k)).1, (setup_fields e2 f2 a2 b2 (some k)).2.1,
      if_neg (by push_cast; omega), if_neg (by push_cast; omega)]

section MaskedOut

variable {K : Type} [LinearOrderedField K]

/-- The pixel loops of the masked engine depend on the engine only through its size, its
mask, and the reads of its two tables. -/
theorem computeNcc_mask_congr (F : FloatOps K) (e1 e2 : FNcc) (hh : e1.height = e2.height)
    (hm : e1.mask = e2.mask) (hmi : e1.mask_integral = e2.mask_integral)
    (hcell : ∀ p, e1.cell p = e2.cell p) (winSize : Int) (dst sumvar : Option OutMap) :
    e1.computeNcc_mask F winSize dst sumvar = e2.computeNcc_mask F winSize dst sumvar := by
  have hstep : ∀ (hasDst hasSv : Bool) (w2 y x : Int) (c1 c2 c3 c4 : Int × Int) (l r : Int),
      maskStep F e1 hasDst hasSv w2 y x c1 c2 c3 c4 l r
        = maskStep F e2 hasDst hasSv w2 y x c1 c2 c3 c4 l r := by
    intro hasDst hasSv w2 y x c1 c2 c3 c4 l r
    simp only [maskStep, FNcc.maskAt, FNcc.maskCount, FNcc.maskCell, FNcc.sum4, ydownOf, hh, hm,
      hmi, hcell]
  have hL : maskLeft F e1 = maskLeft F e2 := by
    funext hasDst hasSv w2 y x
    simp only [maskLeft, hstep, ydownOf, hh]
  have hM : maskMid F e1 = maskMid F e2 := by
    funext hasDst hasSv w2 y x
    simp only [maskMid, hstep, ydownOf, hh]
  have hR : maskRight F e1 = maskRight F e2 := by
    funext hasDst hasSv dstCols w2 y x
    simp only [maskRight, hstep, ydownOf, hh]
  unfold FNcc.computeNcc_mask
  rw [hL, hM, hR, hh]

/-- C13: for a fixed mask and a `windowSize ≥ 1` with the image at least `2·(windowSize/2)+1`
pixels wide (the width of a window), if two (model, candidate) image pairs agree at every pixel
where the mask is not 0, then `setModel`, `setImage` and `computeNcc` run the same iterations
with the same correlation and texture values for both pairs, whatever the pairs hold where the
mask is 0 and whatever the tables held before; and every iteration produces its values. -/
theorem masked_out_pixels_ignored (F : FloatOps K) (e1 e2 : FNcc) (f1 f2 : Tbl CSum)
    (a1 b1 a2 b2 k : Img)
    (hr1 : a1.rows = b1.rows) (hc1 : a1.cols = b1.cols)
    (hr2 : a2.rows = b2.rows) (hc2 : a2.cols = b2.cols)
    (hrows : b1.rows = b2.rows) (hcols : b1.cols = b2.cols)
    (hkr : k.rows = b1.rows) (hkc : k.cols = b1.cols)
    (hagree : ∀ y x, y < b1.rows → x < b1.cols → k.px y x ≠ 0 →
      a1.px y x = a2.px y x ∧ b1.px y x = b2.px y x)
    (winSize : Int) (hws : 1 ≤ winSize) (hW : 2 * Int.tdiv winSize 2 + 1 ≤ (b1.cols : Int))
    (d : OutMap) (hd : d.cols = b1.cols) (sumvar : Option OutMap) :
    ((e1.setModel f1 b1 (some k)).setImage a1).computeNcc F winSize (some d) sumvar
      = ((e2.setModel f2 b2 (some k)).setImage a2).computeNcc F winSize (some d) sumvar ∧
    (∀ st ∈ ((e1.setModel f1 b1 (some k)).setImage a1).computeNcc F winSize (some d) sumvar,
      ∃ v t, st.out = some (some v, t)) ∧
    (∀ y x : Nat, y < b1.rows → x < b1.cols →
      ∃ st ∈ ((e1.setModel f1 b1 (some k)).setImage a1).computeNcc F winSize (some d) sumvar,
        st.y = (y : Int) ∧ st.x = (x : Int)) := by
  have hdisp : ∀ (e : FNcc) (f : Tbl CSum) (a b : Img),
      ((e.setModel f b (some k)).setImage a).computeNcc F winSize (some d) sumvar
        = ((e.setModel f b (some k)).setImage a).computeNcc_mask F winSize (some d) sumvar := by
    intro e f a b
    unfold FNcc.computeNcc
    rw [(setup_fields e f a b (some k)).2.2]
    rfl
  rw [hdisp, hdisp]
  refine ⟨?_, ?_, ?_⟩
  · refine computeNcc_mask_congr F ((e1.setModel f1 b1 (some k)).setImage a1)
      ((e2.setModel f2 b2 (some k)).setImage a2) ?_ rfl rfl
      (cell_agree e1 e2 f1 f2 a1 b1 a2 b2 k hr1 hc1 hr2 hc2 hrows hcols hagree) winSize _ _
    rw [(setup_fields e1 f1 a1 b1 (some k)).2.1, (setup_fields e2 f2 a2 b2 (some k)).2.1, hrows]
  · intro st hst
    obtain ⟨x, y, -, -, -, -, h | h⟩ :=
      mask_step_spec F e1 f1 a1 b1 k hr1 hc1 hkr hkc winSize hws hW d hd sumvar st hst
    · exact ⟨Flt.fin 0, _, h.2⟩
    · rw [h.2.2.2]
      unfold nccValues
      by_cases hs : sumvar.isSome = true
      · simp [hs]
      · simp [hs]
  · intro y x hy hx
    exact mask_covers F _ winSize d sumvar (by rw [hd]; rfl) y x
      ⟨by omega, by rw [(setup_fields e1 f1 a1 b1 (some k)).2.1]; push_cast; omega⟩
      ⟨by omega, by rw [hd]; omega⟩

end MaskedOut

theorem exM_agree (y x : Nat) (hm : exM.px y x ≠ 0) :
    exA.px y x = exA2.px y x ∧ exB.px y x = exB2.px y x := by
  simp only [exM, exA, exA2, exB, exB2, Img.mk8] at hm ⊢
  by_cases h : y = 0 ∧ x = 1
  · simp [h] at hm
  · simp [h]

/-- C13 at a concrete input: the masked 2×3 test images and the pair that differs from them
at the excluded pixel, window size 3. -/
theorem masked_out_pixels_ignored_witness :
    (exA.rows = exB.rows ∧ exA.cols = exB.cols ∧ exA2.rows = exB2.rows ∧ exA2.cols = exB2.cols ∧
      exB.rows = exB2.rows ∧ exB.cols = exB2.cols ∧ exM.rows = exB.rows ∧ exM.cols = exB.cols ∧
      (∀ y x, y < exB.rows → x < exB.cols → exM.px y x ≠ 0 →
        exA.px y x = exA2.px y x ∧ exB.px y x = exB2.px y x) ∧
      exA.px 0 1 ≠ exA2.px 0 1 ∧ exB.px 0 1 ≠ exB2.px 0 1 ∧
      (1 : Int) ≤ 3 ∧ 2 * Int.tdiv 3 2 + 1 ≤ (exB.cols : Int) ∧ (OutMap.mk 2 3).cols = exB.cols) ∧
    ((FNcc.init.setModel (fun _ _ => CSum.zero) exB (some exM)).setImage exA).computeNcc
        (FloatOps.mk (fun t : ℚ => t) (fun t => t)) 3 (some (OutMap.mk 2 3))
        (some (OutMap.mk 2 3))
      = ((FNcc.init.setModel (fun _ _ => CSum.mk 1 2 3 4 5) exB2 (some exM)).setImage
          exA2).computeNcc
        (FloatOps.mk (fun t : ℚ => t) (fun t => t)) 3 (some (OutMap.mk 2 3))
        (some (OutMap.mk 2 3)) :=
  ⟨⟨rfl, rfl, rfl, rfl, rfl, rfl, rfl, rfl, fun y x _ _ hm => exM_agree y x hm, by decide,
      by decide, by decide, by decide, rfl⟩,
    (masked_out_pixels_ignored (FloatOps.mk (fun t : ℚ => t) (fun t => t)) FNcc.init FNcc.init
      (fun _ _ => CSum.zero) (fun _ _ => CSum.mk 1 2 3 4 5) exA exB exA2 exB2 exM rfl rfl rfl rfl
      rfl rfl rfl rfl (fun y x _ _ hm => exM_agree y x hm) 3 (by decide) (by decide)
      (OutMap.mk 2 3) rfl (some (OutMap.mk 2 3))).1⟩

/-! ## Evaluations on concrete inputs -/

/-- C12, evaluated on the masked 2×3 test images: the model image passed in holds 8 at pixel
`(x, y) = (1, 0)`, the mask holds 0 there, and the model image the engine holds after
`setModel` holds 0 at that pixel, whatever the engine and its table held before. -/
theorem setModel_overwrites_model (e0 : FNcc) (fresh : Tbl CSum) :
    exB.px 0 1 = 8 ∧ exM.px 0 1 = 0 ∧ (e0.setModel fresh exB (some exM)).b.px 0 1 = 0 := by
  refine ⟨rfl, rfl, ?_⟩
  have hT0 : ∀ x, x ≤ exB.cols →
      forLoop (exB.cols + 1) (fun x T => T.set 0 x CSum.zero) fresh 0 x = CSum.zero := by
    intro x hx
    rw [forLoop_set_row, if_pos ⟨rfl, by omega⟩]
  have h := (setModel_rows exB (some exM) _ hT0 exB.rows).1 0 1
  have e : (e0.setModel fresh exB (some exM)).b.px
      = (forLoop exB.rows (setModelRow exB.cols (some exM))
          (exB.px, forLoop (exB.cols + 1) (fun x T => T.set 0 x CSum.zero) fresh)).1 := rfl
  rw [e, h]
  decide

/-- C19, evaluated on the 2×3 test images: both are single-channel images of depth `CV_8U`
(depth code 0) with equal rows and columns, they satisfy the assertions of `FNcc::setModel`
and `FNcc::setImage`, and the assertions of `FWNcc::prepare` do not hold for them. -/
theorem prepare_rejects_8bit_images :
    (exA.rows = exB.rows ∧ exA.cols = exB.cols ∧ exA.channels = 1 ∧ exB.channels = 1 ∧
      exA.depth = 0 ∧ exB.depth = 0) ∧
    setModelAsserts exB ∧ ¬ prepareAsserts exA exB := by
  refine ⟨⟨rfl, rfl, rfl, rfl, rfl, rfl⟩, ⟨rfl, rfl⟩, ?_⟩
  rintro ⟨-, -, -, -, h, -⟩
  exact absurd h (by decide)

section TextureOnly

variable {K : Type} [LinearOrderedField K]

/-- C15, evaluated on the 5×5 test images with window size 3, the correlation map absent and
the texture map present: the loop bounds come from `dst.cols = 0`, so every iteration has
column `x ≤ 1` (the pixels of columns 2, 3, 4 get no texture value), and the right-edge loop
runs at column `x = −1`, outside the texture map, from reads outside the table; with the
correlation map present the pixel `(x, y) = (2, 0)` is visited. -/
theorem texture_only_misses_pixels (F : FloatOps K) (fresh : Tbl CSum) :
    (∀ st ∈ ((FNcc.init.setModel fresh exNeg none).setImage exCol).computeNcc_nomask F 3 none
        (some (OutMap.mk 5 5)), st.x ≤ 1) ∧
    (∃ st ∈ ((FNcc.init.setModel fresh exNeg none).setImage exCol).computeNcc_nomask F 3 none
        (some (OutMap.mk 5 5)),
      st.y = 0 ∧ st.x = -1 ∧ st.reads = [(0, -3), (0, 0), (1, 0), (1, -3)] ∧ st.out = none) ∧
    (∃ st ∈ ((FNcc.init.setModel fresh exNeg none).setImage exCol).computeNcc_nomask F 3
        (some (OutMap.mk 5 5)) (some (OutMap.mk 5 5)), st.y = 0 ∧ st.x = 2) := by
  have hh : ((FNcc.init.setModel fresh exNeg none).setImage exCol).height = 6 := rfl
  have hw : ((FNcc.init.setModel fresh exNeg none).setImage exCol).width = 6 := rfl
  have ht : Int.tdiv 3 2 = 1 := by decide
  refine ⟨?_, ?_, ?_⟩
  · intro st hst
    rw [mem_computeNcc_nomask] at hst
    simp only [outCols, ht] at hst
    obtain ⟨y, -, h | h | h⟩ := hst
    · obtain ⟨x, hx, rfl⟩ := h
      show x ≤ 1
      omega
    · obtain ⟨x, hx, rfl⟩ := h
      show x ≤ 1
      omega
    · obtain ⟨x, hx, rfl⟩ := h
      show x ≤ 1
      omega
  · refine ⟨nomaskRight F ((FNcc.init.setModel fresh exNeg none).setImage exCol) false true 0 1
      0 (-1), ?_, rfl, rfl, ?_, ?_⟩
    · rw [mem_computeNcc_nomask]
      refine ⟨0, ?_, Or.inr (Or.inr ⟨-1, ?_, rfl⟩)⟩
      · rw [hh]
        decide
      · simp only [outCols, ht]
        decide
    · simp only [nomaskRight, yupOf, ydownOf, hh]
      decide
    · simp only [nomaskRight, yupOf, ydownOf, FNcc.sum4, FNcc.cell, hh, hw]
      rfl
  · exact nomask_covers F _ 3 (OutMap.mk 5 5) (some (OutMap.mk 5 5)) rfl 0 2
      ⟨by decide, by rw [hh]; decide⟩ ⟨by decide, by decide⟩

end TextureOnly

/-! ## The window of the weighted engine -/

section WeightedWindow

variable {K : Type} [LinearOrderedField K]

/-- The iterations of `FWNcc::compute`, by row and zone. -/
theorem mem_compute (F : FloatOps K) (e : FWNcc K) (winSize : Int) (dst : OutMap)
    (st : WStep (Flt K)) :
    st ∈ e.compute F winSize dst ↔
      ∃ y : Int, (0 ≤ y ∧ y < (dst.rows : Int)) ∧
        ((∃ x : Int, (0 ≤ x ∧ x < Int.tdiv winSize 2) ∧
            e.pixel F y x 0 (max (y - Int.tdiv winSize 2) 0) (x + Int.tdiv winSize 2)
              (min (y + Int.tdiv winSize 2) (dst.rows : Int)) = st) ∨
          (∃ x : Int, (Int.tdiv winSize 2 ≤ x ∧ x < (dst.cols : Int) - Int.tdiv winSize 2) ∧
            e.pixel F y x (x - Int.tdiv winSize 2) (max (y - Int.tdiv winSize 2) 0)
              (x + Int.tdiv winSize 2) (min (y + Int.tdiv winSize 2) (dst.rows : Int)) = st) ∨
          (∃ x : Int, ((dst.cols : Int) - Int.tdiv winSize 2 ≤ x ∧ x < (dst.cols : Int)) ∧
            e.pixel F y x (x - Int.tdiv winSize 2) (max (y - Int.tdiv winSize 2) 0)
              (dst.cols : Int) (min (y + Int.tdiv winSize 2) (dst.rows : Int)) = st)) := by
  simp only [FWNcc.compute, List.mem_flatMap, List.mem_append, List.mem_map, mem_intRange,
    or_assoc]

/-- The rectangle `FWNcc::compute` passes to `correl` for a pixel whose window touches no
border: `(x−w, y−w, x+w, y+w)`. -/
theorem compute_interior (F : FloatOps K) (e : FWNcc K) (winSize : Int) (d : OutMap)
    (x y : Int) (hx : Int.tdiv winSize 2 ≤ x ∧ x < (d.cols : Int) - Int.tdiv winSize 2)
    (hy : Int.tdiv winSize 2 ≤ y ∧ y + Int.tdiv winSize 2 < (d.rows : Int))
    (hw : 0 ≤ Int.tdiv winSize 2) :
    (∃ st ∈ e.compute F winSize d, st.y = y ∧ st.x = x) ∧
    (∀ st ∈ e.compute F winSize d, st.y = y → st.x = x →
      st.x1 = x - Int.tdiv winSize 2 ∧ st.y1 = y - Int.tdiv winSize 2 ∧
      st.x2 = x + Int.tdiv winSize 2 ∧ st.y2 = y + Int.tdiv winSize 2 ∧
      st.val = e.correl F (x - Int.tdiv winSize 2) (y - Int.tdiv winSize 2)
        (x + Int.tdiv winSize 2) (y + Int.tdiv winSize 2) x y) := by
  have et : max (y - Int.tdiv winSize 2) 0 = y - Int.tdiv winSize 2 := max_eq_left (by omega)
  have eb : min (y + Int.tdiv winSize 2) (d.rows : Int) = y + Int.tdiv winSize 2 :=
    min_eq_left (by omega)
  constructor
  · refine ⟨e.pixel F y x (x - Int.tdiv winSize 2) (max (y - Int.tdiv winSize 2) 0)
      (x + Int.tdiv winSize 2) (min (y + Int.tdiv winSize 2) (d.rows : Int)), ?_, rfl, rfl⟩
    rw [mem_compute]
    exact ⟨y, ⟨by omega, by omega⟩, Or.inr (Or.inl ⟨x, hx, rfl⟩)⟩
  · intro st hst hsy hsx
    rw [mem_compute] at hst
    obtain ⟨y', -, h | h | h⟩ := hst
    · obtain ⟨x', hx', rfl⟩ := h
      simp only [FWNcc.pixel] at hsy hsx
      omega
    · obtain ⟨x', hx', rfl⟩ := h
      simp only [FWNcc.pixel] at hsy hsx ⊢
      subst hsy hsx
      rw [et, eb]
      exact ⟨rfl, rfl, rfl, rfl, rfl⟩
    · obtain ⟨x', hx', rfl⟩ := h
      simp only [FWNcc.pixel] at hsy hsx
      omega

end WeightedWindow

/-- The square of the weighted engine is the square of the plain engine without its first
row and first column. -/
theorem rectPixels_shrink (x y w : Int) :
    rectPixels (x - w) (y - w) (x + w) (y + w)
      = (rectPixels (x - w - 1) (y - w - 1) (x + w) (y + w)).filter
          (fun p => p.1 ≠ y - w - 1 ∧ p.2 ≠ x - w - 1) := by
  ext p
  simp only [rectPixels, Finset.mem_filter, Finset.mem_product, Finset.mem_Ico]
  omega


section WindowCompare

variable {K : Type} [LinearOrderedField K]

/-- The rectangles of both engines at a pixel `(x, y)` whose windows touch no border, for
`w = windowSize/2`: `FWNcc::compute` passes `correl` the rectangle `(x−w, y−w, x+w, y+w)`,
whose sums `fetchRect` takes over the source pixels of columns `x−w..x+w−1` and rows
`y−w..y+w−1`, while `computeNcc_nomask` reads the table corners of the rectangle
`(x−w−1, y−w−1, x+w, y+w)`; the former holds the pixels of the latter except its first row
and first column. -/
theorem interior_windows_of_both_engines (F : FloatOps K) (e0 : FNcc) (fresh : Tbl CSum)
    (a b : Img) (wm : Option (Nat → Nat → K)) (hr : a.rows = b.rows) (hc : a.cols = b.cols)
    (winSize : Int) (hws : 1 ≤ winSize) (d : OutMap) (hd : d.cols = b.cols)
    (hdr : d.rows = b.rows) (x y : Int)
    (hx : Int.tdiv winSize 2 + 1 ≤ x ∧ x < (b.cols : Int) - Int.tdiv winSize 2)
    (hy : Int.tdiv winSize 2 + 1 ≤ y ∧ y + Int.tdiv winSize 2 < (b.rows : Int)) :
    ((∃ wst ∈ (FWNcc.prepare a b wm).compute F winSize d, wst.y = y ∧ wst.x = x) ∧
      (∀ wst ∈ (FWNcc.prepare a b wm).compute F winSize d, wst.y = y → wst.x = x →
        wst.x1 = x - Int.tdiv winSize 2 ∧ wst.y1 = y - Int.tdiv winSize 2 ∧
        wst.x2 = x + Int.tdiv winSize 2 ∧ wst.y2 = y + Int.tdiv winSize 2) ∧
      ∃ s, (FWNcc.prepare a b wm).fetchRect (x - Int.tdiv winSize 2) (y - Int.tdiv winSize 2)
            (x + Int.tdiv winSize 2) (y + Int.tdiv winSize 2) = some s ∧
        ∀ k, k < NSUMS → s k = rectSum (quantity a b wm k) (x - Int.tdiv winSize 2).toNat
          (y - Int.tdiv winSize 2).toNat (x + Int.tdiv winSize 2).toNat
          (y + Int.tdiv winSize 2).toNat) ∧
    ((∃ st ∈ ((e0.setModel fresh b none).setImage a).computeNcc_nomask F winSize (some d) none,
        st.y = y ∧ st.x = x) ∧
      ∀ st ∈ ((e0.setModel fresh b none).setImage a).computeNcc_nomask F winSize (some d) none,
        st.y = y → st.x = x →
        st.reads = [(y - Int.tdiv winSize 2 - 1, x - Int.tdiv winSize 2 - 1),
          (y - Int.tdiv winSize 2 - 1, x + Int.tdiv winSize 2),
          (y + Int.tdiv winSize 2, x + Int.tdiv winSize 2),
          (y + Int.tdiv winSize 2, x - Int.tdiv winSize 2 - 1)] ∧
        ∃ N, st.out = some (nccValues F true false
          (winSums none a b (x - Int.tdiv winSize 2 - 1).toNat (y - Int.tdiv winSize 2 - 1).toNat
            (x + Int.tdiv winSize 2).toNat (y + Int.tdiv winSize 2).toNat) N (Flt.sqrtf F N))) ∧
    rectPixels (x - Int.tdiv winSize 2) (y - Int.tdiv winSize 2) (x + Int.tdiv winSize 2)
        (y + Int.tdiv winSize 2)
      = (rectPixels (x - Int.tdiv winSize 2 - 1) (y - Int.tdiv winSize 2 - 1)
          (x + Int.tdiv winSize 2) (y + Int.tdiv winSize 2)).filter
          (fun p => p.1 ≠ y - Int.tdiv winSize 2 - 1 ∧ p.2 ≠ x - Int.tdiv winSize 2 - 1) := by
  have hw2 := tdiv_two_nonneg winSize hws
  have hci := compute_interior F (FWNcc.prepare a b wm) winSize d x y
    ⟨by omega, by rw [hd]; omega⟩ ⟨by omega, by rw [hdr]; omega⟩ hw2
  refine ⟨⟨hci.1, fun wst hwst h1 h2 => ?_, ?_⟩, ⟨?_, ?_⟩, rectPixels_shrink x y _⟩
  · obtain ⟨g1, g2, g3, g4, -⟩ := hci.2 wst hwst h1 h2
    exact ⟨g1, g2, g3, g4⟩
  · obtain ⟨s, hs, hk⟩ := fetchRect_prepare a b wm (x - Int.tdiv winSize 2).toNat
      (y - Int.tdiv winSize 2).toNat (x + Int.tdiv winSize 2).toNat
      (y + Int.tdiv winSize 2).toNat (by omega) (by omega) (by omega) (by omega)
    rw [Int.toNat_of_nonneg (by omega), Int.toNat_of_nonneg (by omega),
      Int.toNat_of_nonneg (by omega), Int.toNat_of_nonneg (by omega)] at hs
    exact ⟨s, hs, hk⟩
  · exact nomask_covers F _ winSize d none (by rw [hd]; rfl) y x
      ⟨by omega, by rw [(setup_fields e0 fresh a b none).2.1]; push_cast; omega⟩
      ⟨by omega, by rw [hd]; omega⟩
  · intro st hst hsy hsx
    obtain ⟨x', y', N, -, hy', hx', hreads, -, -, hout⟩ :=
      nomask_step_spec F e0 fresh a b none hr hc winSize hws (by omega) d hd none st hst
    obtain rfl : y' = y := by rw [← hy', hsy]
    obtain rfl : x' = x := by rw [← hx', hsx]
    have e1 : yupOf (Int.tdiv winSize 2) y' = y' - Int.tdiv winSize 2 - 1 := by
      unfold yupOf
      omega
    have e2 : winLeft (Int.tdiv winSize 2) x' = x' - Int.tdiv winSize 2 - 1 := by
      unfold winLeft
      omega
    have e3 : winRight b.cols (Int.tdiv winSize 2) x' = x' + Int.tdiv winSize 2 := by
      unfold winRight
      omega
    have e4 : min (b.rows : Int) (y' + Int.tdiv winSize 2) = y' + Int.tdiv winSize 2 := by
      omega
    rw [e1, e2, e3, e4] at hreads hout
    exact ⟨hreads, N, hout⟩

end WindowCompare

/-- C17, evaluated on the 5×5 test images with window size 3 at the interior pixel
`(x, y) = (2, 2)`: `FWNcc::compute` passes `correl` the rectangle
`(x1, y1, x2, y2) = (1, 1, 3, 3)` (columns and rows 1..2), while `computeNcc_nomask` reads the
table corners `(row, column) = (0,0), (0,3), (3,3), (3,0)` (columns and rows 0..2); the pixel
`(0, 0)` lies in the rectangle of the plain engine and not in that of the weighted engine. -/
theorem weighted_window_differs_from_plain (F : FloatOps ℝ) (fresh : Tbl CSum) :
    (∃ wst ∈ (FWNcc.prepare exCol exNeg none).compute F 3 (OutMap.mk 5 5),
      wst.y = 2 ∧ wst.x = 2) ∧
    (∀ wst ∈ (FWNcc.prepare exCol exNeg none).compute F 3 (OutMap.mk 5 5),
      wst.y = 2 → wst.x = 2 → wst.x1 = 1 ∧ wst.y1 = 1 ∧ wst.x2 = 3 ∧ wst.y2 = 3) ∧
    (∃ st ∈ ((FNcc.init.setModel fresh exNeg none).setImage exCol).computeNcc_nomask F 3
        (some (OutMap.mk 5 5)) none, st.y = 2 ∧ st.x = 2) ∧
    (∀ st ∈ ((FNcc.init.setModel fresh exNeg none).setImage exCol).computeNcc_nomask F 3
        (some (OutMap.mk 5 5)) none,
      st.y = 2 → st.x = 2 → st.reads = [(0, 0), (0, 3), (3, 3), (3, 0)]) ∧
    ((0 : Int), (0 : Int)) ∈ rectPixels 0 0 3 3 ∧ ((0 : Int), (0 : Int)) ∉ rectPixels 1 1 3 3 := by
  have h := interior_windows_of_both_engines F FNcc.init fresh exCol exNeg none rfl rfl 3
    (by decide) (OutMap.mk 5 5) rfl rfl 2 2 (by decide) (by decide)
  obtain ⟨⟨hw1, hw2, -⟩, ⟨hp1, hp2⟩, -⟩ := h
  refine ⟨hw1, fun wst hwst hy hx => ?_, hp1, fun st hst hy hx => ?_, ?_, ?_⟩
  · obtain ⟨g1, g2, g3, g4⟩ := hw2 wst hwst hy hx
    rw [g1, g2, g3, g4]
    decide
  · rw [(hp2 st hst hy hx).1]
    decide
  · simp [rectPixels]
  · simp [rectPixels]

/-! ## The decision rule of `FWNcc::correl` -/

section Decision

variable {K : Type} [LinearOrderedField K]

end Decision

section DecisionClaim

variable {K : Type} [LinearOrderedField K]

end DecisionClaim

/-! ## The multi-channel engine -/

/-- The value of a map at a pixel after a run every store of which at that pixel stores `v`. -/
theorem foldl_storeDst {K : Type} (l : List (Step K)) (y x : Int) (v : K)
    (h : ∀ st ∈ l, st.y = y → st.x = x → ∃ t, st.out = some (some v, t)) (init : FMap K) :
    l.foldl Step.storeDst init y x
      = if ∃ st ∈ l, st.y = y ∧ st.x = x then some v else init y x := by
  induction l generalizing init with
  | nil => simp
  | cons st l ih =>
    rw [List.foldl_cons, ih (fun s hs => h s (List.mem_cons_of_mem _ hs))]
    by_cases hl : ∃ s ∈ l, s.y = y ∧ s.x = x
    · rw [if_pos hl, if_pos]
      obtain ⟨s, hs, hs2⟩ := hl
      exact ⟨s, List.mem_cons_of_mem _ hs, hs2⟩
    · rw [if_neg hl]
      by_cases hst : st.y = y ∧ st.x = x
      · rw [if_pos ⟨st, List.mem_cons_self _ _, hst⟩]
        obtain ⟨t, ht⟩ := h st (List.mem_cons_self _ _) hst.1 hst.2
        simp only [Step.storeDst, ht]
        rw [if_pos ⟨hst.1.symm, hst.2.symm⟩]
      · rw [if_neg]
        · simp only [Step.storeDst]
          rw [if_neg]
          rintro ⟨h1, h2⟩
          exact hst ⟨h1.symm, h2.symm⟩
        · rintro ⟨s, hs, hs2⟩
          rcases List.mem_cons.1 hs with rfl | hs'
          · exact hst hs2
          · exact hl ⟨s, hs', hs2⟩

theorem dstMap_eq {K : Type} (l : List (Step K)) (y x : Int) (v : K)
    (h : ∀ st ∈ l, st.y = y → st.x = x → ∃ t, st.out = some (some v, t))
    (hex : ∃ st ∈ l, st.y = y ∧ st.x = x) : dstMap l y x = some v := by
  unfold dstMap
  rw [foldl_storeDst l y x v h, if_pos hex]

section MergeProofs

variable {K : Type} [LinearOrderedField K]

/-- With a single-channel `dst`, `FNccMC::computeNcc` runs the engine of channel 0 only and
`merge` stores its map, scaled by `1.0/1`: the correlation map of channel 0. -/
theorem computeNcc_single_channel (F : FloatOps K) (m : FNccMC) (windowSize : Int) (d : OutMap)
    (svChannels : Nat) (sumvar : Option OutMap) (tmp1 tmp2 : Nat → FMap (Flt K)) :
    (m.computeNcc F windowSize 1 d svChannels sumvar tmp1 tmp2).1 0
      = dstMap ((m.ncc 0).computeNcc F windowSize (some d) (sumvar.map (fun _ => d))) := by
  funext y x
  have h1 : (Flt.fin 1 / Flt.ofInt ((1 : Nat) : Int) : Flt K) = Flt.fin 1 := by
    rw [Flt.one_div_ofInt _ (by norm_num)]
    norm_num
  simp only [FNccMC.computeNcc, FNccMC.merge, forLoop, h1, Flt.mul_fin_one]
  simp

end MergeProofs

/-- The iteration for pixel `(x, y) = (1, 0)` of a pair of 1×3 images with window size 3 uses
the sums over the columns 0 and 1 with `N = 1/2`. -/
theorem step_of_1x3 (F : FloatOps ℝ) (fresh : Tbl CSum) (a b : Img)
    (hbr : b.rows = 1) (hbc : b.cols = 3) (har : a.rows = 1) (hac : a.cols = 3) :
    (∃ st ∈ ((FNcc.init.setModel fresh b none).setImage a).computeNcc F 3 (some (OutMap.mk 1 3))
        none, st.y = 0 ∧ st.x = 1) ∧
    ∀ st ∈ ((FNcc.init.setModel fresh b none).setImage a).computeNcc F 3 (some (OutMap.mk 1 3))
        none, st.y = 0 → st.x = 1 →
      st.out = some (nccValues F true false (winSums none a b 0 0 2 1) (Flt.fin (1 / 2))
        (Flt.sqrtf F (Flt.fin (1 / 2)))) := by
  have hdisp : ((FNcc.init.setModel fresh b none).setImage a).computeNcc F 3
      (some (OutMap.mk 1 3)) none
      = ((FNcc.init.setModel fresh b none).setImage a).computeNcc_nomask F 3
        (some (OutMap.mk 1 3)) none := by
    unfold FNcc.computeNcc
    rw [(setup_fields FNcc.init fresh a b none).2.2]
    rfl
  rw [hdisp]
  constructor
  · exact nomask_covers F _ 3 (OutMap.mk 1 3) none
      (by rw [(setup_fields FNcc.init fresh a b none).1, hbc]) 0 1
      ⟨by decide, by rw [(setup_fields FNcc.init fresh a b none).2.1, hbr]; decide⟩
      ⟨by decide, by decide⟩
  · intro st hst hy hx
    obtain ⟨x', y', N, -, hy', hx', -, -, hN, hout⟩ :=
      nomask_step_spec F FNcc.init fresh a b none (by rw [har, hbr]) (by rw [hac, hbc]) 3
        (by decide) (by rw [hbc]; decide) (OutMap.mk 1 3) (by rw [hbc]) none st hst
    obtain rfl : y' = 0 := by rw [← hy', hy]
    obtain rfl : x' = 1 := by rw [← hx', hx]
    rw [hbc, hbr] at hN hout
    have e1 : winLeft (Int.tdiv 3 2) 1 = 0 := by decide
    have e2 : yupOf (Int.tdiv 3 2) 0 = 0 := by decide
    have e3 : winRight ((3 : Nat) : Int) (Int.tdiv 3 2) 1 = 2 := by decide
    have e4 : min (((1 : Nat) : Int)) (0 + Int.tdiv 3 2) = 1 := by decide
    rw [e1, e2, e3, e4] at hN hout
    have e5 : (0 : Int).toNat = 0 := rfl
    have e6 : (2 : Int).toNat = 2 := rfl
    have e7 : (1 : Int).toNat = 1 := rfl
    rw [e5, e6, e7] at hout
    have hN2 : N = Flt.fin (1 / 2) := by
      rw [hN (by norm_num)]
      norm_num
    rw [hout, hN2]
    rfl

/-- C11, evaluated on a two-channel 1×3 model `([0,2,0], [7,7,7])` and image
`([0,1,0], [7,7,7])` with window size 3 and a single-channel destination: at pixel
`(x, y) = (1, 0)` the correlation of channel 0 is 1 and that of channel 1 is 0 (mean 1/2), and
the value `FNccMC::computeNcc` leaves in `dst` is 1, the value of channel 0. -/
theorem single_channel_dst_is_first_channel (fresh : Nat → Tbl CSum)
    (tmp1 tmp2 : Nat → FMap (Flt ℝ)) :
    dstMap ((((FNccMC.init.setModel fresh exModel2 none).setImage exImage2).ncc 0).computeNcc
      (FloatOps.mk Real.sqrt (fun t => 1 / Real.sqrt t)) 3 (some (OutMap.mk 1 3)) none) 0 1
      = some (Flt.fin 1) ∧
    dstMap ((((FNccMC.init.setModel fresh exModel2 none).setImage exImage2).ncc 1).computeNcc
      (FloatOps.mk Real.sqrt (fun t => 1 / Real.sqrt t)) 3 (some (OutMap.mk 1 3)) none) 0 1
      = some (Flt.fin 0) ∧
    (((FNccMC.init.setModel fresh exModel2 none).setImage exImage2).computeNcc
      (FloatOps.mk Real.sqrt (fun t => 1 / Real.sqrt t)) 3 1 (OutMap.mk 1 3) 0 none tmp1
      tmp2).1 0 0 1 = some (Flt.fin 1) := by
  have hc0 : ((FNccMC.init.setModel fresh exModel2 none).setImage exImage2).ncc 0
      = (FNcc.init.setModel (fresh 0) ex020 none).setImage ex010 := rfl
  have hc1 : ((FNccMC.init.setModel fresh exModel2 none).setImage exImage2).ncc 1
      = (FNcc.init.setModel (fresh 1) ex777 none).setImage ex777 := rfl
  have hs0 : winSums none ex010 ex020 0 0 2 1 = CSum.mk 1 1 2 4 2 := by decide
  have hs1 : winSums none ex777 ex777 0 0 2 1 = CSum.mk 14 98 14 98 98 := by decide
  have hv0 : nccValues (FloatOps.mk Real.sqrt (fun t => 1 / Real.sqrt t)) true false
      (CSum.mk 1 1 2 4 2) (Flt.fin (1 / 2))
      (Flt.sqrtf (FloatOps.mk Real.sqrt (fun t => 1 / Real.sqrt t)) (Flt.fin (1 / 2)))
      = (some (Flt.fin 1), none) := by
    rw [nccValues_of_fin _ _ _ _ _ (by norm_num)]
    simp only [nccReal]
    norm_num
  have hv1 : nccValues (FloatOps.mk Real.sqrt (fun t => 1 / Real.sqrt t)) true false
      (CSum.mk 14 98 14 98 98) (Flt.fin (1 / 2))
      (Flt.sqrtf (FloatOps.mk Real.sqrt (fun t => 1 / Real.sqrt t)) (Flt.fin (1 / 2)))
      = (some (Flt.fin 0), none) := by
    rw [nccValues_of_fin _ _ _ _ _ (by norm_num)]
    simp only [nccReal]
    norm_num
  have h0 := step_of_1x3 (FloatOps.mk Real.sqrt (fun t => 1 / Real.sqrt t)) (fresh 0) ex010
    ex020 rfl rfl rfl rfl
  have h1 := step_of_1x3 (FloatOps.mk Real.sqrt (fun t => 1 / Real.sqrt t)) (fresh 1) ex777
    ex777 rfl rfl rfl rfl
  rw [hs0] at h0
  rw [hs1] at h1
  have g0 : dstMap (((FNcc.init.setModel (fresh 0) ex020 none).setImage ex010).computeNcc
      (FloatOps.mk Real.sqrt (fun t => 1 / Real.sqrt t)) 3 (some (OutMap.mk 1 3)) none) 0 1
      = some (Flt.fin 1) :=
    dstMap_eq _ 0 1 (Flt.fin 1) (fun st hst hy hx => ⟨none, by rw [h0.2 st hst hy hx]; exact congrArg _ hv0⟩)
      h0.1
  have g1 : dstMap (((FNcc.init.setModel (fresh 1) ex777 none).setImage ex777).computeNcc
      (FloatOps.mk Real.sqrt (fun t => 1 / Real.sqrt t)) 3 (some (OutMap.mk 1 3)) none) 0 1
      = some (Flt.fin 0) :=
    dstMap_eq _ 0 1 (Flt.fin 0) (fun st hst hy hx => ⟨none, by rw [h1.2 st hst hy hx]; exact congrArg _ hv1⟩)
      h1.1
  rw [computeNcc_single_channel, hc0, hc1]
  exact ⟨g0, g1, g0⟩

end Emvisi2
